import Mathlib

/-!
# Formal model of libwsong's IPC core

A shallow embedding, in Lean 4, of the parts of the `libwsong` library that
the specification's claims are about:

* the lockless shared-memory ring buffer (`src/ipc/ring_buffer.cpp`),
* the binary-tree buddy allocator (`src/ipc/buddy_system.cpp` /
  `buddy_system.hpp`),
* the virtual-address-window wrapper (`src/ipc/shmpool_metadata` /
  `VAW`), and
* ring-buffer segment creation (`RingBuffer::create_ring_buffer`).

Machine integers are modelled as `Nat` with explicit reductions modulo
`2^32` / `2^64` where the C++ code computes in `uint32_t` / `uint64_t`
arithmetic.  Fallible C++ code (functions that throw) is modelled with
`Except`.  Exceptions carry a *kind* mirroring the exception class
hierarchy of `wsong/exceptions.hpp`; messages are not modelled.
-/

namespace Wsong

/--
The exception kinds of `wsong/exceptions.hpp`: `ws_exp` (the root, thrown
directly by some OS-failure paths), `ws_invalid_argument_exp`,
`ws_system_error_exp`, `ws_timeout_exp` and `ws_reinitialization_exp`.
There is no dedicated out-of-space kind in the library; the buddy system
reports exhaustion through `ws_system_error_exp`.
-/
inductive ErrKind where
  | base
  | invalidArgument
  | systemError
  | timeout
  | reinitialization
deriving DecidableEq, Repr

/-! ## Ring buffer (`src/ipc/ring_buffer.cpp`)

The shared state of a ring buffer: the two monotonic 32-bit cursors and
the slot array (`capacity` slots of `entry_size` bytes each).  `head` and
`tail` are kept reduced modulo `2^32`, exactly as the `uint32_t` cursors
of the C++ code.  The producer/consumer spin gates are not part of this
sequential model; the modelled calls are the `multiple_producer == false`
/ `multiple_consumer == false` code paths, on which the gates are never
touched.
-/

/-- `2^32`, the modulus of the `uint32_t` cursor arithmetic. -/
def U32MOD : Nat := 4294967296

structure RBSt where
  head : Nat
  tail : Nat
  slots : List (List Nat)
deriving DecidableEq, Repr

/-- `RB_SIZE`'s inner subtraction `(RB_TAIL - RB_HEAD)`: performed on
`uint32_t` values, hence modulo `2^32`. -/
def rbSub32 (st : RBSt) : Nat := (st.tail + U32MOD - st.head) % U32MOD

/-- `RB_SIZE ((RB_TAIL - RB_HEAD) % RB_CAPACITY)`. -/
def rbSize (cap : Nat) (st : RBSt) : Nat := rbSub32 st % cap

/-- `RB_IS_FULL (RB_SIZE == RB_CAPACITY - 1)`. -/
def rbIsFull (cap : Nat) (st : RBSt) : Prop := rbSize cap st = cap - 1

/-- `RB_IS_EMPTY (RB_SIZE == 0)`. -/
def rbIsEmpty (cap : Nat) (st : RBSt) : Prop := rbSize cap st = 0

instance (cap : Nat) (st : RBSt) : Decidable (rbIsFull cap st) := by
  unfold rbIsFull; infer_instance

instance (cap : Nat) (st : RBSt) : Decidable (rbIsEmpty cap st) := by
  unfold rbIsEmpty; infer_instance

/-- The slot write of a successful produce iteration:
`memcpy(RB_TAIL_BUFFER, buffer, size)` followed by `RB_TAIL++`.
The slot at index `tail % capacity` gets its first `size` bytes replaced
by the payload; the `uint32_t` tail cursor wraps modulo `2^32`. -/
def rbWrite (cap : Nat) (st : RBSt) (payload : List Nat) : RBSt :=
  { st with
    tail := (st.tail + 1) % U32MOD
    slots := st.slots.set (st.tail % cap)
      (payload ++ (st.slots.get! (st.tail % cap)).drop payload.length) }

/-- The read of a successful consume iteration:
`memcpy(buffer, RB_HEAD_BUFFER, size)` followed by `RB_HEAD++`.
Returns the `size` bytes read out of slot `head % capacity`. -/
def rbRead (cap : Nat) (st : RBSt) (size : Nat) : List Nat × RBSt :=
  ((st.slots.get! (st.head % cap)).take size,
    { st with head := (st.head + 1) % U32MOD })

/--
The polling loop of `RingBuffer::produce`, translated verbatim:

```cpp
do {
    if (RB_IS_FULL) { continue; }
    else { memcpy(RB_TAIL_BUFFER,buffer,size); RB_TAIL++; succ = true; break; }
} while (end < std::chrono::steady_clock::now());
```

`clock i` is the value returned by the `i`-th call to
`std::chrono::steady_clock::now()` during this `produce` call (reading 0
computes the deadline; each loop-condition evaluation consumes one further
reading).  The loop of the C++ code has no iteration bound, so the
translation takes a `fuel` argument; `none` means the loop was still
spinning after `fuel` iterations.  `some (succ, st')` mirrors the state of
the C++ `succ` flag when the loop exits.
-/
def produceGo (cap : Nat) (payload : List Nat) (endT : Nat) (clock : Nat → Nat) :
    Nat → Nat → RBSt → Option (Bool × RBSt)
  | 0, _, _ => none
  | fuel + 1, i, st =>
    if rbIsFull cap st then
      -- `continue`: evaluate the do-while condition `end < now()`
      if endT < clock i then produceGo cap payload endT clock fuel (i + 1) st
      else some (false, st)
    else
      some (true, rbWrite cap st payload)

/--
`RingBuffer::produce(buffer, size, timeout_ns)` (single-producer path).
Throws `ws_invalid_argument_exp` when `size > RB_ENTRY_SIZE || size == 0`;
then computes `end = now() + timeout_ns` and runs the polling loop; throws
`ws_timeout_exp` when the loop exits without success.  `none` models the
unbounded C++ loop still spinning after `fuel` iterations.
-/
def produce (cap es : Nat) (st : RBSt) (buf : List Nat) (size timeoutNs : Nat)
    (clock : Nat → Nat) (fuel : Nat) : Option (Except ErrKind RBSt) :=
  if size > es ∨ size = 0 then some (.error .invalidArgument)
  else
    let endT := clock 0 + timeoutNs
    match produceGo cap (buf.take size) endT clock fuel 1 st with
    | none => none
    | some (true, st') => some (.ok st')
    | some (false, _) => some (.error .timeout)

/-- The polling loop of `RingBuffer::consume`, with the *empty* predicate
in place of the *full* one; same inverted do-while condition. -/
def consumeGo (cap : Nat) (size : Nat) (endT : Nat) (clock : Nat → Nat) :
    Nat → Nat → RBSt → Option (Bool × List Nat × RBSt)
  | 0, _, _ => none
  | fuel + 1, i, st =>
    if rbIsEmpty cap st then
      if endT < clock i then consumeGo cap size endT clock fuel (i + 1) st
      else some (false, [], st)
    else
      some (true, rbRead cap st size)

/-- `RingBuffer::consume(buffer, size, timeout_ns)` (single-consumer path). -/
def consume (cap es : Nat) (st : RBSt) (size timeoutNs : Nat)
    (clock : Nat → Nat) (fuel : Nat) : Option (Except ErrKind (List Nat × RBSt)) :=
  if size > es ∨ size = 0 then some (.error .invalidArgument)
  else
    let endT := clock 0 + timeoutNs
    match consumeGo cap size endT clock fuel 1 st with
    | none => none
    | some (true, v, st') => some (.ok (v, st'))
    | some (false, _, _) => some (.error .timeout)

/-- The state of a freshly created ring buffer: zeroed cursors and zeroed
slots (the new System-V segment is zero-filled by the kernel). -/
def rbInit (cap es : Nat) : RBSt :=
  { head := 0, tail := 0, slots := List.replicate cap (List.replicate es 0) }

/-! ### The produce/consume polling loop and its deadline test -/

/-- A capacity-4 ring holding three pending 1-byte entries (the state of
the spec's *RB full timeout* scenario after its three successful
produces): `rbSize = 3 = capacity - 1`, i.e. the ring is full. -/
def rbFull3 : RBSt := { head := 0, tail := 3, slots := [[7], [8], [9], [0]] }

/-- A steady-clock trace whose readings after the deadline computation
are already past any small deadline: reading 0 (used for the deadline)
is 0, every later reading is `100 + i`. -/
def rbLateClock : Nat → Nat := fun i => if i = 0 then 0 else 100 + i

/-- The ring-buffer states reachable from a freshly created ring by any
sequence of successful `produce` and `consume` calls (arbitrary payloads,
sizes, timeouts and clock traces). -/
inductive RBReach (cap es : Nat) : RBSt → Prop where
  | init : RBReach cap es (rbInit cap es)
  | prod {st st' : RBSt} {buf : List Nat} {size t fuel : Nat} {clock : Nat → Nat} :
      RBReach cap es st → produce cap es st buf size t clock fuel = some (.ok st') →
      RBReach cap es st'
  | cons {st st' : RBSt} {v : List Nat} {size t fuel : Nat} {clock : Nat → Nat} :
      RBReach cap es st → consume cap es st size t clock fuel = some (.ok (v, st')) →
      RBReach cap es st'

/-- Reachability with produce/consume histories, for the FIFO claim: all
operations use one common payload size `s`.  `P` collects the payloads of
the successful produces in order (`buf.take s` is exactly what `memcpy`
copies into the slot), `Q` the byte vectors delivered by the successful
consumes in order. -/
inductive RBReachH (cap es s : Nat) :
    RBSt → List (List Nat) → List (List Nat) → Prop where
  | init : RBReachH cap es s (rbInit cap es) [] []
  | prod {st st' : RBSt} {P Q : List (List Nat)} {buf : List Nat} {t fuel : Nat}
      {clock : Nat → Nat} :
      RBReachH cap es s st P Q → s ≤ buf.length →
      produce cap es st buf s t clock fuel = some (.ok st') →
      RBReachH cap es s st' (P ++ [buf.take s]) Q
  | cons {st st' : RBSt} {P Q : List (List Nat)} {v : List Nat} {t fuel : Nat}
      {clock : Nat → Nat} :
      RBReachH cap es s st P Q →
      consume cap es st s t clock fuel = some (.ok (v, st')) →
      RBReachH cap es s st' P (Q ++ [v])

/-- The inductive invariant tying a reachable ring state to its
produce/consume histories: the cursors are reduced `uint32_t` values, the
pending entries sit in slots `head % cap`, `(head+1) % cap`, … in order,
consumed entries are a prefix of produced ones, and the pending count
`(tail - head) mod 2^32` never exceeds `capacity - 1`. -/
structure RBInv (cap s : Nat) (st : RBSt) (P Q : List (List Nat)) : Prop where
  hlen : st.slots.length = cap
  hh : st.head < U32MOD
  ht : st.tail < U32MOD
  hQP : Q.length ≤ P.length
  hsz : rbSub32 st = P.length - Q.length
  hbound : rbSub32 st ≤ cap - 1
  hpend : ∀ j, j < rbSub32 st →
    ((st.slots.getD ((st.head + j) % cap) []).take s) = P.getD (Q.length + j) []
  hPlen : ∀ x ∈ P, x.length = s
  hpre : ∀ i, i < Q.length → Q.getD i [] = P.getD i []

/-! ## Buddy system (`src/ipc/buddy_system.cpp` + `buddy_system.hpp`)

The binary-tree buddy allocator.  The tree is an array of signed 64-bit
cells (modelled as `Int`), indices `1 .. 2*(C/U) - 1`, root at index 1,
children of `n` at `2n` and `2n+1`.  `IDLE = 0`, `SPLT_HALFWAY = -1`,
`SPLT_FULL = -2`, positive = allocated with the stored requested size.

Node ids are `uint32_t` in the C++ code; they are modelled as `Nat`,
which agrees with the C++ values on every tree of at most 31 levels
(ids stay below `2^31`, so `cur << 1` never wraps).
-/

/-- Bounded helper for the bit length: `bitLenGo fuel n` halves `n` up to
`fuel` times.  Since `n < 2^n`, the fuel `n` always suffices, giving the
total, kernel-computable `bitLen`. -/
def bitLenGo : Nat → Nat → Nat
  | 0, _ => 0
  | fuel + 1, n => if n = 0 then 0 else bitLenGo fuel (n / 2) + 1

/-- The binary length of `n`: position of the highest set bit plus one,
and 0 for 0.  For `1 ≤ x < 2^32`, `32 - __builtin_clz(x) = bitLen x`. -/
def bitLen (n : Nat) : Nat := bitLenGo n n

/-- `__builtin_clz(x)` — a 32-bit count whose argument is converted to
`unsigned int`, i.e. reduced modulo `2^32` — as called inside
`nearest_power_of_two` on any argument width.  (The C call is undefined
for a zero argument; the model returns 32 there.) -/
def clz32 (x : Nat) : Nat := 32 - bitLen (x % U32MOD)

/-- `is_power_of_two(x)`: `(x & (x-1)) == 0 && x != 0`. -/
def isPow2 (x : Nat) : Bool := (x &&& (x - 1)) == 0 && x != 0

/--
`nearest_power_of_two<T>` instantiated at `T = size_t` (64 bits), as in
`BuddySystem::allocate(const size_t size)`:

```cpp
if (!is_power_of_two(x)) {
    int lz = __builtin_clz(x);           // 32-bit clz of the truncated x!
    if (lz == 0) throw ws_invalid_argument_exp("Overflow ...");
    x = 1; x = x << (sizeof(T)*8 - lz);  // shift width 64 - lz
}
return x;
```

`__builtin_clz` takes an `unsigned int`, so the argument is truncated to
32 bits, while the shift width is `64 - lz`: for a non-power-of-two
`x < 2^32` the result is `2^(32 + bitLen x)`, not the nearest power of
two.
-/
def nearestPow2SizeT (x : Nat) : Except ErrKind Nat :=
  if isPow2 x then .ok x
  else
    let lz := clz32 x
    if lz = 0 then .error .invalidArgument
    else .ok (2 ^ (64 - lz))

/-- `nearest_power_of_two<T>` at `T = unsigned int` (32 bits), as
instantiated on `uint32_t` arguments by the `NUM_SIBLINGS_OF` macro and
by `query`: shift width `32 - lz`.  The `lz == 0` overflow throw of the
C++ template cannot fire for node ids of a tree of at most 31 levels;
this total model returns `2^32` on that branch. -/
def nearestPow2U32 (x : Nat) : Nat :=
  if isPow2 (x % U32MOD) then x % U32MOD
  else 2 ^ (32 - clz32 x)

/-- `BUDDY_STATE_IDLE`. -/
def BUDDY_IDLE : Int := 0
/-- `BUDDY_STATE_SPLT_HALFWAY`. -/
def BUDDY_SPLT_HALFWAY : Int := -1
/-- `BUDDY_STATE_SPLT_FULL`. -/
def BUDDY_SPLT_FULL : Int := -2
/-- `BUDDY_IS_FULL(s) ((s > 0) || (s == BUDDY_STATE_SPLT_FULL))`. -/
def buddyIsFull (s : Int) : Bool := decide (s > 0) || s == BUDDY_SPLT_FULL

/-- `LEVEL_OF(nid) = 32 - __builtin_clz(nid)`: the 1-based level of a
tree node (1 for the root). -/
def levelOf (nid : Nat) : Nat := bitLen nid

/-- `NUM_SIBLINGS_OF(nid) = nearest_power_of_two(nid+1) >> 1`: the number
of nodes at `nid`'s level. -/
def numSiblings (nid : Nat) : Nat := nearestPow2U32 (nid + 1) / 2

/-- `SIBLING_INDEX_OF(nid) = nid - NUM_SIBLINGS_OF(nid)`. -/
def siblingIndex (nid : Nat) : Nat := nid - numSiblings nid

/-- `OFFSET_OF(nid,cap) = cap / NUM_SIBLINGS_OF(nid) * SIBLING_INDEX_OF(nid)`. -/
def offsetOfNode (nid cap : Nat) : Nat := cap / numSiblings nid * siblingIndex nid

/-- The constructor parameters: capacity and unit size as powers of two
(`capacity = 2^capacityExp`, `unit_size = 2^unitExp`); the constructor
rejects `unitExp > capacityExp`. -/
structure BuddyParams where
  capacityExp : Nat
  unitExp : Nat
deriving DecidableEq, Repr

/-- `capacity = 1 << capacity_exp`. -/
def BuddyParams.capacity (p : BuddyParams) : Nat := 2 ^ p.capacityExp

/-- `unit_size = 1 << unit_exp`. -/
def BuddyParams.unitSize (p : BuddyParams) : Nat := 2 ^ p.unitExp

/-- `total_level = __builtin_ctzl(capacity/unit_size) + 1`. -/
def BuddyParams.totalLevel (p : BuddyParams) : Nat := p.capacityExp - p.unitExp + 1

/-- `calc_tree_size(C,U) = 2*(C/U)*8` bytes, i.e. `2^total_level` cells
of `int64_t`. -/
def buddyTreeCells (p : BuddyParams) : Nat := 2 ^ p.totalLevel

/-- The initial tree: the backing store is zero-filled (the `buddies`
file is created with zero-filled bytes; `VAW::create` then constructs a
`BuddySystem` with `init_flag` set, which writes `IDLE = 0` to cell 1 —
a no-op on the zero-filled store). -/
def buddyInitTree (p : BuddyParams) : Array Int := Array.mkArray (buddyTreeCells p) 0

/--
`BuddySystem::internal_allocate_buddy(level, cur, size)`, state-threaded:
the result pairs the returned node id (0 = out of memory) with the tree
after the call; `.error` models a thrown exception.  The C++ recursion
depth is `level - LEVEL_OF(cur)`; the translation consumes one unit of
`fuel` per call and `none` reports fuel exhaustion, which cannot occur
for the fuel the public entry points pass.
-/
def internalAllocateBuddy :
    Array Int → Nat → Nat → Nat → Nat → Option ((Except ErrKind Nat) × Array Int)
  | _, _, _, _, 0 => none
  | t, level, cur, size, fuel + 1 =>
    let curLevel := levelOf cur
    if level < curLevel then some (.error .invalidArgument, t)
    else if curLevel = level then
      if t.get! cur == BUDDY_IDLE then some (.ok cur, t.set! cur (Int.ofNat size))
      else some (.ok 0, t)
    else
      let l := 2 * cur
      let r := 2 * cur + 1
      if t.get! cur == BUDDY_IDLE then
        -- split and always use the left child
        let t1 := ((t.set! cur BUDDY_SPLT_HALFWAY).set! l BUDDY_IDLE).set! r BUDDY_IDLE
        internalAllocateBuddy t1 level l size fuel
      else if t.get! cur == BUDDY_SPLT_HALFWAY then
        match internalAllocateBuddy t level l size fuel with
        | none => none
        | some (.error e, t1) => some (.error e, t1)
        | some (.ok ret, t1) =>
          match (if ret = 0 then internalAllocateBuddy t1 level r size fuel
                 else some (.ok ret, t1)) with
          | none => none
          | some (.error e, t2) => some (.error e, t2)
          | some (.ok ret2, t2) =>
            if 0 < ret2 ∧ buddyIsFull (t2.get! l) ∧ buddyIsFull (t2.get! r) then
              some (.ok ret2, t2.set! cur BUDDY_SPLT_FULL)
            else some (.ok ret2, t2)
      else
        -- SPLT_FULL and the positive (allocated) cells: not found
        some (.ok 0, t)

/-- `BuddySystem::allocate_buddy(level, size)`: level range check, then
the recursive descent from the root.  Fuel `level` covers the recursion
depth `level - LEVEL_OF(1)` exactly. -/
def allocateBuddy (p : BuddyParams) (t : Array Int) (level size : Nat) :
    Option ((Except ErrKind Nat) × Array Int) :=
  if level < 1 ∨ level > p.totalLevel then some (.error .invalidArgument, t)
  else internalAllocateBuddy t level 1 size level

/--
`BuddySystem::allocate(const size_t size)`:

1. `bsize = max(nearest_power_of_two(size), unit_size)`;
2. `bsize > capacity` is an invalid argument;
3. `requested_level = total_level - __builtin_ctzl(bsize/unit_size)` —
   `bsize/unit_size` is a power of two, whose `ctz` equals
   `bitLen - 1`;
4. descend; node 0 means out of memory, reported as
   `ws_system_error_exp` (" runs out of memory.");
5. otherwise the offset `OFFSET_OF(node, capacity)` is returned.
-/
def allocate (p : BuddyParams) (t : Array Int) (size : Nat) :
    Option ((Except ErrKind Nat) × Array Int) :=
  match nearestPow2SizeT size with
  | .error e => some (.error e, t)
  | .ok np =>
    let bsize := max np p.unitSize
    if bsize > p.capacity then some (.error .invalidArgument, t)
    else
      let level := p.totalLevel - (bitLen (bsize / p.unitSize) - 1)
      match allocateBuddy p t level size with
      | none => none
      | some (.error e, t') => some (.error e, t')
      | some (.ok node, t') =>
        if node = 0 then some (.error .systemError, t')
        else some (.ok (offsetOfNode node p.capacity), t')

/-- The upward merge loop of `BuddySystem::free_buddy`:

```cpp
while (parent > 0) {
    if (both children IDLE)            buddies
[parent] = IDLE;
    else if (buddies[parent] == FULL)  buddies[parent] = HALFWAY;
    else                               break;
    parent = parent >> 1;
}
```

The loop halves `parent`, so it runs at most `bitLen parent` times; the
callers pass fuel at least that, and on fuel exhaustion the remaining
iterations (which would all have `parent = 0`) return the tree
unchanged, exactly as the loop's exit does. -/
def freeMergeGo : Array Int → Nat → Nat → Array Int
  | t, _, 0 => t
  | t, parent, fuel + 1 =>
    if parent = 0 then t
    else
      if t.get! (2 * parent) == BUDDY_IDLE && t.get! (2 * parent + 1) == BUDDY_IDLE then
        freeMergeGo (t.set! parent BUDDY_IDLE) (parent / 2) fuel
      else if t.get! parent == BUDDY_SPLT_FULL then
        freeMergeGo (t.set! parent BUDDY_SPLT_HALFWAY) (parent / 2) fuel
      else t

/-- `BuddySystem::free_buddy(node_number)`: bounds check, the freed cell
must be a positive (allocated leaf-like) cell, then set it `IDLE` and
merge upward from its parent. -/
def freeBuddy (p : BuddyParams) (t : Array Int) (node : Nat) :
    (Except ErrKind Unit) × Array Int :=
  if node ≥ 2 ^ p.totalLevel then (.error .invalidArgument, t)
  else if t.get! node ≤ 0 then (.error .invalidArgument, t)
  else
    (.ok (), freeMergeGo (t.set! node BUDDY_IDLE) (node / 2) node)

/-- `BuddySystem::free(const uint64_t offset)`: the offset must be a
multiple of the unit size; the freed node is computed directly as the
*virtual leaf* `(capacity + offset) / unit_size` — there is no upward
walk to the allocated cell. -/
def free (p : BuddyParams) (t : Array Int) (offset : Nat) :
    (Except ErrKind Unit) × Array Int :=
  if offset % p.unitSize ≠ 0 then (.error .invalidArgument, t)
  else freeBuddy p t ((p.capacity + offset) / p.unitSize)

/-- The descending loop of `BuddySystem::query`, state-threaded (the
loop only reads the tree; the returned array witnesses that).  One fuel
unit per iteration; the callers pass `total_level`, enough for any
root-to-leaf walk. -/
def queryGo (cap : Nat) (t : Array Int) :
    Nat → Nat → Nat → Nat → Option ((Except ErrKind (Nat × Int)) × Array Int)
  | _, _, _, 0 => none
  | root, leafIdx, numLeaves, fuel + 1 =>
    if t.get! root == BUDDY_SPLT_FULL || t.get! root == BUDDY_SPLT_HALFWAY then
      let numLeaves' := numLeaves / 2
      if leafIdx < numLeaves' then queryGo cap t (2 * root) leafIdx numLeaves' fuel
      else queryGo cap t (2 * root + 1) (leafIdx - numLeaves') numLeaves' fuel
    else
      if t.get! root == BUDDY_IDLE then some (.error .invalidArgument, t)
      else
        let nodesAtLevel := nearestPow2U32 (root + 1) / 2
        some (.ok ((root - nodesAtLevel) * cap / nodesAtLevel, t.get! root), t)

/-- `BuddySystem::query(const uint64_t offset)`: descend from the root
by the leaf index `offset / unit_size`; a final `IDLE` cell is an
invalid argument ("out of any allocated buddies"), a positive cell
yields `(buddy_offset, stored size)`. -/
def query (p : BuddyParams) (t : Array Int) (offset : Nat) :
    Option ((Except ErrKind (Nat × Int)) × Array Int) :=
  queryGo p.capacity t 1 (offset / p.unitSize) (2 ^ (p.totalLevel - 1)) p.totalLevel

/-- `BuddySystem::internal_is_free(cur, offset, size)`, state-threaded
with one fuel unit per recursive call (`total_level` suffices for the
callers).  The `&&` of the two recursive calls short-circuits exactly as
in C++. -/
def internalIsFree (cap : Nat) :
    Array Int → Nat → Nat → Nat → Nat → Option (Bool × Array Int)
  | _, _, _, _, 0 => none
  | t, cur, offset, size, fuel + 1 =>
    if t.get! cur == BUDDY_IDLE then some (true, t)
    else if buddyIsFull (t.get! cur) then some (false, t)
    else
      let l := 2 * cur
      let r := 2 * cur + 1
      if offset + size ≤ offsetOfNode r cap then
        internalIsFree cap t l offset size fuel
      else if offset ≥ offsetOfNode r cap then
        internalIsFree cap t r offset size fuel
      else
        match internalIsFree cap t l offset (offsetOfNode r cap - offset) fuel with
        | none => none
        | some (b1, t1) =>
          if b1 then
            match internalIsFree cap t1 r (offsetOfNode r cap)
                (offset + size - offsetOfNode r cap) fuel with
            | none => none
            | some (b2, t2) => some (b2, t2)
          else some (false, t1)

/-- Node `i` lies in the subtree rooted at `anc` (including `anc`
itself): some chain of parent steps (halvings) leads from `i` to
`anc`. -/
def isDesc (anc i : Nat) : Prop := ∃ m, i / 2 ^ m = anc

/-- The *specification's* rounding, written from the claim's words:
"the smallest power of two ≥ n" (compare with the code's
`nearestPow2SizeT`).  `specNearestPow2_pot`, `le_specNearestPow2` and
`specNearestPow2_le_pot` below verify that this definition is that
smallest power of two. -/
def specNearestPow2 (n : Nat) : Nat := if isPow2 n then n else 2 ^ bitLen n

/-- The *specification's* rounded span of a request, from the claim's
words: "the smallest power of two >= max(size, U)". -/
def specRoundedSpan (size unitSize : Nat) : Nat := specNearestPow2 (max size unitSize)

/-- `BuddySystem::is_free(offset, size)`: range check, then the
recursive test from the root. -/
def isFree (p : BuddyParams) (t : Array Int) (offset size : Nat) :
    Option ((Except ErrKind Bool) × Array Int) :=
  if offset + size > p.capacity then some (.error .invalidArgument, t)
  else
    match internalIsFree p.capacity t 1 offset size p.totalLevel with
    | none => none
    | some (b, t') => some (.ok b, t')

/-- Abstraction function for the exhaustion analysis: the number of
free unit leaves in the subtree of height `h` rooted at node `v` (an
`IDLE` cell frees its whole subtree; a full cell — allocated or
`SPLT_FULL` — frees nothing; otherwise the children are summed). -/
def freeLeaves (t : Array Int) : Nat → Nat → Nat
  | v, 0 => if t.get! v == BUDDY_IDLE then 1 else 0
  | v, h + 1 =>
    if t.get! v == BUDDY_IDLE then 2 ^ (h + 1)
    else if buddyIsFull (t.get! v) then 0
    else freeLeaves t (2 * v) h + freeLeaves t (2 * v + 1) h

/-- Well-formedness of a subtree of height `h` under unit-size-only
allocations: leaves are `IDLE` or hold the unit size `U`; interior
cells are `IDLE`, `SPLT_HALFWAY` with a free leaf below, or
`SPLT_FULL` with no free leaf below. -/
def wfSub (t : Array Int) (U : Nat) : Nat → Nat → Bool
  | v, 0 => t.get! v == BUDDY_IDLE || t.get! v == Int.ofNat U
  | v, h + 1 =>
    t.get! v == BUDDY_IDLE ||
    (t.get! v == BUDDY_SPLT_HALFWAY && wfSub t U (2 * v) h &&
      wfSub t U (2 * v + 1) h &&
      decide (0 < freeLeaves t (2 * v) h + freeLeaves t (2 * v + 1) h)) ||
    (t.get! v == BUDDY_SPLT_FULL && wfSub t U (2 * v) h &&
      wfSub t U (2 * v + 1) h &&
      (freeLeaves t (2 * v) h + freeLeaves t (2 * v + 1) h == 0))

/-- Driver for the exhaustion scenario: perform `m` successive
`allocate(unit_size)` calls, threading the tree; `none` if any call
does not succeed. -/
def allocRun (p : BuddyParams) : Array Int → Nat → Option (Array Int)
  | t, 0 => some t
  | t, m + 1 =>
    match allocate p t p.unitSize with
    | some (.ok _, t') => allocRun p t' m
    | _ => none

/-- `ring_buffer_attr_t`: key, id, page size, capacity, entry size and
the two multi-endpoint flags. -/
structure RBAttr where
  key : Int
  id : Int
  pageSize : Nat
  capacity : Nat
  entrySize : Nat
  multipleConsumer : Bool
  multipleProducer : Bool
deriving DecidableEq, Repr

/-- `ring_buffer_state_t`: head, tail and the two lock flags (the
cache-line padding carries no information). -/
structure RBState where
  head : Nat
  tail : Nat
  consumerLock : Bool
  producerLock : Bool
deriving DecidableEq, Repr

/-- `ring_buffer_header_t`: the attribute block (`attr`, named
`attribute` in the C struct) and the state block. -/
structure RBHeader where
  attr : RBAttr
  state : RBState
deriving DecidableEq, Repr

/-- The all-zero state block: a freshly created shared-memory segment
(`shmget` with `IPC_CREAT | IPC_EXCL`) is zero-filled by the kernel. -/
def zeroRBState : RBState := ⟨0, 0, false, false⟩

/-- The all-zero attribute block of a fresh segment. -/
def zeroRBAttr : RBAttr := ⟨0, 0, 0, 0, 0, false, false⟩

/-- The header of a freshly created, still untouched segment. -/
def zeroRBHeader : RBHeader := ⟨zeroRBAttr, zeroRBState⟩

/-- `rbh->info.attribute = attribute;` -/
def writeAttr (h : RBHeader) (a : RBAttr) : RBHeader := ⟨a, h.state⟩

/-- `rbh->info.attribute.id = shmid;` -/
def setAttrId (h : RBHeader) (i : Int) : RBHeader :=
  ⟨⟨h.attr.key, i, h.attr.pageSize, h.attr.capacity,
    h.attr.entrySize, h.attr.multipleConsumer,
    h.attr.multipleProducer⟩, h.state⟩

/-- `rbh->info.attribute.key = buf.shm_perm.__key;` -/
def setAttrKey (h : RBHeader) (k : Int) : RBHeader :=
  ⟨⟨k, h.attr.id, h.attr.pageSize, h.attr.capacity,
    h.attr.entrySize, h.attr.multipleConsumer,
    h.attr.multipleProducer⟩, h.state⟩

/--
`RingBuffer::create_ring_buffer(attribute)` on the success path of the
system calls, with the kernel's choices passed in: `shmid` is the new
segment id returned by `shmget(IPC_CREAT | IPC_EXCL)` and `statKey` is
`buf.shm_perm.__key` from `shmctl(IPC_STAT)`.  Validation rejects a
non-power-of-two (or zero) entry size or capacity and a page size other
than 4 KiB / 2 MiB / 1 GiB; then the zero-filled fresh segment's header
receives the attribute block, whose `id` and `key` fields the code then
overwrites with `shmid` and `statKey`.  The returned key is `statKey`.
-/
def createRingBuffer (attr : RBAttr) (shmid statKey : Int) :
    Except ErrKind (RBHeader × Int) :=
  if isPow2 attr.entrySize = false then .error .invalidArgument
  else if isPow2 attr.capacity = false then .error .invalidArgument
  else if ¬ (attr.pageSize = 4096 ∨ attr.pageSize = 2097152 ∨
      attr.pageSize = 1073741824) then .error .invalidArgument
  else
    .ok (setAttrKey (setAttrId (writeAttr zeroRBHeader attr) shmid) statKey,
      statKey)

/-- Lock events of the VAW critical sections: the in-process mutex and
the advisory `flock` on the buddies file (`true` = exclusive). -/
inductive LockEv where
  | acqMutex : LockEv
  | relMutex : LockEv
  | acqFile : Bool → LockEv
  | relFile : LockEv
deriving DecidableEq, Repr

/-- LIFO checker for a lock-event trace: every release matches the most
recent unreleased acquisition and the trace ends with nothing held. -/
def lockBalGo : List LockEv → List LockEv → Bool
  | stack, [] => stack.isEmpty
  | stack, LockEv.acqMutex :: rest => lockBalGo (LockEv.acqMutex :: stack) rest
  | stack, LockEv.acqFile b :: rest =>
    lockBalGo (LockEv.acqFile b :: stack) rest
  | stack, LockEv.relMutex :: rest =>
    match stack with
    | LockEv.acqMutex :: s => lockBalGo s rest
    | _ => false
  | stack, LockEv.relFile :: rest =>
    match stack with
    | LockEv.acqFile _ :: s => lockBalGo s rest
    | _ => false

def lockBalanced (tr : List LockEv) : Bool := lockBalGo [] tr

/--
`VAW::allocate(pool_size)`, returning the result, the tree and the
lock-event trace, with the `flock` system calls assumed to succeed.
Validation happens before any lock; then the mutex (`lock_guard`) and
the exclusive file lock are taken, the buddy-tree call runs, and on
both the success path and the catch path the file lock is dropped and
the `lock_guard` releases the mutex when the scope unwinds.  The
`catch (ws_exp& ex) { ...; throw ex; }` re-throws the caught object *by
its static type* `ws_exp`, slicing any derived exception down to the
base class — modelled by replacing the error kind with `.base`.
-/
def vawAllocate (p : BuddyParams) (t : Array Int) (ps : Nat) :
    Option ((Except ErrKind Nat) × Array Int × List LockEv) :=
  if ¬ (isPow2 ps = true ∧ ps ≤ p.capacity ∧ p.unitSize ≤ ps) then
    some (.error .invalidArgument, t, [])
  else
    match allocate p t ps with
    | none => none
    | some (.error _, t') =>
      some (.error .base, t',
        [.acqMutex, .acqFile true, .relFile, .relMutex])
    | some (.ok off, t') =>
      some (.ok off, t', [.acqMutex, .acqFile true, .relFile, .relMutex])

/-- `VAW::free(pool_offset)`, with the same lock and slicing model as
`vawAllocate`. -/
def vawFree (p : BuddyParams) (t : Array Int) (off : Nat) :
    (Except ErrKind Unit) × Array Int × List LockEv :=
  if off % p.unitSize ≠ 0 then (.error .invalidArgument, t, [])
  else if off > p.capacity then (.error .invalidArgument, t, [])
  else
    match free p t off with
    | (.error _, t') =>
      (.error .base, t', [.acqMutex, .acqFile true, .relFile, .relMutex])
    | (.ok _, t') =>
      (.ok (), t', [.acqMutex, .acqFile true, .relFile, .relMutex])

end Wsong

/-! ## Theorems -/

namespace Wsong

/-- On a full ring, if every loop-condition clock reading is past the
deadline, the translated produce loop spins forever (the do-while
condition `end < now()` keeps holding, so the loop never exits): for
every fuel the loop is still running. -/
theorem produceGo_spin (cap : Nat) (payload : List Nat) (endT : Nat) (clock : Nat → Nat)
    (st : RBSt) (hfull : rbIsFull cap st)
    (hclk : ∀ i, 1 ≤ i → endT < clock i) :
    ∀ fuel i, 1 ≤ i → produceGo cap payload endT clock fuel i st = none := by
  intro fuel
  induction fuel with
  | zero => intro i _; rfl
  | succ n ih =>
    intro i hi
    show produceGo cap payload endT clock (n + 1) i st = none
    unfold produceGo
    rw [if_pos hfull, if_pos (hclk i hi)]
    exact ih (i + 1) (by omega)

/--
**C1.** The claim states that `produce` on a full ring (and `consume` on
an empty one) keeps spinning while `now < deadline` and raises *Timeout*
only once `now ≥ deadline`.  The code's polling loop is
`do { ... } while (end < std::chrono::steady_clock::now());` — the
condition is inverted.  This theorem evaluates the translated code at the
claim's own scenario (capacity 4, no consumer): the three fills succeed,
and on the full ring
(i) with clock readings one nanosecond apart and `timeout_ns = 5`, the
fourth produce raises *Timeout* at its very first deadline test, at time
1 — strictly before the deadline 5; and
(ii) with the first re-check already past the deadline, the fourth
produce never raises *Timeout* at all: it spins forever (for every
iteration bound the loop is still running).
-/
theorem produce_inverted_deadline_test :
    (produce 4 1 (rbInit 4 1) [7] 1 1 (fun i => i) 1 =
      some (.ok { head := 0, tail := 1, slots := [[7], [0], [0], [0]] }))
    ∧ (produce 4 1 { head := 0, tail := 1, slots := [[7], [0], [0], [0]] } [8] 1 1
        (fun i => i) 1 =
      some (.ok { head := 0, tail := 2, slots := [[7], [8], [0], [0]] }))
    ∧ (produce 4 1 { head := 0, tail := 2, slots := [[7], [8], [0], [0]] } [9] 1 1
        (fun i => i) 1 = some (.ok rbFull3))
    ∧ rbIsFull 4 rbFull3
    ∧ (produce 4 1 rbFull3 [5] 1 5 (fun i => i) 1 = some (.error .timeout))
    ∧ (fun i => (i : Nat)) 1 < (fun i => (i : Nat)) 0 + 5
    ∧ (∀ fuel, produce 4 1 rbFull3 [5] 1 5 rbLateClock fuel = none) := by
  refine ⟨rfl, rfl, rfl, by decide, rfl, by decide, ?_⟩
  intro fuel
  have hspin := produceGo_spin 4 ([5].take 1) 5 rbLateClock rbFull3 (by decide)
    (fun i hi => by simp only [rbLateClock]; rw [if_neg (by omega)]; omega)
    fuel 1 (le_refl 1)
  show (match produceGo 4 ([5].take 1) 5 rbLateClock fuel 1 rbFull3 with
    | none => none
    | some (true, st') => some (Except.ok st')
    | some (false, _) => some (Except.error ErrKind.timeout)) = none
  rw [hspin]

/-! ### Characterisation of successful produce/consume calls

Within one call the loop re-reads a state nothing else modifies, so a
successful exit can only happen at the first iteration at which the ring
is not full (resp. not empty); the guard and the effect of a successful
call follow. -/

theorem produceGo_ok {cap : Nat} {p : List Nat} {endT : Nat} {clock : Nat → Nat} :
    ∀ {fuel i : Nat} {st st' : RBSt},
      produceGo cap p endT clock fuel i st = some (true, st') →
      ¬ rbIsFull cap st ∧ st' = rbWrite cap st p := by
  intro fuel
  induction fuel with
  | zero => intro i st st' h; exact absurd h (by simp [produceGo])
  | succ n ih =>
    intro i st st' h
    unfold produceGo at h
    by_cases hfull : rbIsFull cap st
    · rw [if_pos hfull] at h
      by_cases hc : endT < clock i
      · rw [if_pos hc] at h
        exact absurd (ih h).1 (by exact fun hn => hn hfull)
      · rw [if_neg hc] at h
        exact absurd (congrArg (fun o => o.map Prod.fst) h) (by simp)
    · rw [if_neg hfull] at h
      exact ⟨hfull, (congrArg Prod.snd (Option.some.inj h)).symm⟩

theorem produce_ok {cap es : Nat} {st st' : RBSt} {buf : List Nat}
    {size t fuel : Nat} {clock : Nat → Nat}
    (h : produce cap es st buf size t clock fuel = some (.ok st')) :
    0 < size ∧ size ≤ es ∧ ¬ rbIsFull cap st ∧ st' = rbWrite cap st (buf.take size) := by
  unfold produce at h
  by_cases hval : size > es ∨ size = 0
  · rw [if_pos hval] at h; exact absurd (Option.some.inj h) (by simp)
  · rw [if_neg hval] at h
    push_neg at hval
    have h' : (match produceGo cap (buf.take size) (clock 0 + t) clock fuel 1 st with
      | none => none
      | some (true, st'') => some (Except.ok st'')
      | some (false, _) => some (Except.error ErrKind.timeout)) = some (Except.ok st') := h
    rcases hpg : produceGo cap (buf.take size) (clock 0 + t) clock fuel 1 st with
      _ | ⟨b, st''⟩
    · rw [hpg] at h'; exact absurd h' (by simp)
    · rw [hpg] at h'
      cases b
      · exact absurd (Option.some.inj h') (by simp)
      · obtain ⟨hnf, hw⟩ := produceGo_ok hpg
        have : st'' = st' := Except.ok.inj (Option.some.inj h')
        exact ⟨Nat.pos_of_ne_zero hval.2, hval.1, hnf, this ▸ hw⟩

theorem consumeGo_ok {cap size : Nat} {endT : Nat} {clock : Nat → Nat} :
    ∀ {fuel i : Nat} {st st' : RBSt} {v : List Nat},
      consumeGo cap size endT clock fuel i st = some (true, v, st') →
      ¬ rbIsEmpty cap st ∧ (v, st') = rbRead cap st size := by
  intro fuel
  induction fuel with
  | zero => intro i st st' v h; exact absurd h (by simp [consumeGo])
  | succ n ih =>
    intro i st st' v h
    unfold consumeGo at h
    by_cases hemp : rbIsEmpty cap st
    · rw [if_pos hemp] at h
      by_cases hc : endT < clock i
      · rw [if_pos hc] at h
        exact absurd (ih h).1 (by exact fun hn => hn hemp)
      · rw [if_neg hc] at h
        exact absurd (congrArg (fun o => o.map Prod.fst) h) (by simp)
    · rw [if_neg hemp] at h
      have := Option.some.inj h
      refine ⟨hemp, ?_⟩
      have h2 := congrArg Prod.snd this
      simp only at h2
      exact h2.symm

theorem consume_ok {cap es : Nat} {st st' : RBSt} {v : List Nat}
    {size t fuel : Nat} {clock : Nat → Nat}
    (h : consume cap es st size t clock fuel = some (.ok (v, st'))) :
    0 < size ∧ size ≤ es ∧ ¬ rbIsEmpty cap st ∧
      v = (st.slots.get! (st.head % cap)).take size ∧
      st' = { st with head := (st.head + 1) % U32MOD } := by
  unfold consume at h
  by_cases hval : size > es ∨ size = 0
  · rw [if_pos hval] at h; exact absurd (Option.some.inj h) (by simp)
  · rw [if_neg hval] at h
    push_neg at hval
    have h' : (match consumeGo cap size (clock 0 + t) clock fuel 1 st with
      | none => none
      | some (true, v'', st'') => some (Except.ok (v'', st''))
      | some (false, _, _) => some (Except.error ErrKind.timeout)) =
        some (Except.ok (v, st')) := h
    rcases hpg : consumeGo cap size (clock 0 + t) clock fuel 1 st with
      _ | ⟨b, v'', st''⟩
    · rw [hpg] at h'; exact absurd h' (by simp)
    · rw [hpg] at h'
      cases b
      · exact absurd (Option.some.inj h') (by simp)
      · obtain ⟨hne, hr⟩ := consumeGo_ok hpg
        have hv : v'' = v ∧ st'' = st' := by
          have := Except.ok.inj (Option.some.inj h')
          exact ⟨congrArg Prod.fst this, congrArg Prod.snd this⟩
        obtain ⟨rfl, rfl⟩ := hv
        have h1 := congrArg Prod.fst hr
        have h2 := congrArg Prod.snd hr
        simp only [rbRead] at h1 h2
        exact ⟨Nat.pos_of_ne_zero hval.2, hval.1, hne, h1, h2⟩

/-! ### Cursor arithmetic -/

theorem rbSub32_init (cap es : Nat) : rbSub32 (rbInit cap es) = 0 := by
  simp [rbSub32, rbInit, U32MOD]

theorem rbSub32_write (cap : Nat) (st : RBSt) (payload : List Nat)
    (hh : st.head < U32MOD) (ht : st.tail < U32MOD) (hs : rbSub32 st + 1 < U32MOD) :
    rbSub32 (rbWrite cap st payload) = rbSub32 st + 1 := by
  unfold rbSub32 rbWrite at *
  simp only [U32MOD] at *
  omega

theorem rbSub32_read_head (st : RBSt)
    (hh : st.head < U32MOD) (ht : st.tail < U32MOD) (hs : 0 < rbSub32 st) :
    rbSub32 { st with head := (st.head + 1) % U32MOD } = rbSub32 st - 1 := by
  unfold rbSub32 at *
  simp only [U32MOD] at *
  omega

/-- From the produce guard `¬ RB_IS_FULL` and the size bound, the 32-bit
pending count itself differs from `capacity - 1`. -/
theorem rbSub32_ne_of_not_full {cap : Nat} {st : RBSt} (hcap : 0 < cap)
    (hb : rbSub32 st ≤ cap - 1) (h : ¬ rbIsFull cap st) : rbSub32 st ≠ cap - 1 := by
  intro heq
  exact h (by unfold rbIsFull rbSize; rw [Nat.mod_eq_of_lt (by omega)]; exact heq)

/-- From the consume guard `¬ RB_IS_EMPTY` and the size bound, the 32-bit
pending count is nonzero. -/
theorem rbSub32_pos_of_not_empty {cap : Nat} {st : RBSt} (hcap : 0 < cap)
    (hb : rbSub32 st ≤ cap - 1) (h : ¬ rbIsEmpty cap st) : 0 < rbSub32 st := by
  rcases Nat.eq_zero_or_pos (rbSub32 st) with h0 | h0
  · exact absurd (by unfold rbIsEmpty rbSize; rw [h0]; exact Nat.zero_mod cap) h
  · exact h0

/-- The inductive invariant of the ring-buffer state machine used for the
capacity law: cursors are reduced 32-bit values and the pending count
never exceeds `capacity - 1`. -/
theorem rbReach_inv {cap es : Nat} (hcap : 0 < cap) (hM : cap ≤ U32MOD) {st : RBSt}
    (h : RBReach cap es st) :
    st.head < U32MOD ∧ st.tail < U32MOD ∧ rbSub32 st ≤ cap - 1 := by
  induction h with
  | init =>
    refine ⟨by simp [rbInit, U32MOD], by simp [rbInit, U32MOD], ?_⟩
    rw [rbSub32_init]
    omega
  | prod hre hp ih =>
    rename_i s s' buf sz t fl ck
    obtain ⟨hh, ht, hb⟩ := ih
    obtain ⟨_, _, hnf, hst'⟩ := produce_ok hp
    have hne := rbSub32_ne_of_not_full hcap hb hnf
    subst hst'
    have hs : rbSub32 s + 1 < U32MOD := by omega
    refine ⟨hh, Nat.mod_lt _ (by unfold U32MOD; omega), ?_⟩
    rw [rbSub32_write _ _ _ hh ht hs]
    omega
  | cons hre hp ih =>
    rename_i s s' v sz t fl ck
    obtain ⟨hh, ht, hb⟩ := ih
    obtain ⟨_, _, hne, _, hst'⟩ := consume_ok hp
    have hpos := rbSub32_pos_of_not_empty hcap hb hne
    subst hst'
    refine ⟨Nat.mod_lt _ (by unfold U32MOD; omega), ht, ?_⟩
    rw [rbSub32_read_head _ hh ht hpos]
    omega

/--
**C5.** In every ring-buffer state reachable from the freshly created
state (`head = tail = 0`) by any sequence of produce and consume
operations, the ring size `(tail - head)` computed in 32-bit modular
arithmetic is at most `capacity - 1`: a ring of capacity `N` never holds
more than `N - 1` produced-but-not-consumed entries, because `produce`
refuses to write a slot when `(tail - head) % capacity = capacity - 1`.
-/
theorem rbReach_size_le_capacity_sub_one (cap es : Nat) (hcap : 0 < cap)
    (hM : cap ≤ U32MOD) (st : RBSt) (h : RBReach cap es st) :
    rbSub32 st ≤ cap - 1 :=
  (rbReach_inv hcap hM h).2.2

/-- Witness for C5 at capacity 4: the state after two produces and one
consume is reachable, and its 32-bit size is within the bound. -/
theorem rbReach_size_le_capacity_sub_one_witness :
    (0 < 4 ∧ 4 ≤ U32MOD) ∧
      rbSub32 { head := 1, tail := 2, slots := [[7], [8], [0], [0]] } ≤ 4 - 1 := by
  refine ⟨⟨by decide, by unfold U32MOD; omega⟩, ?_⟩
  refine rbReach_size_le_capacity_sub_one 4 1 (by decide) (by unfold U32MOD; omega) _ ?_
  have h0 := @RBReach.init 4 1
  have e1 : produce 4 1 (rbInit 4 1) [7] 1 0 (fun _ => 0) 1 =
      some (.ok { head := 0, tail := 1, slots := [[7], [0], [0], [0]] }) := rfl
  have h1 := RBReach.prod h0 e1
  have e2 : produce 4 1 { head := 0, tail := 1, slots := [[7], [0], [0], [0]] }
      [8] 1 0 (fun _ => 0) 1 =
      some (.ok { head := 0, tail := 2, slots := [[7], [8], [0], [0]] }) := rfl
  have h2 := RBReach.prod h1 e2
  have e3 : consume 4 1 { head := 0, tail := 2, slots := [[7], [8], [0], [0]] }
      1 0 (fun _ => 0) 1 =
      some (.ok ([7], { head := 1, tail := 2, slots := [[7], [8], [0], [0]] })) := rfl
  exact RBReach.cons h2 e3

/-! ### FIFO delivery (SPSC) -/

theorem rbCap_le_mod {cap : Nat} (hcap : 0 < cap) (hdvd : cap ∣ U32MOD) : cap ≤ U32MOD :=
  Nat.le_of_dvd (by unfold U32MOD; omega) hdvd

/-- A cursor reduced modulo `2^32` indexes the same slot as the
unreduced cursor, because the power-of-two capacity divides `2^32`. -/
theorem mod_U32MOD_mod_cap {cap : Nat} (hdvd : cap ∣ U32MOD) (a : Nat) :
    (a % U32MOD) % cap = a % cap :=
  Nat.mod_mod_of_dvd a hdvd

/-- The slot written by produce is the one `rbSub32 st` places after the
consumer cursor: `tail % cap = (head + (tail - head) mod 2^32) % cap`. -/
theorem tail_mod_cap {cap : Nat} (hdvd : cap ∣ U32MOD) (st : RBSt)
    (hh : st.head < U32MOD) (ht : st.tail < U32MOD) :
    st.tail % cap = (st.head + rbSub32 st) % cap := by
  have h1 : (st.head + rbSub32 st) % U32MOD = st.tail := by
    unfold rbSub32
    simp only [U32MOD] at *
    omega
  rw [← mod_U32MOD_mod_cap hdvd (st.head + rbSub32 st), h1]

/-- Pending slots are pairwise distinct modulo the capacity. -/
theorem slot_index_ne {cap h j k : Nat} (hjk : j < k) (hk : k < cap) :
    (h + j) % cap ≠ (h + k) % cap := by
  intro heq
  have hmod : j ≡ k [MOD cap] := (Nat.ModEq.add_left_cancel' h heq)
  have : j % cap = k % cap := hmod
  rw [Nat.mod_eq_of_lt (lt_trans hjk hk), Nat.mod_eq_of_lt hk] at this
  omega

theorem rbInv_init (cap es s : Nat) : RBInv cap s (rbInit cap es) [] [] := by
  refine ⟨?_, ?_, ?_, ?_, ?_, ?_, ?_, ?_, ?_⟩
  · simp [rbInit]
  · simp [rbInit, U32MOD]
  · simp [rbInit, U32MOD]
  · simp
  · simp [rbSub32_init]
  · rw [rbSub32_init]; omega
  · intro j hj; rw [rbSub32_init] at hj; omega
  · intro x hx; simp at hx
  · intro i hi; simp at hi

theorem rbInv_produce {cap s : Nat} {st : RBSt} {P Q : List (List Nat)} {buf : List Nat}
    (hcap : 0 < cap) (hdvd : cap ∣ U32MOD)
    (inv : RBInv cap s st P Q) (hbl : s ≤ buf.length) (hnf : ¬ rbIsFull cap st) :
    RBInv cap s (rbWrite cap st (buf.take s)) (P ++ [buf.take s]) Q := by
  have hM := rbCap_le_mod hcap hdvd
  have hne := rbSub32_ne_of_not_full hcap inv.hbound hnf
  have hsub : rbSub32 st ≤ cap - 2 := by
    have := inv.hbound; omega
  have hs1 : rbSub32 st + 1 < U32MOD := by omega
  have hwlen : (buf.take s).length = s := by
    simp [List.length_take]; omega
  have hidx : st.tail % cap < st.slots.length := by
    rw [inv.hlen]; exact Nat.mod_lt _ hcap
  have htidx : st.tail % cap = (st.head + rbSub32 st) % cap :=
    tail_mod_cap hdvd st inv.hh inv.ht
  have hsub' := rbSub32_write cap st (buf.take s) inv.hh inv.ht hs1
  refine ⟨?_, ?_, ?_, ?_, ?_, ?_, ?_, ?_, ?_⟩
  · simp [rbWrite, inv.hlen]
  · exact inv.hh
  · exact Nat.mod_lt _ (by unfold U32MOD; omega)
  · have := inv.hQP; simp; omega
  · rw [hsub']
    have h1 := inv.hsz
    have h2 := inv.hQP
    simp
    omega
  · rw [hsub']; omega
  · intro j hj
    rw [hsub'] at hj
    show ((st.slots.set (st.tail % cap)
        (buf.take s ++ (st.slots.get! (st.tail % cap)).drop (buf.take s).length)).getD
        ((st.head + j) % cap) []).take s = (P ++ [buf.take s]).getD (Q.length + j) []
    rcases Nat.lt_or_ge j (rbSub32 st) with hlt | hge
    · -- untouched pending slot
      have hne2 : st.tail % cap ≠ (st.head + j) % cap := by
        rw [htidx]
        exact (slot_index_ne hlt (by omega)).symm
      have hjlen : (st.head + j) % cap < st.slots.length := by
        rw [inv.hlen]; exact Nat.mod_lt _ hcap
      rw [List.getD_eq_getElem _ _ (by simpa using hjlen),
        List.getElem_set_ne hne2 (by simpa using hjlen),
        ← List.getD_eq_getElem _ _ hjlen]
      have hQj : Q.length + j < P.length := by
        have := inv.hsz; have := inv.hQP; omega
      rw [List.getD_append _ _ _ _ hQj]
      exact inv.hpend j hlt
    · -- the freshly written slot
      have hj' : j = rbSub32 st := by omega
      subst hj'
      rw [← htidx]
      rw [List.getD_eq_getElem _ _ (by simpa using hidx),
        List.getElem_set_eq (by simpa using hidx)]
      have hQj : Q.length + rbSub32 st = P.length := by
        have := inv.hsz; have := inv.hQP; omega
      rw [hQj, List.getD_append_right _ _ _ _ (le_refl _), Nat.sub_self]
      show ((buf.take s) ++ _).take s = _
      rw [List.take_left' hwlen]
      rfl
  · intro x hx
    rcases List.mem_append.mp hx with hx | hx
    · exact inv.hPlen x hx
    · simp at hx; subst hx; exact hwlen
  · intro i hi
    have hiP : i < P.length := lt_of_lt_of_le hi inv.hQP
    rw [List.getD_append _ _ _ _ hiP]
    exact inv.hpre i hi

theorem rbInv_consume {cap s : Nat} {st : RBSt} {P Q : List (List Nat)}
    (hcap : 0 < cap) (hdvd : cap ∣ U32MOD)
    (inv : RBInv cap s st P Q) (hne : ¬ rbIsEmpty cap st) :
    RBInv cap s { st with head := (st.head + 1) % U32MOD } P
      (Q ++ [(st.slots.get! (st.head % cap)).take s]) := by
  have hM := rbCap_le_mod hcap hdvd
  have hpos := rbSub32_pos_of_not_empty hcap inv.hbound hne
  have hsub' := rbSub32_read_head st inv.hh inv.ht hpos
  have hQP : Q.length + 1 ≤ P.length := by
    have := inv.hsz; have := inv.hQP; omega
  refine ⟨?_, ?_, ?_, ?_, ?_, ?_, ?_, ?_, ?_⟩
  · exact inv.hlen
  · exact Nat.mod_lt _ (by unfold U32MOD; omega)
  · exact inv.ht
  · simpa using hQP
  · rw [hsub']
    have := inv.hsz; simp; omega
  · rw [hsub']
    have := inv.hbound; omega
  · intro j hj
    rw [hsub'] at hj
    show ((st.slots.getD (((st.head + 1) % U32MOD + j) % cap) []).take s) =
      P.getD ((Q ++ [(st.slots.get! (st.head % cap)).take s]).length + j) []
    have hidx2 : ((st.head + 1) % U32MOD + j) % cap = (st.head + (j + 1)) % cap := by
      conv_lhs => rw [Nat.add_mod]
      rw [mod_U32MOD_mod_cap hdvd, ← Nat.add_mod]
      congr 1
      omega
    rw [hidx2, inv.hpend (j + 1) (by omega)]
    congr 1
    simp
    omega
  · exact inv.hPlen
  · intro i hi
    simp only [List.length_append, List.length_cons, List.length_nil] at hi
    rcases Nat.lt_or_ge i Q.length with hlt | hge
    · rw [List.getD_append _ _ _ _ hlt]
      exact inv.hpre i hlt
    · have hieq : i = Q.length := by omega
      subst hieq
      rw [List.getD_append_right _ _ _ _ (le_refl _), Nat.sub_self]
      have h0 := inv.hpend 0 hpos
      rw [Nat.add_zero] at h0
      show ([(st.slots.get! (st.head % cap)).take s]).getD 0 [] = P.getD Q.length []
      rw [show ([(st.slots.get! (st.head % cap)).take s]).getD 0 [] =
        (st.slots.get! (st.head % cap)).take s from rfl]
      rw [List.get!_eq_getD]
      exact h0

/-- Every reachable (state, histories) triple satisfies the FIFO
invariant. -/
theorem rbReachH_inv {cap es s : Nat} (hcap : 0 < cap) (hdvd : cap ∣ U32MOD)
    {st : RBSt} {P Q : List (List Nat)} (h : RBReachH cap es s st P Q) :
    RBInv cap s st P Q := by
  induction h with
  | init => exact rbInv_init cap es s
  | prod hre hbl hp ih =>
    obtain ⟨_, _, hnf, hst'⟩ := produce_ok hp
    rw [hst']
    exact rbInv_produce hcap hdvd ih hbl hnf
  | cons hre hp ih =>
    obtain ⟨_, _, hne, hv, hst'⟩ := consume_ok hp
    rw [hst', hv]
    exact rbInv_consume hcap hdvd ih hne

/--
**C6.** SPSC FIFO delivery: for every interleaved sequence of successful
produce and consume operations of one common payload size, the bytes of
the `i`-th successfully consumed entry equal the bytes of the `i`-th
produced entry — entries are delivered in order, without loss or
duplication.  (`produce` copies the payload into slot `tail % capacity`
and then increments `tail`; `consume` reads slot `head % capacity` and
then increments `head`.)
-/
theorem rbReachH_fifo (cap es s : Nat) (hcap : 0 < cap) (hdvd : cap ∣ U32MOD)
    (st : RBSt) (P Q : List (List Nat)) (h : RBReachH cap es s st P Q) :
    Q.length ≤ P.length ∧
      ∀ i (hi : i < Q.length) (hip : i < P.length), Q.get ⟨i, hi⟩ = P.get ⟨i, hip⟩ := by
  have inv := rbReachH_inv hcap hdvd h
  refine ⟨inv.hQP, fun i hi hip => ?_⟩
  have := inv.hpre i hi
  rwa [List.getD_eq_getElem _ _ hi, List.getD_eq_getElem _ _ hip] at this

/-- Witness for C6: a produce–produce–consume run at capacity 4 and
payload size 1; the first consumed entry equals the first produced one. -/
theorem rbReachH_fifo_witness :
    (0 < 4 ∧ (4 : Nat) ∣ U32MOD) ∧
      ([[7]] : List (List Nat)).length ≤ ([[7], [8]] : List (List Nat)).length ∧
      ∀ i (hi : i < ([[7]] : List (List Nat)).length)
        (hip : i < ([[7], [8]] : List (List Nat)).length),
        ([[7]] : List (List Nat)).get ⟨i, hi⟩ = ([[7], [8]] : List (List Nat)).get ⟨i, hip⟩ := by
  have hdvd : (4 : Nat) ∣ U32MOD := by unfold U32MOD; omega
  refine ⟨⟨by decide, hdvd⟩, ?_⟩
  have h0 := @RBReachH.init 4 1 1
  have e1 : produce 4 1 (rbInit 4 1) [7] 1 0 (fun _ => 0) 1 =
      some (.ok { head := 0, tail := 1, slots := [[7], [0], [0], [0]] }) := rfl
  have h1 := RBReachH.prod h0 (by decide) e1
  have e2 : produce 4 1 { head := 0, tail := 1, slots := [[7], [0], [0], [0]] }
      [8] 1 0 (fun _ => 0) 1 =
      some (.ok { head := 0, tail := 2, slots := [[7], [8], [0], [0]] }) := rfl
  have h2 := RBReachH.prod h1 (by decide) e2
  have e3 : consume 4 1 { head := 0, tail := 2, slots := [[7], [8], [0], [0]] }
      1 0 (fun _ => 0) 1 =
      some (.ok ([7], { head := 1, tail := 2, slots := [[7], [8], [0], [0]] })) := rfl
  have h3 := RBReachH.cons h2 e3
  exact rbReachH_fifo 4 1 1 (by decide) hdvd _ _ _ h3

/-! ### Buddy system: free of a multi-unit allocation (C2) -/

/--
**C2.** The claim (and the spec's free algorithm) says `free(offset)`
walks up from the virtual leaf `(C+offset)/U` to the unique positive
cell, so any live allocation can be freed regardless of its span.  The
code has no such walk: `BuddySystem::free` computes the leaf index
`(capacity + offset) / unit_size` and `free_buddy` demands that this
*leaf* cell itself be positive.  Consequently an allocation whose span
exceeds the unit size cannot be freed.  Concretely, with
`C = 4 MiB, U = 1 MiB`: `allocate(2 MiB)` succeeds at offset 0, storing
the size in the interior cell 2 (the leaf cells stay `IDLE`), and
`free(0)` — the very offset just returned — throws
`ws_invalid_argument_exp` instead of releasing the region.
-/
theorem free_requires_positive_leaf_cell :
    (allocate ⟨22, 20⟩ (buddyInitTree ⟨22, 20⟩) 2097152 =
      some (.ok 0, #[0, -1, 2097152, 0, 0, 0, 0, 0])) ∧
    (free ⟨22, 20⟩ #[0, -1, 2097152, 0, 0, 0, 0, 0] 0).1 =
      .error .invalidArgument ∧
    (free ⟨22, 20⟩ #[0, -1, 2097152, 0, 0, 0, 0, 0] 0).2 =
      #[0, -1, 2097152, 0, 0, 0, 0, 0] :=
  ⟨rfl, rfl, rfl⟩

/-! ### Buddy system: the `nearest_power_of_two` truncation (C7) -/

/--
**C7.** The claim's deterministic allocation scenario (`C = 8 MiB`,
`U = 1 MiB`: 1 MiB → 0, then 100 B → 1 MiB, …) fails on the code.
`BuddySystem::allocate` rounds with `nearest_power_of_two<size_t>`,
whose body calls the 32-bit `__builtin_clz` but shifts by
`sizeof(size_t)*8 - lz = 64 - lz`; for the non-power-of-two request
`100` this yields `2^39`, not `128`.  `max(2^39, 1 MiB) = 2^39`
exceeds the 8 MiB capacity, so the second allocation throws
`ws_invalid_argument_exp` instead of returning offset 1 MiB (the repo's
own unit test performs this exact sequence and expects it to succeed).
-/
theorem allocate_nonpow2_rounding_truncation :
    nearestPow2SizeT 100 = .ok (2 ^ 39) ∧
    (allocate ⟨23, 20⟩ (buddyInitTree ⟨23, 20⟩) 1048576 =
      some (.ok 0, #[0, -1, -1, 0, -1, 0, 0, 0, 1048576, 0, 0, 0, 0, 0, 0, 0])) ∧
    ((allocate ⟨23, 20⟩
        #[0, -1, -1, 0, -1, 0, 0, 0, 1048576, 0, 0, 0, 0, 0, 0, 0] 100).map (·.1) =
      some (.error .invalidArgument)) :=
  ⟨rfl, rfl, rfl⟩

/-! ### Bit-length toolbox -/

theorem bitLenGo_eq_size : ∀ (fuel n : Nat), n < 2 ^ fuel → bitLenGo fuel n = Nat.size n := by
  intro fuel
  induction fuel with
  | zero =>
    intro n h
    simp only [Nat.pow_zero, Nat.lt_one_iff] at h
    subst h
    simp [bitLenGo, Nat.size_zero]
  | succ f ih =>
    intro n h
    by_cases h0 : n = 0
    · subst h0; simp [bitLenGo, Nat.size_zero]
    · show (if n = 0 then 0 else bitLenGo f (n / 2) + 1) = Nat.size n
      rw [if_neg h0]
      have hdiv : n / 2 < 2 ^ f := by
        rw [Nat.div_lt_iff_lt_mul (by omega)]
        calc n < 2 ^ (f + 1) := h
          _ = 2 ^ f * 2 := by rw [Nat.pow_succ]
      rw [ih (n / 2) hdiv]
      rcases Nat.even_or_odd n with he | ho
      · obtain ⟨m, hm⟩ := he
        have hm' : n = 2 * m := by omega
        have hmpos : m ≠ 0 := by omega
        have hs := Nat.size_bit (b := false) (n := m)
          (by simp [Nat.bit]; omega)
        simp only [Nat.bit] at hs
        rw [hm']
        rw [Nat.mul_div_cancel_left m (by omega)]
        simpa using hs.symm
      · obtain ⟨m, hm⟩ := ho
        have hs := Nat.size_bit (b := true) (n := m) (by simp [Nat.bit])
        simp only [Nat.bit] at hs
        rw [hm]
        rw [show (2 * m + 1) / 2 = m by omega]
        simpa using hs.symm

theorem bitLen_eq_size (n : Nat) : bitLen n = Nat.size n :=
  bitLenGo_eq_size n n (Nat.lt_two_pow n)

theorem bitLen_lt_two_pow (n : Nat) : n < 2 ^ bitLen n := by
  rw [bitLen_eq_size]; exact Nat.lt_size_self n

theorem bitLen_le_iff {m n : Nat} : bitLen m ≤ n ↔ m < 2 ^ n := by
  rw [bitLen_eq_size]; exact Nat.size_le

theorem lt_bitLen_iff {m n : Nat} : m < bitLen n ↔ 2 ^ m ≤ n := by
  rw [bitLen_eq_size]; exact Nat.lt_size

theorem bitLen_zero : bitLen 0 = 0 := by
  rw [bitLen_eq_size]; exact Nat.size_zero

theorem bitLen_pos {n : Nat} (h : 1 ≤ n) : 1 ≤ bitLen n := by
  have := lt_bitLen_iff (n := n) (m := 0)
  simp at this
  omega

theorem bitLen_two_pow (k : Nat) : bitLen (2 ^ k) = k + 1 := by
  rw [bitLen_eq_size]; exact Nat.size_pow

theorem two_pow_bitLen_pred_le {n : Nat} (h : 1 ≤ n) : 2 ^ (bitLen n - 1) ≤ n := by
  have hp := bitLen_pos h
  have := lt_bitLen_iff (n := n) (m := bitLen n - 1)
  exact this.mp (by omega)

theorem bitLen_eq_of_bounds {n k : Nat} (h1 : 2 ^ k ≤ n) (h2 : n < 2 ^ (k + 1)) :
    bitLen n = k + 1 := by
  have ha : bitLen n ≤ k + 1 := bitLen_le_iff.mpr h2
  have hb : k < bitLen n := lt_bitLen_iff.mpr h1
  omega

theorem bitLen_two_mul {c : Nat} (h : 1 ≤ c) : bitLen (2 * c) = bitLen c + 1 := by
  rw [bitLen_eq_size, bitLen_eq_size]
  have hs := Nat.size_bit (b := false) (n := c) (by simp [Nat.bit]; omega)
  simpa [Nat.bit] using hs

theorem bitLen_two_mul_add_one (c : Nat) : bitLen (2 * c + 1) = bitLen c + 1 := by
  rw [bitLen_eq_size, bitLen_eq_size]
  have hs := Nat.size_bit (b := true) (n := c) (by simp [Nat.bit])
  simpa [Nat.bit] using hs

/-- `is_power_of_two` decides exactly the powers of two. -/
theorem isPow2_iff {x : Nat} : isPow2 x = true ↔ ∃ k, x = 2 ^ k := by
  constructor
  · intro h
    simp only [isPow2, Bool.and_eq_true, beq_iff_eq, bne_iff_ne, ne_eq] at h
    obtain ⟨hland, hx⟩ := h
    refine ⟨bitLen x - 1, ?_⟩
    have h1 : 1 ≤ x := by omega
    have hle := two_pow_bitLen_pred_le h1
    rcases Nat.lt_or_ge (2 ^ (bitLen x - 1)) x with hlt | hge
    · exfalso
      -- both x and x-1 have the top bit set, so the AND is nonzero
      have hb := bitLen_lt_two_pow x
      have hp := bitLen_pos h1
      have hpow2 : 2 ^ (bitLen x - 1) * 2 = 2 ^ (bitLen x) := by
        rw [← Nat.pow_succ]
        congr 1
        omega
      have h2 : x < 2 ^ (bitLen x - 1) * 2 := by rw [hpow2]; exact hb
      have hxdiv : x / 2 ^ (bitLen x - 1) = 1 :=
        Nat.div_eq_of_lt_le (by omega) (by omega)
      have hx1div : (x - 1) / 2 ^ (bitLen x - 1) = 1 :=
        Nat.div_eq_of_lt_le (by omega) (by omega)
      have ht1 : x.testBit (bitLen x - 1) = true := by
        rw [Nat.testBit_to_div_mod, hxdiv]
        decide
      have ht2 : (x - 1).testBit (bitLen x - 1) = true := by
        rw [Nat.testBit_to_div_mod, hx1div]
        decide
      have : (x &&& (x - 1)).testBit (bitLen x - 1) = true := by
        rw [Nat.testBit_land, ht1, ht2]
        rfl
      rw [hland, Nat.zero_testBit] at this
      exact Bool.false_ne_true this
    · omega
  · rintro ⟨k, rfl⟩
    simp only [isPow2, Bool.and_eq_true, beq_iff_eq, bne_iff_ne, ne_eq]
    refine ⟨?_, by positivity⟩
    apply Nat.eq_of_testBit_eq
    intro i
    rw [Nat.testBit_land, Nat.zero_testBit]
    rcases eq_or_ne i k with rfl | hne
    · rw [Nat.testBit_two_pow_sub_one]
      simp
    · rw [Nat.testBit_two_pow_of_ne (fun he => hne he.symm)]
      rfl

/-! ### Array cell access -/

theorem get!_set!_eq (a : Array Int) (i : Nat) (v : Int) (h : i < a.size) :
    (a.set! i v).get! i = v := by
  rw [Array.get!_eq_getD]
  unfold Array.getD
  rw [dif_pos (by simpa using h)]
  simp

theorem get!_set!_ne (a : Array Int) {i j : Nat} (v : Int) (hne : i ≠ j) :
    (a.set! i v).get! j = a.get! j := by
  rw [Array.get!_eq_getD, Array.get!_eq_getD]
  unfold Array.getD
  by_cases hj : j < a.size
  · rw [dif_pos (by simpa using hj), dif_pos hj]
    by_cases hi : i < a.size
    · simp only [Array.set!_is_setD, Array.setD, dif_pos hi, Array.get_eq_getElem]
      exact Array.getElem_set_ne a ⟨i, hi⟩ v (by simpa using hj) hne
    · simp [Array.set!_is_setD, Array.setD, hi]
  · rw [dif_neg (by simpa using hj), dif_neg hj]

/-! ### Tree geometry -/

theorem isDesc_self (a : Nat) : isDesc a a := ⟨0, by simp⟩

theorem isDesc_le {a i : Nat} (h : isDesc a i) : a ≤ i := by
  obtain ⟨m, hm⟩ := h
  subst hm
  exact Nat.div_le_self i (2 ^ m)

theorem div_two_pow_succ (i m : Nat) : i / 2 ^ m / 2 = i / 2 ^ (m + 1) := by
  rw [Nat.div_div_eq_div_mul, Nat.pow_succ]

theorem isDesc_left {a i : Nat} (h : isDesc (2 * a) i) : isDesc a i := by
  obtain ⟨m, hm⟩ := h
  exact ⟨m + 1, by rw [← div_two_pow_succ, hm]; omega⟩

theorem isDesc_right {a i : Nat} (h : isDesc (2 * a + 1) i) : isDesc a i := by
  obtain ⟨m, hm⟩ := h
  exact ⟨m + 1, by rw [← div_two_pow_succ, hm]; omega⟩

theorem not_isDesc_left_self {a : Nat} (ha : 1 ≤ a) : ¬ isDesc (2 * a) a :=
  fun h => by have := isDesc_le h; omega

theorem not_isDesc_right_self {a : Nat} (ha : 1 ≤ a) : ¬ isDesc (2 * a + 1) a :=
  fun h => by have := isDesc_le h; omega

theorem bitLen_div2 (m : Nat) : bitLen (m / 2) = bitLen m - 1 := by
  rcases Nat.lt_or_ge m 2 with h | h
  · interval_cases m
    · simp [bitLen_zero]
    · have h1 : bitLen 1 = 1 := bitLen_two_pow 0
      have h0 : (1 : Nat) / 2 = 0 := by omega
      rw [h0, bitLen_zero, h1]
  · have hb : 2 ≤ bitLen m := lt_bitLen_iff.mpr (by simpa using h)
    have hlow : 2 ^ (bitLen m - 1) ≤ m := two_pow_bitLen_pred_le (by omega)
    have hhigh : m < 2 ^ bitLen m := bitLen_lt_two_pow m
    apply bitLen_eq_of_bounds (k := bitLen m - 2) ?_ ?_ |>.trans (by omega)
    · have : 2 ^ (bitLen m - 1) = 2 ^ (bitLen m - 2) * 2 := by
        rw [← Nat.pow_succ]
        congr 1
        omega
      rw [this] at hlow
      omega
    · have : 2 ^ (bitLen m - 2 + 1) = 2 ^ (bitLen m - 1) := by congr 1; omega
      rw [this]
      have h2 : 2 ^ (bitLen m - 1) * 2 = 2 ^ bitLen m := by
        rw [← Nat.pow_succ]
        congr 1
        omega
      omega

theorem bitLen_div_pow (m : Nat) : ∀ j, bitLen (m / 2 ^ j) = bitLen m - j := by
  intro j
  induction j with
  | zero => simp
  | succ j ih =>
    rw [← div_two_pow_succ, bitLen_div2, ih]
    omega

/-- `NUM_SIBLINGS_OF(nid)` equals `2^(LEVEL_OF(nid) - 1)` — the number
of nodes at `nid`'s level — for all node ids below `2^31`. -/
theorem numSiblings_eq {n : Nat} (h1 : 1 ≤ n) (h2 : n + 1 < U32MOD) :
    numSiblings n = 2 ^ (bitLen n - 1) := by
  unfold numSiblings nearestPow2U32
  have hmod : (n + 1) % U32MOD = n + 1 := Nat.mod_eq_of_lt h2
  rw [hmod]
  have hb1 := bitLen_pos h1
  have hlow := two_pow_bitLen_pred_le h1
  have hhigh := bitLen_lt_two_pow n
  by_cases hp : isPow2 (n + 1)
  · rw [if_pos hp]
    obtain ⟨k, hk⟩ := isPow2_iff.mp hp
    have hk1 : 1 ≤ k := by
      rcases Nat.eq_zero_or_pos k with h0 | h0
      · subst h0; simp at hk; omega
      · exact h0
    have hbn : bitLen n = k := by
      have hpk : 2 ^ k = 2 ^ (k - 1) * 2 := by
        rw [← Nat.pow_succ]; congr 1; omega
      refine (bitLen_eq_of_bounds (k := k - 1) ?_ ?_).trans (by omega)
      · have : (1 : Nat) ≤ 2 ^ (k - 1) := Nat.one_le_two_pow
        omega
      · have : k - 1 + 1 = k := by omega
        rw [this]
        omega
    rw [hk, hbn]
    have hpk : 2 ^ k = 2 ^ (k - 1) * 2 := by
      rw [← Nat.pow_succ]; congr 1; omega
    rw [hpk, Nat.mul_div_cancel _ (by omega)]
  · rw [if_neg hp]
    unfold clz32
    rw [hmod]
    have hble : bitLen (n + 1) ≤ 32 := by
      apply bitLen_le_iff.mpr
      unfold U32MOD at h2
      have : (2 : Nat) ^ 32 = 4294967296 := by norm_num
      omega
    rw [show 32 - (32 - bitLen (n + 1)) = bitLen (n + 1) by omega]
    have hbln : bitLen (n + 1) = bitLen n := by
      have hne : n + 1 ≠ 2 ^ bitLen n := by
        intro he
        exact hp (isPow2_iff.mpr ⟨bitLen n, he⟩)
      exact bitLen_eq_of_bounds (k := bitLen n - 1) (by omega)
        (by rw [show bitLen n - 1 + 1 = bitLen n by omega]; omega) |>.trans (by omega)
    rw [hbln]
    have hpk : 2 ^ bitLen n = 2 ^ (bitLen n - 1) * 2 := by
      rw [← Nat.pow_succ]; congr 1; omega
    rw [hpk, Nat.mul_div_cancel _ (by omega)]

/-! ### The allocation descent -/

/-- The behaviour of the `internal_allocate_buddy` descent under its
entry conditions (`1 ≤ cur`, `LEVEL_OF(cur) ≤ level`, tree array large
enough, fuel covering the recursion depth): the call returns `.ok`; a
failed search (`n = 0`) leaves the tree untouched and only happens on a
non-`IDLE` cell; a descent into an `IDLE` cell always allocates; and on
success the node sits at the requested level inside `cur`'s subtree,
carries the stored size, every cell outside `cur`'s subtree is
untouched, and every ancestor of the node up to and including `cur` is
marked split (`SPLT_HALFWAY` or `SPLT_FULL`). -/
theorem iab_spec : ∀ (fuel : Nat) (t : Array Int) (level cur size : Nat),
    1 ≤ cur → levelOf cur ≤ level → 2 ^ level ≤ t.size →
    level - levelOf cur < fuel →
    ∃ (n : Nat) (t' : Array Int),
      internalAllocateBuddy t level cur size fuel = some (.ok n, t') ∧
      t'.size = t.size ∧
      (∀ i, ¬ isDesc cur i → t'.get! i = t.get! i) ∧
      (n = 0 → t' = t ∧ t.get! cur ≠ BUDDY_IDLE) ∧
      (t.get! cur = BUDDY_IDLE → 1 ≤ n) ∧
      (1 ≤ n →
        levelOf n = level ∧
        n / 2 ^ (level - levelOf cur) = cur ∧
        t'.get! n = Int.ofNat size ∧
        (∀ j, 1 ≤ j → j ≤ level - levelOf cur →
          t'.get! (n / 2 ^ j) = BUDDY_SPLT_HALFWAY ∨
          t'.get! (n / 2 ^ j) = BUDDY_SPLT_FULL)) := by
  intro fuel
  induction fuel with
  | zero =>
    intro t level cur size hcur hlev hsz hfuel
    omega
  | succ f ih =>
    intro t level cur size hcur hlev hsz hfuel
    have hcurlt : cur < 2 ^ levelOf cur := bitLen_lt_two_pow cur
    have hcursz : cur < t.size := by
      have : (2 : Nat) ^ levelOf cur ≤ 2 ^ level := Nat.pow_le_pow_right (by omega) hlev
      omega
    have hc1 : ¬ (level < levelOf cur) := by omega
    rcases Nat.eq_or_lt_of_le hlev with hbase | hlt
    · -- base: LEVEL_OF(cur) == level
      by_cases hcell : t.get! cur = BUDDY_IDLE
      · refine ⟨cur, t.set! cur (Int.ofNat size), ?_, ?_, ?_, ?_, ?_, ?_⟩
        · show internalAllocateBuddy t level cur size (f + 1) = _
          unfold internalAllocateBuddy
          rw [if_neg hc1, if_pos hbase, if_pos (beq_iff_eq.mpr hcell)]
        · exact Array.size_set! t cur _
        · intro i hi
          exact get!_set!_ne t _ (fun he => hi (he ▸ isDesc_self cur))
        · intro h0; omega
        · intro _; exact hcur
        · intro _
          refine ⟨hbase, ?_, ?_, ?_⟩
          · rw [← hbase, Nat.sub_self, Nat.pow_zero, Nat.div_one]
          · exact get!_set!_eq t cur _ hcursz
          · intro j hj1 hj2
            rw [← hbase] at hj2
            omega
      · refine ⟨0, t, ?_, rfl, fun _ _ => rfl, fun _ => ⟨rfl, hcell⟩,
          fun hidle => absurd hidle hcell, fun h1 => by omega⟩
        show internalAllocateBuddy t level cur size (f + 1) = _
        simp only [internalAllocateBuddy]
        rw [if_neg hc1, if_pos hbase,
          if_neg (fun hbe => hcell (beq_iff_eq.mp hbe))]
    · -- descend: LEVEL_OF(cur) < level
      have hc2 : ¬ (levelOf cur = level) := by omega
      have hlevl : levelOf (2 * cur) = levelOf cur + 1 := bitLen_two_mul hcur
      have hlevr : levelOf (2 * cur + 1) = levelOf cur + 1 := bitLen_two_mul_add_one cur
      have hlsz : 2 * cur < t.size := by
        have h1 : 2 * cur < 2 ^ (levelOf cur + 1) := by
          rw [Nat.pow_succ]; omega
        have h2 : (2 : Nat) ^ (levelOf cur + 1) ≤ 2 ^ level :=
          Nat.pow_le_pow_right (by omega) (by omega)
        omega
      have hrsz : 2 * cur + 1 < t.size := by
        have h1 : 2 * cur + 1 < 2 ^ (levelOf cur + 1) := by
          rw [Nat.pow_succ]; omega
        have h2 : (2 : Nat) ^ (levelOf cur + 1) ≤ 2 ^ level :=
          Nat.pow_le_pow_right (by omega) (by omega)
        omega
      have hlne : 2 * cur ≠ cur := by omega
      have hrne : 2 * cur + 1 ≠ cur := by omega
      have hrnel : 2 * cur + 1 ≠ 2 * cur := by omega
      by_cases hcell : t.get! cur = BUDDY_IDLE
      · -- split and go left
        set t1 := ((t.set! cur BUDDY_SPLT_HALFWAY).set! (2 * cur)
          BUDDY_IDLE).set! (2 * cur + 1) BUDDY_IDLE with ht1
        have hsz1 : t1.size = t.size := by
          rw [ht1]; simp
        have hlidle : t1.get! (2 * cur) = BUDDY_IDLE := by
          rw [ht1, get!_set!_ne _ _ hrnel]
          exact get!_set!_eq _ _ _ (by simpa using hlsz)
        have hcurhalf : t1.get! cur = BUDDY_SPLT_HALFWAY := by
          rw [ht1, get!_set!_ne _ _ hrne, get!_set!_ne _ _ hlne]
          exact get!_set!_eq _ _ _ hcursz
        obtain ⟨n', t'', heq', hsz', hframe', hzero', hidle', hpos'⟩ :=
          ih t1 level (2 * cur) size (by omega) (by omega) (by omega) (by omega)
        have hn' : 1 ≤ n' := hidle' hlidle
        refine ⟨n', t'', ?_, by omega, ?_, by omega, fun _ => hn', ?_⟩
        · show internalAllocateBuddy t level cur size (f + 1) = _
          simp only [internalAllocateBuddy]
          rw [if_neg hc1, if_neg hc2, if_pos (beq_iff_eq.mpr hcell)]
          exact heq'
        · intro i hi
          have hi1 : i ≠ cur := fun he => hi (he ▸ isDesc_self cur)
          have hi2 : ¬ isDesc (2 * cur) i := fun hd => hi (isDesc_left hd)
          have hi3 : i ≠ 2 * cur := fun he => hi2 (he ▸ isDesc_self _)
          have hi4 : i ≠ 2 * cur + 1 := by
            intro he
            exact hi (isDesc_right (he ▸ isDesc_self _))
          rw [hframe' i hi2, ht1, get!_set!_ne _ _ (fun h => hi4 h.symm),
            get!_set!_ne _ _ (fun h => hi3 h.symm),
            get!_set!_ne _ _ (fun h => hi1 h.symm)]
        · intro _
          obtain ⟨hp1, hp2, hp3, hp4⟩ := hpos' hn'
          have hd1 : level - levelOf cur = (level - levelOf (2 * cur)) + 1 := by
            omega
          have hp2' : n' / 2 ^ (level - levelOf cur) = cur := by
            rw [hd1, ← div_two_pow_succ, hp2]
            omega
          refine ⟨hp1, hp2', hp3, ?_⟩
          intro j hj1 hj2
          rcases Nat.lt_or_ge j (level - levelOf cur) with hjlt | hjge
          · exact hp4 j hj1 (by omega)
          · have hje : j = level - levelOf cur := by omega
            subst hje
            rw [hp2']
            left
            rw [hframe' cur (not_isDesc_left_self hcur)]
            exact hcurhalf
      · by_cases hhalf : t.get! cur = BUDDY_SPLT_HALFWAY
        · -- try left, then right, maybe promote to SPLT_FULL
          obtain ⟨n₁, t1, heq1, hsz1, hframe1, hzero1, _, hpos1⟩ :=
            ih t level (2 * cur) size (by omega) (by omega) (by omega) (by omega)
          have hshow : internalAllocateBuddy t level cur size (f + 1) =
              (match internalAllocateBuddy t level (2 * cur) size f with
              | none => none
              | some (.error e, ta) => some (.error e, ta)
              | some (.ok ret, ta) =>
                match (if ret = 0 then
                    internalAllocateBuddy ta level (2 * cur + 1) size f
                  else some (.ok ret, ta)) with
                | none => none
                | some (.error e, tb) => some (.error e, tb)
                | some (.ok ret2, tb) =>
                  if 0 < ret2 ∧ buddyIsFull (tb.get! (2 * cur)) ∧
                      buddyIsFull (tb.get! (2 * cur + 1)) then
                    some (.ok ret2, tb.set! cur BUDDY_SPLT_FULL)
                  else some (.ok ret2, tb)) := by
            simp only [internalAllocateBuddy]
            rw [if_neg hc1, if_neg hc2,
              if_neg (fun hbe => hcell (beq_iff_eq.mp hbe)),
              if_pos (beq_iff_eq.mpr hhalf)]
          rcases Nat.eq_zero_or_pos n₁ with hn₁ | hn₁
          · -- left failed: try right
            subst hn₁
            obtain ⟨ht1eq, hlnotidle⟩ := hzero1 rfl
            rw [ht1eq] at heq1
            obtain ⟨n₂, t2, heq2, hsz2, hframe2, hzero2, _, hpos2⟩ :=
              ih t level (2 * cur + 1) size (by omega) (by omega) (by omega)
                (by omega)
            rcases Nat.eq_zero_or_pos n₂ with hn₂ | hn₂
            · -- both children exhausted: return 0 with the tree untouched
              subst hn₂
              obtain ⟨ht2eq, _⟩ := hzero2 rfl
              rw [ht2eq] at heq2
              refine ⟨0, t, ?_, rfl, fun _ _ => rfl,
                fun _ => ⟨rfl, by rw [hhalf]; decide⟩,
                fun hidle => absurd hidle hcell, fun h1 => by omega⟩
              rw [hshow, heq1]
              show (match (if (0 : Nat) = 0 then
                  internalAllocateBuddy t level (2 * cur + 1) size f
                  else some (Except.ok 0, t)) with
                | none => none
                | some (Except.error e, tb) => some (Except.error e, tb)
                | some (Except.ok ret2, tb) =>
                  if 0 < ret2 ∧ buddyIsFull (tb.get! (2 * cur)) ∧
                      buddyIsFull (tb.get! (2 * cur + 1)) then
                    some (Except.ok ret2, tb.set! cur BUDDY_SPLT_FULL)
                  else some (Except.ok ret2, tb)) = _
              rw [if_pos rfl, heq2]
              show (if 0 < 0 ∧ buddyIsFull (t.get! (2 * cur)) ∧
                  buddyIsFull (t.get! (2 * cur + 1)) then
                some (Except.ok 0, t.set! cur BUDDY_SPLT_FULL)
                else some (Except.ok 0, t)) = _
              rw [if_neg (by simp)]
            · -- right child succeeded
              have hcur1 : t.get! cur = BUDDY_SPLT_HALFWAY := hhalf
              obtain ⟨hp1, hp2, hp3, hp4⟩ := hpos2 hn₂
              have hn₂cur : ∀ j, j ≤ level - levelOf cur - 1 →
                  n₂ / 2 ^ j ≠ cur := by
                intro j hj he
                have hlv : levelOf (n₂ / 2 ^ j) = level - j := by
                  show bitLen (n₂ / 2 ^ j) = level - j
                  rw [bitLen_div_pow]
                  show levelOf n₂ - j = level - j
                  rw [hp1]
                rw [he] at hlv
                omega
              have hd1 : level - levelOf cur = (level - levelOf (2 * cur + 1)) + 1 := by
                omega
              have hp2' : n₂ / 2 ^ (level - levelOf cur) = cur := by
                rw [hd1, ← div_two_pow_succ, hp2]
                omega
              by_cases hprom : 0 < n₂ ∧ buddyIsFull (t2.get! (2 * cur)) ∧
                  buddyIsFull (t2.get! (2 * cur + 1))
              · refine ⟨n₂, t2.set! cur BUDDY_SPLT_FULL, ?_, by simp; omega, ?_,
                  by omega, fun hidle => absurd hidle hcell, ?_⟩
                · rw [hshow, heq1]
                  show (match (if (0 : Nat) = 0 then
                      internalAllocateBuddy t level (2 * cur + 1) size f
                      else some (Except.ok 0, t)) with
                    | none => none
                    | some (Except.error e, tb) => some (Except.error e, tb)
                    | some (Except.ok ret2, tb) =>
                      if 0 < ret2 ∧ buddyIsFull (tb.get! (2 * cur)) ∧
                          buddyIsFull (tb.get! (2 * cur + 1)) then
                        some (Except.ok ret2, tb.set! cur BUDDY_SPLT_FULL)
                      else some (Except.ok ret2, tb)) = _
                  rw [if_pos rfl, heq2]
                  show (if 0 < n₂ ∧ buddyIsFull (t2.get! (2 * cur)) ∧
                      buddyIsFull (t2.get! (2 * cur + 1)) then
                    some (Except.ok n₂, t2.set! cur BUDDY_SPLT_FULL)
                    else some (Except.ok n₂, t2)) = _
                  rw [if_pos hprom]
                · intro i hi
                  have hi1 : i ≠ cur := fun he => hi (he ▸ isDesc_self cur)
                  have hi2 : ¬ isDesc (2 * cur + 1) i := fun hd => hi (isDesc_right hd)
                  rw [get!_set!_ne _ _ (fun h => hi1 h.symm), hframe2 i hi2]
                · intro _
                  refine ⟨hp1, hp2', ?_, ?_⟩
                  · have hne : n₂ ≠ cur := by
                      intro he
                      rw [he] at hp1
                      omega
                    rw [get!_set!_ne _ _ (fun h => hne h.symm)]
                    exact hp3
                  · intro j hj1 hj2
                    rcases Nat.lt_or_ge j (level - levelOf cur) with hjlt | hjge
                    · have hne := hn₂cur j (by omega)
                      rw [get!_set!_ne _ _ (fun h => hne h.symm)]
                      exact hp4 j hj1 (by omega)
                    · have hje : j = level - levelOf cur := by omega
                      subst hje
                      rw [hp2']
                      right
                      exact get!_set!_eq _ _ _ (by omega)
              · refine ⟨n₂, t2, ?_, by omega, ?_, by omega,
                  fun hidle => absurd hidle hcell, ?_⟩
                · rw [hshow, heq1]
                  show (match (if (0 : Nat) = 0 then
                      internalAllocateBuddy t level (2 * cur + 1) size f
                      else some (Except.ok 0, t)) with
                    | none => none
                    | some (Except.error e, tb) => some (Except.error e, tb)
                    | some (Except.ok ret2, tb) =>
                      if 0 < ret2 ∧ buddyIsFull (tb.get! (2 * cur)) ∧
                          buddyIsFull (tb.get! (2 * cur + 1)) then
                        some (Except.ok ret2, tb.set! cur BUDDY_SPLT_FULL)
                      else some (Except.ok ret2, tb)) = _
                  rw [if_pos rfl, heq2]
                  show (if 0 < n₂ ∧ buddyIsFull (t2.get! (2 * cur)) ∧
                      buddyIsFull (t2.get! (2 * cur + 1)) then
                    some (Except.ok n₂, t2.set! cur BUDDY_SPLT_FULL)
                    else some (Except.ok n₂, t2)) = _
                  rw [if_neg hprom]
                · intro i hi
                  exact hframe2 i (fun hd => hi (isDesc_right hd))
                · intro _
                  refine ⟨hp1, hp2', hp3, ?_⟩
                  intro j hj1 hj2
                  rcases Nat.lt_or_ge j (level - levelOf cur) with hjlt | hjge
                  · exact hp4 j hj1 (by omega)
                  · have hje : j = level - levelOf cur := by omega
                    subst hje
                    rw [hp2']
                    left
                    rw [hframe2 cur (not_isDesc_right_self hcur)]
                    exact hcur1
          · -- left child succeeded
            obtain ⟨hp1, hp2, hp3, hp4⟩ := hpos1 hn₁
            have hn₁cur : ∀ j, j ≤ level - levelOf cur - 1 →
                n₁ / 2 ^ j ≠ cur := by
              intro j hj he
              have hlv : levelOf (n₁ / 2 ^ j) = level - j := by
                show bitLen (n₁ / 2 ^ j) = level - j
                rw [bitLen_div_pow]
                show levelOf n₁ - j = level - j
                rw [hp1]
              rw [he] at hlv
              omega
            have hd1 : level - levelOf cur = (level - levelOf (2 * cur)) + 1 := by
              omega
            have hp2' : n₁ / 2 ^ (level - levelOf cur) = cur := by
              rw [hd1, ← div_two_pow_succ, hp2]
              omega
            by_cases hprom : 0 < n₁ ∧ buddyIsFull (t1.get! (2 * cur)) ∧
                buddyIsFull (t1.get! (2 * cur + 1))
            · refine ⟨n₁, t1.set! cur BUDDY_SPLT_FULL, ?_, by simp; omega, ?_,
                by omega, fun hidle => absurd hidle hcell, ?_⟩
              · rw [hshow, heq1]
                show (match (if n₁ = 0 then
                    internalAllocateBuddy t1 level (2 * cur + 1) size f
                    else some (Except.ok n₁, t1)) with
                  | none => none
                  | some (Except.error e, tb) => some (Except.error e, tb)
                  | some (Except.ok ret2, tb) =>
                    if 0 < ret2 ∧ buddyIsFull (tb.get! (2 * cur)) ∧
                        buddyIsFull (tb.get! (2 * cur + 1)) then
                      some (Except.ok ret2, tb.set! cur BUDDY_SPLT_FULL)
                    else some (Except.ok ret2, tb)) = _
                rw [if_neg (by omega)]
                show (if 0 < n₁ ∧ buddyIsFull (t1.get! (2 * cur)) ∧
                    buddyIsFull (t1.get! (2 * cur + 1)) then
                  some (Except.ok n₁, t1.set! cur BUDDY_SPLT_FULL)
                  else some (Except.ok n₁, t1)) = _
                rw [if_pos hprom]
              · intro i hi
                have hi1 : i ≠ cur := fun he => hi (he ▸ isDesc_self cur)
                have hi2 : ¬ isDesc (2 * cur) i := fun hd => hi (isDesc_left hd)
                rw [get!_set!_ne _ _ (fun h => hi1 h.symm), hframe1 i hi2]
              · intro _
                refine ⟨hp1, hp2', ?_, ?_⟩
                · have hne : n₁ ≠ cur := by
                    intro he
                    rw [he] at hp1
                    omega
                  rw [get!_set!_ne _ _ (fun h => hne h.symm)]
                  exact hp3
                · intro j hj1 hj2
                  rcases Nat.lt_or_ge j (level - levelOf cur) with hjlt | hjge
                  · have hne := hn₁cur j (by omega)
                    rw [get!_set!_ne _ _ (fun h => hne h.symm)]
                    exact hp4 j hj1 (by omega)
                  · have hje : j = level - levelOf cur := by omega
                    subst hje
                    rw [hp2']
                    right
                    exact get!_set!_eq _ _ _ (by omega)
            · refine ⟨n₁, t1, ?_, by omega, ?_, by omega,
                fun hidle => absurd hidle hcell, ?_⟩
              · rw [hshow, heq1]
                show (match (if n₁ = 0 then
                    internalAllocateBuddy t1 level (2 * cur + 1) size f
                    else some (Except.ok n₁, t1)) with
                  | none => none
                  | some (Except.error e, tb) => some (Except.error e, tb)
                  | some (Except.ok ret2, tb) =>
                    if 0 < ret2 ∧ buddyIsFull (tb.get! (2 * cur)) ∧
                        buddyIsFull (tb.get! (2 * cur + 1)) then
                      some (Except.ok ret2, tb.set! cur BUDDY_SPLT_FULL)
                    else some (Except.ok ret2, tb)) = _
                rw [if_neg (by omega)]
                show (if 0 < n₁ ∧ buddyIsFull (t1.get! (2 * cur)) ∧
                    buddyIsFull (t1.get! (2 * cur + 1)) then
                  some (Except.ok n₁, t1.set! cur BUDDY_SPLT_FULL)
                  else some (Except.ok n₁, t1)) = _
                rw [if_neg hprom]
              · intro i hi
                exact hframe1 i (fun hd => hi (isDesc_left hd))
              · intro _
                refine ⟨hp1, hp2', hp3, ?_⟩
                intro j hj1 hj2
                rcases Nat.lt_or_ge j (level - levelOf cur) with hjlt | hjge
                · exact hp4 j hj1 (by omega)
                · have hje : j = level - levelOf cur := by omega
                  subst hje
                  rw [hp2']
                  left
                  rw [hframe1 cur (not_isDesc_left_self hcur)]
                  exact hhalf
        · -- SPLT_FULL or an allocated cell: nothing here
          refine ⟨0, t, ?_, rfl, fun _ _ => rfl, fun _ => ⟨rfl, hcell⟩,
            fun hidle => absurd hidle hcell, fun h1 => by omega⟩
          show internalAllocateBuddy t level cur size (f + 1) = _
          simp only [internalAllocateBuddy]
          rw [if_neg hc1, if_neg hc2,
            if_neg (fun hbe => hcell (beq_iff_eq.mp hbe)),
            if_neg (fun hbe => hhalf (beq_iff_eq.mp hbe))]

/-! ### The buddy round-trip (C3) -/

/--
**C3, counterexample.**  The claim promises, for *every* requested size
`1 ≤ size ≤ C`, an offset that is a multiple of the rounded span — the
smallest power of two `≥ max(size, U)`.  The code's
`nearest_power_of_two<size_t>` truncates its argument to 32 bits before
counting leading zeros, so the request `2^33 + 1` "rounds" to `2^33`,
*below* the request.  On a tree with `C = 2^34, U = 2^33` two such
requests succeed at offsets `0` and `2^33`; the second offset is not a
multiple of the claimed rounded span `2^34`.
-/
theorem allocate_offset_misaligned_for_large_size :
    (allocate ⟨34, 33⟩ (buddyInitTree ⟨34, 33⟩) (2 ^ 33 + 1) =
      some (.ok 0, #[0, -1, 8589934593, 0])) ∧
    ((allocate ⟨34, 33⟩ #[0, -1, 8589934593, 0] (2 ^ 33 + 1)).map (·.1) =
      some (.ok (2 ^ 33))) ∧
    specRoundedSpan (2 ^ 33 + 1) ((⟨34, 33⟩ : BuddyParams).unitSize) = 2 ^ 34 ∧
    ¬ (2 ^ 33) % specRoundedSpan (2 ^ 33 + 1) ((⟨34, 33⟩ : BuddyParams).unitSize) = 0 :=
  ⟨rfl, rfl, rfl, by decide⟩

/-- `specNearestPow2` returns a power of two. -/
theorem specNearestPow2_pot (n : Nat) : ∃ k, specNearestPow2 n = 2 ^ k := by
  unfold specNearestPow2
  by_cases hp : isPow2 n
  · rw [if_pos hp]; exact isPow2_iff.mp hp
  · rw [if_neg hp]; exact ⟨bitLen n, rfl⟩

/-- `specNearestPow2 n` is at least `n`. -/
theorem le_specNearestPow2 (n : Nat) : n ≤ specNearestPow2 n := by
  unfold specNearestPow2
  by_cases hp : isPow2 n
  · rw [if_pos hp]
  · rw [if_neg hp]
    exact le_of_lt (bitLen_lt_two_pow n)

/-- `specNearestPow2 n` is the *smallest* power of two at least `n`. -/
theorem specNearestPow2_le_pot {n k : Nat} (h : n ≤ 2 ^ k) :
    specNearestPow2 n ≤ 2 ^ k := by
  unfold specNearestPow2
  by_cases hp : isPow2 n
  · rw [if_pos hp]; exact h
  · rw [if_neg hp]
    rcases Nat.eq_or_lt_of_le h with he | hlt
    · exact absurd (isPow2_iff.mpr ⟨k, he⟩) hp
    · exact Nat.pow_le_pow_right (by omega) (bitLen_le_iff.mpr hlt)

/-- The result of the code's `nearest_power_of_two<size_t>` is a power
of two. -/
theorem nearestPow2SizeT_pot {x np : Nat} (h : nearestPow2SizeT x = .ok np) :
    ∃ k, np = 2 ^ k := by
  unfold nearestPow2SizeT at h
  by_cases hp : isPow2 x
  · rw [if_pos hp] at h
    obtain ⟨k, hk⟩ := isPow2_iff.mp hp
    exact ⟨k, (Except.ok.inj h).symm.trans hk⟩
  · rw [if_neg hp] at h
    by_cases hz : clz32 x = 0
    · rw [if_pos hz] at h; exact absurd h (by simp)
    · rw [if_neg hz] at h
      exact ⟨64 - clz32 x, (Except.ok.inj h).symm⟩

/-- For requests below `2^32` the code's rounding does not fall below
the request (the truncation is the identity there). -/
theorem le_nearestPow2SizeT {x np : Nat} (hx : x < 2 ^ 32)
    (h : nearestPow2SizeT x = .ok np) : x ≤ np := by
  unfold nearestPow2SizeT at h
  by_cases hp : isPow2 x
  · rw [if_pos hp] at h
    have := Except.ok.inj h
    omega
  · rw [if_neg hp] at h
    by_cases hz : clz32 x = 0
    · rw [if_pos hz] at h; exact absurd h (by simp)
    · rw [if_neg hz] at h
      have hnp := Except.ok.inj h
      have hxm : x % U32MOD = x := by
        apply Nat.mod_eq_of_lt
        unfold U32MOD
        have h32 : (2 : Nat) ^ 32 = 4294967296 := by norm_num
        omega
      have hbl : bitLen x ≤ 32 := bitLen_le_iff.mpr hx
      have hcl : clz32 x = 32 - bitLen x := by unfold clz32; rw [hxm]
      have h64 : 64 - clz32 x = 32 + bitLen x := by omega
      rw [h64] at hnp
      have hge : x < 2 ^ (32 + bitLen x) :=
        lt_of_lt_of_le (bitLen_lt_two_pow x)
          (Nat.pow_le_pow_right (by omega) (by omega))
      omega

theorem max_pow_two (a b : Nat) : max (2 ^ a) (2 ^ b) = 2 ^ max a b := by
  rcases Nat.le_total a b with h | h
  · rw [Nat.max_eq_right h,
      Nat.max_eq_right (Nat.pow_le_pow_right (by omega) h)]
  · rw [Nat.max_eq_left h,
      Nat.max_eq_left (Nat.pow_le_pow_right (by omega) h)]

/-- Anatomy of a successful `BuddySystem::allocate`: the rounding
produced a power of two `2^be` within the capacity, the recursive
descent was entered at level `total_level - (be - unitExp)` and
returned a nonzero node, and the returned offset is `OFFSET_OF` of that
node. -/
theorem allocate_ok {p : BuddyParams} {t : Array Int} {size offset : Nat}
    {t' : Array Int}
    (hUC : p.unitExp ≤ p.capacityExp)
    (halloc : allocate p t size = some (.ok offset, t')) :
    ∃ (n be np : Nat),
      nearestPow2SizeT size = .ok np ∧
      p.unitExp ≤ be ∧ be ≤ p.capacityExp ∧
      max np p.unitSize = 2 ^ be ∧
      internalAllocateBuddy t (p.totalLevel - (be - p.unitExp)) 1 size
        (p.totalLevel - (be - p.unitExp)) = some (.ok n, t') ∧
      1 ≤ n ∧
      offset = offsetOfNode n p.capacity := by
  unfold allocate at halloc
  rcases hnp : nearestPow2SizeT size with e | np <;> rw [hnp] at halloc
  · exact absurd halloc (by simp)
  obtain ⟨kk, hkk⟩ := nearestPow2SizeT_pot hnp
  have hmax : max np p.unitSize = 2 ^ max kk p.unitExp := by
    rw [hkk]
    exact max_pow_two kk p.unitExp
  set be := max kk p.unitExp with hbe
  have hbeu : p.unitExp ≤ be := Nat.le_max_right kk p.unitExp
  replace halloc :
      (if max np p.unitSize > p.capacity then
        some ((.error .invalidArgument : Except ErrKind Nat), t)
      else
        match allocateBuddy p t
            (p.totalLevel - (bitLen (max np p.unitSize / p.unitSize) - 1)) size with
        | none => none
        | some (.error e, tx) => some (.error e, tx)
        | some (.ok node, tx) =>
          if node = 0 then some (.error .systemError, tx)
          else some (.ok (offsetOfNode node p.capacity), tx)) =
        some (.ok offset, t') := halloc
  by_cases hcap : max np p.unitSize > p.capacity
  · rw [if_pos hcap] at halloc
    exact absurd (Option.some.inj halloc) (by simp)
  rw [if_neg hcap] at halloc
  have hbec : be ≤ p.capacityExp := by
    have h1 : (2 : Nat) ^ be ≤ 2 ^ p.capacityExp := by
      rw [← hmax]
      exact le_of_not_lt hcap
    exact (Nat.pow_le_pow_iff_right (by omega)).mp h1
  have hlevel : p.totalLevel - (bitLen (max np p.unitSize / p.unitSize) - 1) =
      p.totalLevel - (be - p.unitExp) := by
    rw [hmax]
    show p.totalLevel - (bitLen (2 ^ be / 2 ^ p.unitExp) - 1) = _
    rw [Nat.pow_div hbeu (by omega), bitLen_two_pow]
    omega
  rw [hlevel] at halloc
  have hlev1 : 1 ≤ p.totalLevel - (be - p.unitExp) ∧
      p.totalLevel - (be - p.unitExp) ≤ p.totalLevel := by
    unfold BuddyParams.totalLevel
    omega
  have hab : allocateBuddy p t (p.totalLevel - (be - p.unitExp)) size =
      internalAllocateBuddy t (p.totalLevel - (be - p.unitExp)) 1 size
        (p.totalLevel - (be - p.unitExp)) := by
    unfold allocateBuddy
    rw [if_neg (by omega)]
  rw [hab] at halloc
  rcases hiab : internalAllocateBuddy t (p.totalLevel - (be - p.unitExp)) 1 size
      (p.totalLevel - (be - p.unitExp)) with _ | ⟨res, tx⟩ <;> rw [hiab] at halloc
  · exact absurd halloc (by simp)
  rcases res with e | node
  · exact absurd (Option.some.inj halloc) (by simp)
  replace halloc :
      (if node = 0 then some ((.error .systemError : Except ErrKind Nat), tx)
       else some (.ok (offsetOfNode node p.capacity), tx)) =
        some (.ok offset, t') := halloc
  by_cases hn0 : node = 0
  · rw [if_pos hn0] at halloc
    exact absurd (Option.some.inj halloc) (by simp)
  rw [if_neg hn0] at halloc
  have hinj := Option.some.inj halloc
  have hofs : offsetOfNode node p.capacity = offset := by
    have := congrArg Prod.fst hinj
    exact Except.ok.inj this
  have htx : tx = t' := congrArg Prod.snd hinj
  subst htx
  exact ⟨node, be, np, rfl, hbeu, hbec, hmax, hiab, by omega, hofs.symm⟩

/-- The query descent reaches an allocated node: if node `n` at level
`level` holds the positive size and every strict ancestor up to the
root of the walk is a split cell, then starting the walk `d` levels
above `n` with a leaf index inside `n`'s leaf window returns `n`'s
buddy offset and stored size, leaving the tree untouched. -/
theorem queryGo_reach (cap : Nat) (t : Array Int) (n level L size : Nat)
    (hn1 : 1 ≤ n)
    (hcell : t.get! n = Int.ofNat size)
    (hsz : 1 ≤ size)
    (hanc : ∀ j, 1 ≤ j → j ≤ level - 1 →
      t.get! (n / 2 ^ j) = BUDDY_SPLT_HALFWAY ∨
      t.get! (n / 2 ^ j) = BUDDY_SPLT_FULL) :
    ∀ d li fuel, d ≤ level - 1 → d < fuel →
      n % 2 ^ d * 2 ^ (L - level) ≤ li →
      li < (n % 2 ^ d + 1) * 2 ^ (L - level) →
      queryGo cap t (n / 2 ^ d) li (2 ^ (L - level + d)) fuel =
        some (.ok ((n - numSiblings n) * cap / numSiblings n,
          Int.ofNat size), t) := by
  intro d
  induction d with
  | zero =>
    intro li fuel hd hf hlo hhi
    rcases fuel with _ | f
    · omega
    simp only [Nat.pow_zero, Nat.div_one, Nat.add_zero]
    simp only [queryGo]
    rw [if_neg (by rw [hcell]; simp [BUDDY_SPLT_FULL, BUDDY_SPLT_HALFWAY]),
      if_neg (by rw [hcell]; simp [BUDDY_IDLE]; omega), hcell]
    rfl
  | succ d ih =>
    intro li fuel hd hf hlo hhi
    rcases fuel with _ | f
    · omega
    have hroot := hanc (d + 1) (by omega) (by omega)
    simp only [queryGo]
    rw [if_pos (by rcases hroot with h | h <;> rw [h] <;> simp)]
    have hnl : 2 ^ (L - level + (d + 1)) / 2 = 2 ^ (L - level + d) := by
      rw [show L - level + (d + 1) = (L - level + d) + 1 from rfl, Nat.pow_succ]
      exact Nat.mul_div_cancel _ (by omega)
    rw [hnl]
    have hmod : n % 2 ^ (d + 1) = n % 2 ^ d + 2 ^ d * (n / 2 ^ d % 2) := by
      rw [Nat.pow_succ]
      exact Nat.mod_mul
    have hdiv : n / 2 ^ d = 2 * (n / 2 ^ (d + 1)) + n / 2 ^ d % 2 := by
      have h1 := Nat.div_add_mod (n / 2 ^ d) 2
      rw [div_two_pow_succ] at h1
      omega
    have hrd : n % 2 ^ d < 2 ^ d := Nat.mod_lt _ (Nat.two_pow_pos d)
    have hpow : (2 : Nat) ^ (L - level + d) = 2 ^ d * 2 ^ (L - level) := by
      rw [Nat.pow_add]
      ring
    have hb01 : n / 2 ^ d % 2 = 0 ∨ n / 2 ^ d % 2 = 1 := by omega
    rcases hb01 with hb | hb
    · rw [hb] at hmod hdiv
      simp only [Nat.mul_zero, Nat.add_zero] at hmod hdiv
      rw [hmod] at hlo hhi
      have hlt : li < 2 ^ (L - level + d) := by
        have h2 : (n % 2 ^ d + 1) * 2 ^ (L - level) ≤ 2 ^ d * 2 ^ (L - level) :=
          Nat.mul_le_mul_right _ (by omega)
        rw [hpow]
        omega
      rw [if_pos hlt, show 2 * (n / 2 ^ (d + 1)) = n / 2 ^ d from by omega]
      exact ih li f (by omega) (by omega) hlo hhi
    · rw [hb] at hmod hdiv
      rw [hmod, Nat.add_mul] at hlo hhi
      rw [Nat.add_mul, Nat.one_mul] at hhi
      have hR : 2 ^ d * (1 : Nat) * 2 ^ (L - level) = 2 ^ d * 2 ^ (L - level) := by
        ring
      rw [hR] at hlo hhi
      have hge : ¬ li < 2 ^ (L - level + d) := by
        rw [hpow]
        omega
      rw [if_neg hge, show 2 * (n / 2 ^ (d + 1)) + 1 = n / 2 ^ d from by omega]
      refine ih (li - 2 ^ (L - level + d)) f (by omega) (by omega) ?_ ?_
      · rw [hpow]
        omega
      · rw [Nat.add_mul, Nat.one_mul, hpow]
        omega

/-- C3 (amended: restricted to requested sizes below `2^32`, where the
32-bit `__builtin_clz` in `nearest_power_of_two<size_t>` is at least
well defined; the original claim over all sizes is refuted by
`allocate_offset_misaligned_for_large_size`).  A successful
`allocate(size)` returns an offset that is a multiple of the spec's
rounded span — the smallest power of two at least `max(size, U)` — and
`query(offset + k)` returns the pair `(offset, size)` with the original
requested size for every `k < size`. -/
theorem allocate_round_trip {p : BuddyParams} {t t' : Array Int}
    {size offset : Nat}
    (hUC : p.unitExp ≤ p.capacityExp)
    (hL31 : p.totalLevel ≤ 31)
    (hsz1 : 1 ≤ size) (hsz32 : size < 2 ^ 32)
    (ht : 2 ^ p.totalLevel ≤ t.size)
    (halloc : allocate p t size = some (.ok offset, t')) :
    offset % specRoundedSpan size p.unitSize = 0 ∧
    ∀ k, k < size →
      query p t' (offset + k) = some (.ok (offset, Int.ofNat size), t') := by
  obtain ⟨n, be, np, hnp, hbeu, hbec, hmax, hiab, hn1, hofs⟩ :=
    allocate_ok hUC halloc
  have htL : p.totalLevel = p.capacityExp - p.unitExp + 1 := rfl
  set level : Nat := p.totalLevel - (be - p.unitExp) with hlevdef
  have hlev1 : 1 ≤ level ∧ level ≤ p.totalLevel := by omega
  have hlevOf1 : levelOf 1 = 1 := by decide
  obtain ⟨n₀, t₀, heq, hszeq, hframe, hzero, hidle, hposf⟩ :=
    iab_spec level t level 1 size (by omega) (by omega)
      (le_trans (Nat.pow_le_pow_right (by omega) (by omega)) ht) (by omega)
  have hinj : n = n₀ ∧ t' = t₀ := by
    have h2 := heq.symm.trans hiab
    have h3 := Option.some.inj h2
    exact ⟨(Except.ok.inj (congrArg Prod.fst h3)).symm,
      (congrArg Prod.snd h3).symm⟩
  obtain ⟨hn₀, ht₀⟩ := hinj
  subst hn₀
  subst ht₀
  obtain ⟨hlevn, hpath, hcell, hancs⟩ := hposf hn1
  rw [hlevOf1] at hpath hancs
  have hnlo : 2 ^ (level - 1) ≤ n := by
    have h := two_pow_bitLen_pred_le hn1
    rw [show bitLen n = level from hlevn] at h
    exact h
  have hnhi : n < 2 ^ level := by
    have h := bitLen_lt_two_pow n
    rw [show bitLen n = level from hlevn] at h
    exact h
  have hns : numSiblings n = 2 ^ (level - 1) := by
    have hb : n + 1 < U32MOD := by
      have h1 : (2 : Nat) ^ level ≤ 2 ^ 31 :=
        Nat.pow_le_pow_right (by omega) (by omega)
      have h2 : (2 : Nat) ^ 31 = 2147483648 := by norm_num
      unfold U32MOD
      omega
    rw [numSiblings_eq hn1 hb, show bitLen n = level from hlevn]
  have hpow2lev : (2 : Nat) ^ level = 2 ^ (level - 1) * 2 := by
    rw [← Nat.pow_succ]
    congr 1
    omega
  have hr_eq : n - 2 ^ (level - 1) = n % 2 ^ (level - 1) := by
    have h1 : n % 2 ^ (level - 1) = (n - 2 ^ (level - 1)) % 2 ^ (level - 1) :=
      Nat.mod_eq_sub_mod hnlo
    have h2 : n - 2 ^ (level - 1) < 2 ^ (level - 1) := by omega
    rw [h1, Nat.mod_eq_of_lt h2]
  have hcap : p.capacity = 2 ^ (level - 1) * 2 ^ be := by
    show 2 ^ p.capacityExp = _
    rw [← Nat.pow_add]
    congr 1
    omega
  have hofs2 : offset = 2 ^ be * (n % 2 ^ (level - 1)) := by
    rw [hofs]
    unfold offsetOfNode siblingIndex
    rw [hns, hr_eq, hcap, Nat.mul_div_cancel_left _ (Nat.two_pow_pos _)]
  have hsnp : size ≤ np := le_nearestPow2SizeT hsz32 hnp
  have hspan : specRoundedSpan size p.unitSize ≤ 2 ^ be := by
    unfold specRoundedSpan
    apply specNearestPow2_le_pot
    rw [← hmax]
    exact max_le_max hsnp (le_refl _)
  obtain ⟨s, hs⟩ := specNearestPow2_pot (max size p.unitSize)
  have hsr : specRoundedSpan size p.unitSize = 2 ^ s := hs
  have hsbe : s ≤ be := by
    apply (Nat.pow_le_pow_iff_right (a := 2) (by omega)).mp
    rw [← hsr]
    exact hspan
  constructor
  · rw [hsr, hofs2,
      show (2 : Nat) ^ be = 2 ^ s * 2 ^ (be - s) from by
        rw [← Nat.pow_add]; congr 1; omega,
      Nat.mul_assoc]
    exact Nat.mul_mod_right _ _
  intro k hk
  have hkbe : k < 2 ^ be := by
    have h1 : np ≤ 2 ^ be := hmax ▸ Nat.le_max_left np p.unitSize
    omega
  have hkU : k < 2 ^ p.unitExp * 2 ^ (be - p.unitExp) := by
    have h2 : (2 : Nat) ^ be = 2 ^ p.unitExp * 2 ^ (be - p.unitExp) := by
      rw [← Nat.pow_add]
      congr 1
      omega
    omega
  have hkdiv : k / 2 ^ p.unitExp < 2 ^ (be - p.unitExp) :=
    Nat.div_lt_of_lt_mul hkU
  have hli : (offset + k) / p.unitSize =
      k / 2 ^ p.unitExp + 2 ^ (be - p.unitExp) * (n % 2 ^ (level - 1)) := by
    show (offset + k) / 2 ^ p.unitExp = _
    rw [hofs2,
      show (2 : Nat) ^ be = 2 ^ p.unitExp * 2 ^ (be - p.unitExp) from by
        rw [← Nat.pow_add]; congr 1; omega,
      Nat.mul_assoc, Nat.add_comm]
    exact Nat.add_mul_div_left k _ (Nat.two_pow_pos _)
  have hq := queryGo_reach p.capacity t' n level p.totalLevel size hn1 hcell
    hsz1 hancs (level - 1) ((offset + k) / p.unitSize) p.totalLevel
    (le_refl _) (by omega)
    (by rw [hli, show p.totalLevel - level = be - p.unitExp from by omega,
          Nat.mul_comm (n % 2 ^ (level - 1)) (2 ^ (be - p.unitExp))]
        exact Nat.le_add_left _ _)
    (by rw [hli, show p.totalLevel - level = be - p.unitExp from by omega,
          Nat.add_mul, Nat.one_mul,
          Nat.mul_comm (n % 2 ^ (level - 1)) (2 ^ (be - p.unitExp))]
        omega)
  rw [hpath, show p.totalLevel - level + (level - 1) = p.totalLevel - 1 from
    by omega] at hq
  have hres : (n - numSiblings n) * p.capacity / numSiblings n = offset := by
    rw [hns, hr_eq, hcap, Nat.mul_comm (n % 2 ^ (level - 1)) _,
      Nat.mul_assoc, Nat.mul_div_cancel_left _ (Nat.two_pow_pos _), ← hofs2]
  rw [hres] at hq
  exact hq

/-- Concrete instance of the amended round-trip law: on a fresh
`C = 4 MiB, U = 1 MiB` tree, `allocate(2 MiB)` returns offset `0`, the
offset is aligned to the rounded span, and `query(5)` inside the block
returns `(0, 2 MiB)`. -/
theorem allocate_round_trip_witness :
    allocate ⟨22, 20⟩ (buddyInitTree ⟨22, 20⟩) 2097152 =
      some (.ok 0, #[0, -1, 2097152, 0, 0, 0, 0, 0]) ∧
    (0 : Nat) % specRoundedSpan 2097152 (BuddyParams.unitSize ⟨22, 20⟩) = 0 ∧
    query ⟨22, 20⟩ #[0, -1, 2097152, 0, 0, 0, 0, 0] (0 + 5) =
      some (.ok (0, Int.ofNat 2097152), #[0, -1, 2097152, 0, 0, 0, 0, 0]) := by
  have h := @allocate_round_trip ⟨22, 20⟩ (buddyInitTree ⟨22, 20⟩)
    #[0, -1, 2097152, 0, 0, 0, 0, 0] 2097152 0
    (by decide) (by decide) (by decide) (by decide) (by decide) rfl
  exact ⟨rfl, h.1, h.2 5 (by decide)⟩

theorem isDesc_disjoint {v i : Nat} (hv : 1 ≤ v)
    (h1 : isDesc (2 * v) i) (h2 : isDesc (2 * v + 1) i) : False := by
  obtain ⟨m, hm⟩ := h1
  obtain ⟨k, hk⟩ := h2
  have b1 := bitLen_div_pow i m
  have b2 := bitLen_div_pow i k
  rw [hm, bitLen_two_mul hv] at b1
  rw [hk, bitLen_two_mul_add_one] at b2
  have hp := bitLen_pos hv
  have hmk : m = k := by omega
  rw [hmk, hk] at hm
  omega

theorem isDesc_offset {v m j : Nat} (hj : j < 2 ^ m) :
    isDesc v (v * 2 ^ m + j) :=
  ⟨m, by rw [Nat.mul_comm, Nat.mul_add_div (Nat.two_pow_pos m),
    Nat.div_eq_of_lt hj, Nat.add_zero]⟩

theorem pow_succ_two (m : Nat) : (2 : Nat) ^ (m + 1) = 2 ^ m + 2 ^ m := by
  rw [Nat.pow_succ]
  omega

theorem child_cell_left (v m j : Nat) :
    2 * v * 2 ^ m + j = v * 2 ^ (m + 1) + j := by ring

theorem child_cell_right (v m j : Nat) :
    (2 * v + 1) * 2 ^ m + j = v * 2 ^ (m + 1) + (2 ^ m + j) := by ring

theorem freeLeaves_idle {t : Array Int} {v : Nat}
    (h : t.get! v = BUDDY_IDLE) : ∀ hh, freeLeaves t v hh = 2 ^ hh := by
  intro hh
  cases hh with
  | zero =>
    simp only [freeLeaves]
    rw [if_pos (beq_iff_eq.mpr h), Nat.pow_zero]
  | succ k =>
    simp only [freeLeaves]
    rw [if_pos (beq_iff_eq.mpr h)]

theorem freeLeaves_congr : ∀ (h v : Nat) (t1 t2 : Array Int),
    (∀ m j, m ≤ h → j < 2 ^ m →
      t2.get! (v * 2 ^ m + j) = t1.get! (v * 2 ^ m + j)) →
    freeLeaves t2 v h = freeLeaves t1 v h := by
  intro h
  induction h with
  | zero =>
    intro v t1 t2 hc
    have hv : t2.get! v = t1.get! v := by simpa using hc 0 0 (le_refl 0) (by decide)
    simp only [freeLeaves, hv]
  | succ k ih =>
    intro v t1 t2 hc
    have hv : t2.get! v = t1.get! v := by simpa using hc 0 0 (by omega) (by decide)
    have hl := ih (2 * v) t1 t2 (fun m j hm hj => by
      rw [child_cell_left]
      exact hc (m + 1) j (by omega)
        (lt_of_lt_of_le hj (Nat.pow_le_pow_right (by omega) (by omega))))
    have hr := ih (2 * v + 1) t1 t2 (fun m j hm hj => by
      rw [child_cell_right]
      refine hc (m + 1) (2 ^ m + j) (by omega) ?_
      rw [Nat.pow_succ]
      omega)
    simp only [freeLeaves, hv, hl, hr]

theorem wfSub_congr : ∀ (h v : Nat) (t1 t2 : Array Int) (U : Nat),
    (∀ m j, m ≤ h → j < 2 ^ m →
      t2.get! (v * 2 ^ m + j) = t1.get! (v * 2 ^ m + j)) →
    wfSub t2 U v h = wfSub t1 U v h := by
  intro h
  induction h with
  | zero =>
    intro v t1 t2 U hc
    have hv : t2.get! v = t1.get! v := by simpa using hc 0 0 (le_refl 0) (by decide)
    simp only [wfSub, hv]
  | succ k ih =>
    intro v t1 t2 U hc
    have hv : t2.get! v = t1.get! v := by simpa using hc 0 0 (by omega) (by decide)
    have hcl : ∀ m j, m ≤ k → j < 2 ^ m →
        t2.get! (2 * v * 2 ^ m + j) = t1.get! (2 * v * 2 ^ m + j) := by
      intro m j hm hj
      rw [child_cell_left]
      exact hc (m + 1) j (by omega)
        (lt_of_lt_of_le hj (Nat.pow_le_pow_right (by omega) (by omega)))
    have hcr : ∀ m j, m ≤ k → j < 2 ^ m →
        t2.get! ((2 * v + 1) * 2 ^ m + j) = t1.get! ((2 * v + 1) * 2 ^ m + j) := by
      intro m j hm hj
      rw [child_cell_right]
      refine hc (m + 1) (2 ^ m + j) (by omega) ?_
      rw [Nat.pow_succ]
      omega
    have hl := ih (2 * v) t1 t2 U hcl
    have hr := ih (2 * v + 1) t1 t2 U hcr
    have hfl := freeLeaves_congr k (2 * v) t1 t2 hcl
    have hfr := freeLeaves_congr k (2 * v + 1) t1 t2 hcr
    simp only [wfSub, hv, hl, hr, hfl, hfr]

theorem wfSub_full_iff {t : Array Int} {U v h : Nat} (hU : 1 ≤ U)
    (hwf : wfSub t U v h = true) :
    (buddyIsFull (t.get! v) = true ↔ freeLeaves t v h = 0) := by
  cases h with
  | zero =>
    simp only [wfSub, Bool.or_eq_true, beq_iff_eq] at hwf
    rcases hwf with h0 | hp
    · rw [h0]
      simp only [freeLeaves]
      rw [if_pos (beq_iff_eq.mpr h0)]
      constructor
      · intro hfull
        exact absurd hfull (by decide)
      · omega
    · rw [hp]
      simp only [freeLeaves]
      rw [if_neg (by
        rw [hp]
        simp only [beq_iff_eq, BUDDY_IDLE]
        rw [Int.ofNat_eq_coe]
        omega)]
      constructor
      · intro _; rfl
      · intro _
        simp only [buddyIsFull]
        rw [decide_eq_true (by rw [Int.ofNat_eq_coe]; omega :
          Int.ofNat U > 0)]
        rfl
  | succ k =>
    simp only [wfSub, Bool.or_eq_true, Bool.and_eq_true, beq_iff_eq,
      decide_eq_true_eq] at hwf
    rcases hwf with (h0 | ⟨⟨⟨hhw, _⟩, _⟩, hcnt⟩) | ⟨⟨⟨hfu, _⟩, _⟩, hcnt⟩
    · rw [h0]
      simp only [freeLeaves]
      rw [if_pos (beq_iff_eq.mpr h0)]
      constructor
      · intro hfull
        exact absurd hfull (by decide)
      · intro hc
        have := Nat.two_pow_pos (k + 1)
        omega
    · rw [hhw]
      simp only [freeLeaves]
      rw [if_neg (by rw [hhw]; decide), if_neg (by rw [hhw]; decide)]
      constructor
      · intro hfull
        exact absurd hfull (by decide)
      · intro hc
        omega
    · rw [hfu]
      simp only [freeLeaves]
      rw [if_neg (by rw [hfu]; decide), if_pos (by rw [hfu]; decide)]
      constructor
      · intro _; rfl
      · intro _; decide

theorem wfSub_idle {t : Array Int} {v U : Nat}
    (hc : t.get! v = BUDDY_IDLE) : ∀ h, wfSub t U v h = true := by
  intro h
  cases h with
  | zero =>
    simp only [wfSub, Bool.or_eq_true, beq_iff_eq]
    exact Or.inl hc
  | succ k =>
    simp only [wfSub, Bool.or_eq_true, Bool.and_eq_true, beq_iff_eq,
      decide_eq_true_eq]
    exact Or.inl (Or.inl hc)

theorem frame_subtree_left {t1 t2 : Array Int} {v : Nat} (hv : 1 ≤ v)
    (hframe : ∀ i, ¬ isDesc (2 * v) i → t2.get! i = t1.get! i) :
    ∀ m j, j < 2 ^ m →
      t2.get! ((2 * v + 1) * 2 ^ m + j) = t1.get! ((2 * v + 1) * 2 ^ m + j) :=
  fun _ j hj => hframe _ (fun hd => isDesc_disjoint hv hd (isDesc_offset hj))

theorem frame_subtree_right {t1 t2 : Array Int} {v : Nat} (hv : 1 ≤ v)
    (hframe : ∀ i, ¬ isDesc (2 * v + 1) i → t2.get! i = t1.get! i) :
    ∀ m j, j < 2 ^ m →
      t2.get! (2 * v * 2 ^ m + j) = t1.get! (2 * v * 2 ^ m + j) :=
  fun _ j hj => hframe _ (fun hd => isDesc_disjoint hv (isDesc_offset hj) hd)

/-- Counting refinement of `internal_allocate_buddy` for unit-size
allocations on a well-formed subtree of height `h`: the call always
returns `ok`; if the subtree has no free leaf the node is `0` and the
tree untouched; otherwise a node is allocated, well-formedness is
preserved, and the number of free leaves drops by exactly one. -/
theorem iab_count : ∀ (fuel : Nat) (t : Array Int) (level h v U : Nat),
    1 ≤ v → 1 ≤ U → levelOf v = level - h → h < fuel →
    (v + 1) * 2 ^ h ≤ t.size →
    wfSub t U v h = true →
    ∃ n t',
      internalAllocateBuddy t level v U fuel = some (.ok n, t') ∧
      t'.size = t.size ∧
      (∀ i, ¬ isDesc v i → t'.get! i = t.get! i) ∧
      (freeLeaves t v h = 0 → n = 0 ∧ t' = t) ∧
      (0 < freeLeaves t v h →
        1 ≤ n ∧ wfSub t' U v h = true ∧
        freeLeaves t' v h = freeLeaves t v h - 1) := by
  intro fuel
  induction fuel with
  | zero =>
    intro t level h v U hv hU hlev hf hsz hwf
    omega
  | succ f ih =>
    intro t level h v U hv hU hlev hf hsz hwf
    have hbp : 1 ≤ levelOf v := bitLen_pos hv
    have hc1 : ¬ (level < levelOf v) := by omega
    cases h with
    | zero =>
      have hbase : levelOf v = level := by omega
      have hvsz : v < t.size := by
        have hx : (v + 1) * 2 ^ 0 = v + 1 := by norm_num
        omega
      simp only [wfSub, Bool.or_eq_true, beq_iff_eq] at hwf
      rcases hwf with hidle | hpos
      · refine ⟨v, t.set! v (Int.ofNat U), ?_, Array.size_set! t v _, ?_, ?_, ?_⟩
        · simp only [internalAllocateBuddy]
          rw [if_neg hc1, if_pos hbase, if_pos (beq_iff_eq.mpr hidle)]
        · intro i hi
          exact get!_set!_ne t _ (fun he => hi (he ▸ isDesc_self v))
        · intro h0
          simp only [freeLeaves] at h0
          rw [if_pos (beq_iff_eq.mpr hidle)] at h0
          omega
        · intro _
          have hget : (t.set! v (Int.ofNat U)).get! v = Int.ofNat U :=
            get!_set!_eq _ _ _ hvsz
          refine ⟨hv, ?_, ?_⟩
          · simp only [wfSub, Bool.or_eq_true, beq_iff_eq]
            exact Or.inr hget
          · have hL : freeLeaves (t.set! v (Int.ofNat U)) v 0 = 0 := by
              simp only [freeLeaves]
              rw [if_neg (by
                rw [hget]
                simp only [beq_iff_eq, BUDDY_IDLE]
                rw [Int.ofNat_eq_coe]
                omega)]
            have hR : freeLeaves t v 0 = 1 := by
              simp only [freeLeaves]
              rw [if_pos (beq_iff_eq.mpr hidle)]
            omega
      · have hne : t.get! v ≠ BUDDY_IDLE := by
          rw [hpos]
          simp only [BUDDY_IDLE]
          rw [Int.ofNat_eq_coe]
          omega
        refine ⟨0, t, ?_, rfl, fun _ _ => rfl, fun _ => ⟨rfl, rfl⟩, ?_⟩
        · simp only [internalAllocateBuddy]
          rw [if_neg hc1, if_pos hbase,
            if_neg (fun hbe => hne (beq_iff_eq.mp hbe))]
        · intro hcpos
          simp only [freeLeaves] at hcpos
          rw [if_neg (fun hbe => hne (beq_iff_eq.mp hbe))] at hcpos
          omega
    | succ hh =>
      have hc2 : ¬ (levelOf v = level) := by omega
      have hlevl : levelOf (2 * v) = levelOf v + 1 := bitLen_two_mul hv
      have hlevr : levelOf (2 * v + 1) = levelOf v + 1 := bitLen_two_mul_add_one v
      have hlsz : (2 * v + 1) * 2 ^ hh ≤ t.size := by
        have hc : (2 * v + 1) * 2 ^ hh ≤ (v + 1) * 2 ^ (hh + 1) := by
          calc (2 * v + 1) * 2 ^ hh ≤ (2 * v + 2) * 2 ^ hh :=
              Nat.mul_le_mul_right _ (by omega)
            _ = (v + 1) * 2 ^ (hh + 1) := by ring
        omega
      have hrsz : (2 * v + 2) * 2 ^ hh ≤ t.size := by
        have hc : (2 * v + 2) * 2 ^ hh = (v + 1) * 2 ^ (hh + 1) := by ring
        omega
      have hvsz : v < t.size := by
        have h1 : v + 1 ≤ (v + 1) * 2 ^ (hh + 1) :=
          Nat.le_mul_of_pos_right _ (Nat.two_pow_pos _)
        omega
      have hlszlt : 2 * v < t.size := by
        have h1 : 2 * v + 1 ≤ (2 * v + 1) * 2 ^ hh :=
          Nat.le_mul_of_pos_right _ (Nat.two_pow_pos _)
        omega
      have hrszlt : 2 * v + 1 < t.size := by
        have h1 : 2 * v + 2 ≤ (2 * v + 2) * 2 ^ hh :=
          Nat.le_mul_of_pos_right _ (Nat.two_pow_pos _)
        omega
      have hlne : 2 * v ≠ v := by omega
      have hrne : 2 * v + 1 ≠ v := by omega
      have hrnel : 2 * v + 1 ≠ 2 * v := by omega
      simp only [wfSub, Bool.or_eq_true, Bool.and_eq_true, beq_iff_eq,
        decide_eq_true_eq] at hwf
      rcases hwf with (hidle | ⟨⟨⟨hhw, hwl⟩, hwr⟩, hcnt⟩) |
        ⟨⟨⟨hfu, hwl⟩, hwr⟩, hcnt⟩
      · -- IDLE: split, allocate in the left child
        set t1 := ((t.set! v BUDDY_SPLT_HALFWAY).set! (2 * v)
          BUDDY_IDLE).set! (2 * v + 1) BUDDY_IDLE with ht1
        have hsz1 : t1.size = t.size := by rw [ht1]; simp
        have hlidle : t1.get! (2 * v) = BUDDY_IDLE := by
          rw [ht1, get!_set!_ne _ _ hrnel]
          exact get!_set!_eq _ _ _ (by simpa using hlszlt)
        have hridle : t1.get! (2 * v + 1) = BUDDY_IDLE := by
          rw [ht1]
          exact get!_set!_eq _ _ _ (by simpa using hrszlt)
        have hcurhalf : t1.get! v = BUDDY_SPLT_HALFWAY := by
          rw [ht1, get!_set!_ne _ _ hrne, get!_set!_ne _ _ hlne]
          exact get!_set!_eq _ _ _ hvsz
        obtain ⟨n1, t2, heq1, hsz2, hframe1, hzero1, hposf1⟩ :=
          ih t1 level hh (2 * v) U (by omega) hU (by omega) (by omega)
            (by rw [hsz1]; exact hlsz) (wfSub_idle hlidle hh)
        have hcl1 : 0 < freeLeaves t1 (2 * v) hh := by
          rw [freeLeaves_idle hlidle]
          exact Nat.two_pow_pos hh
        obtain ⟨hn1, hwl2, hcl2⟩ := hposf1 hcl1
        have hrcells : ∀ m j, j < 2 ^ m →
            t2.get! ((2 * v + 1) * 2 ^ m + j) =
              t1.get! ((2 * v + 1) * 2 ^ m + j) :=
          frame_subtree_left hv hframe1
        have hwr2 : wfSub t2 U (2 * v + 1) hh = true := by
          rw [wfSub_congr hh (2 * v + 1) t1 t2 U (fun m j _ hj => hrcells m j hj)]
          exact wfSub_idle hridle hh
        have hcr2 : freeLeaves t2 (2 * v + 1) hh = 2 ^ hh := by
          rw [freeLeaves_congr hh (2 * v + 1) t1 t2
            (fun m j _ hj => hrcells m j hj)]
          exact freeLeaves_idle hridle hh
        have hvcell : t2.get! v = BUDDY_SPLT_HALFWAY := by
          rw [hframe1 v (not_isDesc_left_self hv)]
          exact hcurhalf
        have hcl1' : freeLeaves t1 (2 * v) hh = 2 ^ hh :=
          freeLeaves_idle hlidle hh
        refine ⟨n1, t2, ?_, by omega, ?_, ?_, ?_⟩
        · simp only [internalAllocateBuddy]
          rw [if_neg hc1, if_neg hc2, if_pos (beq_iff_eq.mpr hidle)]
          exact heq1
        · intro i hi
          have hi1 : i ≠ v := fun he => hi (he ▸ isDesc_self v)
          have hi2 : ¬ isDesc (2 * v) i := fun hd => hi (isDesc_left hd)
          have hi3 : i ≠ 2 * v := fun he => hi2 (he ▸ isDesc_self _)
          have hi4 : i ≠ 2 * v + 1 := by
            intro he
            exact hi (isDesc_right (he ▸ isDesc_self _))
          rw [hframe1 i hi2, ht1, get!_set!_ne _ _ (fun h => hi4 h.symm),
            get!_set!_ne _ _ (fun h => hi3 h.symm),
            get!_set!_ne _ _ (fun h => hi1 h.symm)]
        · intro h0
          rw [freeLeaves_idle hidle] at h0
          have := Nat.two_pow_pos (hh + 1)
          omega
        · intro _
          refine ⟨by omega, ?_, ?_⟩
          · simp only [wfSub, Bool.or_eq_true, Bool.and_eq_true, beq_iff_eq,
              decide_eq_true_eq]
            refine Or.inl (Or.inr ⟨⟨⟨hvcell, hwl2⟩, hwr2⟩, ?_⟩)
            have := Nat.two_pow_pos hh
            omega
          · have hLtot : freeLeaves t2 v (hh + 1) =
                freeLeaves t2 (2 * v) hh + freeLeaves t2 (2 * v + 1) hh := by
              simp only [freeLeaves]
              rw [if_neg (by rw [hvcell]; decide),
                if_neg (by rw [hvcell]; decide)]
            rw [hLtot, freeLeaves_idle hidle, hcl2, hcl1', hcr2,
              pow_succ_two]
            have := Nat.two_pow_pos hh
            omega
      · -- SPLT_HALFWAY: try left, then right, maybe promote
        have hcount_t : freeLeaves t v (hh + 1) =
            freeLeaves t (2 * v) hh + freeLeaves t (2 * v + 1) hh := by
          simp only [freeLeaves]
          rw [if_neg (by rw [hhw]; decide), if_neg (by rw [hhw]; decide)]
        have hshow : internalAllocateBuddy t level v U (f + 1) =
            (match internalAllocateBuddy t level (2 * v) U f with
            | none => none
            | some (.error e, ta) => some (.error e, ta)
            | some (.ok ret, ta) =>
              match (if ret = 0 then
                  internalAllocateBuddy ta level (2 * v + 1) U f
                else some (.ok ret, ta)) with
              | none => none
              | some (.error e, tb) => some (.error e, tb)
              | some (.ok ret2, tb) =>
                if 0 < ret2 ∧ buddyIsFull (tb.get! (2 * v)) ∧
                    buddyIsFull (tb.get! (2 * v + 1)) then
                  some (.ok ret2, tb.set! v BUDDY_SPLT_FULL)
                else some (.ok ret2, tb)) := by
          simp only [internalAllocateBuddy]
          rw [if_neg hc1, if_neg hc2,
            if_neg (by rw [hhw]; decide),
            if_pos (beq_iff_eq.mpr hhw)]
        obtain ⟨n1, t1, heq1, hsz1, hframe1, hzero1, hposf1⟩ :=
          ih t level hh (2 * v) U (by omega) hU (by omega) (by omega) hlsz hwl
        rcases Nat.eq_zero_or_pos (freeLeaves t (2 * v) hh) with hcl0 | hclpos
        · -- left subtree full: left call returns 0 without touching the tree
          obtain ⟨hn10, ht1t⟩ := hzero1 hcl0
          subst hn10
          rw [ht1t] at heq1
          obtain ⟨n2, t2, heq2, hsz2, hframe2, hzero2, hposf2⟩ :=
            ih t level hh (2 * v + 1) U (by omega) hU (by omega) (by omega)
              hrsz hwr
          obtain ⟨hn2, hwr2, hcr2⟩ := hposf2 (by omega)
          have hlcells : ∀ m j, j < 2 ^ m →
              t2.get! (2 * v * 2 ^ m + j) = t.get! (2 * v * 2 ^ m + j) :=
            frame_subtree_right hv hframe2
          have hwl2 : wfSub t2 U (2 * v) hh = true := by
            rw [wfSub_congr hh (2 * v) t t2 U (fun m j _ hj => hlcells m j hj)]
            exact hwl
          have hcl2 : freeLeaves t2 (2 * v) hh = 0 := by
            rw [freeLeaves_congr hh (2 * v) t t2
              (fun m j _ hj => hlcells m j hj)]
            exact hcl0
          have hfull_l2 : buddyIsFull (t2.get! (2 * v)) = true :=
            (wfSub_full_iff hU hwl2).mpr hcl2
          have heqassemble : ∀ (res : Option ((Except ErrKind Nat) × Array Int)),
              (if 0 < n2 ∧ buddyIsFull (t2.get! (2 * v)) ∧
                  buddyIsFull (t2.get! (2 * v + 1)) then
                some ((.ok n2 : Except ErrKind Nat), t2.set! v BUDDY_SPLT_FULL)
              else some (.ok n2, t2)) = res →
              internalAllocateBuddy t level v U (f + 1) = res := by
            intro res hres
            rw [hshow, heq1]
            show (match (if (0 : Nat) = 0 then
                internalAllocateBuddy t level (2 * v + 1) U f
                else some (Except.ok 0, t)) with
              | none => none
              | some (Except.error e, tb) => some (Except.error e, tb)
              | some (Except.ok ret2, tb) =>
                if 0 < ret2 ∧ buddyIsFull (tb.get! (2 * v)) ∧
                    buddyIsFull (tb.get! (2 * v + 1)) then
                  some (Except.ok ret2, tb.set! v BUDDY_SPLT_FULL)
                else some (Except.ok ret2, tb)) = res
            rw [if_pos rfl, heq2]
            show (if 0 < n2 ∧ buddyIsFull (t2.get! (2 * v)) ∧
                buddyIsFull (t2.get! (2 * v + 1)) then
              some (Except.ok n2, t2.set! v BUDDY_SPLT_FULL)
              else some (Except.ok n2, t2)) = res
            rw [hres]
          by_cases hprom : buddyIsFull (t2.get! (2 * v + 1)) = true
          · -- both children now full: promote to SPLT_FULL
            have hcr20 : freeLeaves t2 (2 * v + 1) hh = 0 :=
              (wfSub_full_iff hU hwr2).mp hprom
            set t3 := t2.set! v BUDDY_SPLT_FULL with ht3
            have hsz3 : t3.size = t.size := by rw [ht3]; simp; omega
            have hvcell3 : t3.get! v = BUDDY_SPLT_FULL := by
              rw [ht3]
              exact get!_set!_eq _ _ _ (by omega)
            have hl3 : ∀ m j, j < 2 ^ m →
                t3.get! (2 * v * 2 ^ m + j) = t2.get! (2 * v * 2 ^ m + j) := by
              intro m j _
              rw [ht3]
              refine get!_set!_ne _ _ ?_
              have h1 : 2 * v ≤ 2 * v * 2 ^ m :=
                Nat.le_mul_of_pos_right _ (Nat.two_pow_pos _)
              omega
            have hr3 : ∀ m j, j < 2 ^ m →
                t3.get! ((2 * v + 1) * 2 ^ m + j) =
                  t2.get! ((2 * v + 1) * 2 ^ m + j) := by
              intro m j _
              rw [ht3]
              refine get!_set!_ne _ _ ?_
              have h1 : 2 * v + 1 ≤ (2 * v + 1) * 2 ^ m :=
                Nat.le_mul_of_pos_right _ (Nat.two_pow_pos _)
              omega
            have hwl3 : wfSub t3 U (2 * v) hh = true := by
              rw [wfSub_congr hh (2 * v) t2 t3 U (fun m j _ hj => hl3 m j hj)]
              exact hwl2
            have hwr3 : wfSub t3 U (2 * v + 1) hh = true := by
              rw [wfSub_congr hh (2 * v + 1) t2 t3 U
                (fun m j _ hj => hr3 m j hj)]
              exact hwr2
            have hcl3 : freeLeaves t3 (2 * v) hh = 0 := by
              rw [freeLeaves_congr hh (2 * v) t2 t3 (fun m j _ hj => hl3 m j hj)]
              exact hcl2
            have hcr3 : freeLeaves t3 (2 * v + 1) hh = 0 := by
              rw [freeLeaves_congr hh (2 * v + 1) t2 t3
                (fun m j _ hj => hr3 m j hj)]
              exact hcr20
            refine ⟨n2, t3,
              heqassemble _ (by rw [if_pos ⟨by omega, hfull_l2, hprom⟩]),
              by omega, ?_, ?_, ?_⟩
            · intro i hi
              have hi1 : i ≠ v := fun he => hi (he ▸ isDesc_self v)
              have hi2 : ¬ isDesc (2 * v + 1) i := fun hd => hi (isDesc_right hd)
              rw [ht3, get!_set!_ne _ _ (fun h => hi1 h.symm), hframe2 i hi2]
            · intro h0
              rw [hcount_t] at h0
              omega
            · intro _
              refine ⟨by omega, ?_, ?_⟩
              · simp only [wfSub, Bool.or_eq_true, Bool.and_eq_true,
                  beq_iff_eq, decide_eq_true_eq]
                exact Or.inr ⟨⟨⟨hvcell3, hwl3⟩, hwr3⟩, by omega⟩
              · have hL0 : freeLeaves t3 v (hh + 1) = 0 := by
                  simp only [freeLeaves]
                  rw [if_neg (by rw [hvcell3]; decide),
                    if_pos (by rw [hvcell3]; decide)]
                rw [hL0, hcount_t]
                omega
          · -- right child still has room: no promotion
            have hcrge : 2 ≤ freeLeaves t (2 * v + 1) hh := by
              by_contra hlt
              exact hprom ((wfSub_full_iff hU hwr2).mpr (by omega))
            have hvcell2 : t2.get! v = BUDDY_SPLT_HALFWAY := by
              rw [hframe2 v (not_isDesc_right_self hv)]
              exact hhw
            refine ⟨n2, t2,
              heqassemble _ (by rw [if_neg (fun hc => hprom hc.2.2)]),
              by omega, ?_, ?_, ?_⟩
            · intro i hi
              exact hframe2 i (fun hd => hi (isDesc_right hd))
            · intro h0
              rw [hcount_t] at h0
              omega
            · intro _
              refine ⟨by omega, ?_, ?_⟩
              · simp only [wfSub, Bool.or_eq_true, Bool.and_eq_true,
                  beq_iff_eq, decide_eq_true_eq]
                refine Or.inl (Or.inr ⟨⟨⟨hvcell2, hwl2⟩, hwr2⟩, by omega⟩)
              · have hLtot : freeLeaves t2 v (hh + 1) =
                    freeLeaves t2 (2 * v) hh + freeLeaves t2 (2 * v + 1) hh := by
                  simp only [freeLeaves]
                  rw [if_neg (by rw [hvcell2]; decide),
                    if_neg (by rw [hvcell2]; decide)]
                rw [hLtot, hcount_t, hcl2, hcr2]
                omega
        · -- the left subtree has room: allocate there, skip the right
          obtain ⟨hn1, hwl2, hcl2⟩ := hposf1 hclpos
          have hrcells : ∀ m j, j < 2 ^ m →
              t1.get! ((2 * v + 1) * 2 ^ m + j) =
                t.get! ((2 * v + 1) * 2 ^ m + j) :=
            frame_subtree_left hv hframe1
          have hwr1 : wfSub t1 U (2 * v + 1) hh = true := by
            rw [wfSub_congr hh (2 * v + 1) t t1 U (fun m j _ hj => hrcells m j hj)]
            exact hwr
          have hcr1 : freeLeaves t1 (2 * v + 1) hh =
              freeLeaves t (2 * v + 1) hh := by
            rw [freeLeaves_congr hh (2 * v + 1) t t1
              (fun m j _ hj => hrcells m j hj)]
          have heqassemble : ∀ (res : Option ((Except ErrKind Nat) × Array Int)),
              (if 0 < n1 ∧ buddyIsFull (t1.get! (2 * v)) ∧
                  buddyIsFull (t1.get! (2 * v + 1)) then
                some ((.ok n1 : Except ErrKind Nat), t1.set! v BUDDY_SPLT_FULL)
              else some (.ok n1, t1)) = res →
              internalAllocateBuddy t level v U (f + 1) = res := by
            intro res hres
            rw [hshow, heq1]
            show (match (if n1 = 0 then
                internalAllocateBuddy t1 level (2 * v + 1) U f
                else some (Except.ok n1, t1)) with
              | none => none
              | some (Except.error e, tb) => some (Except.error e, tb)
              | some (Except.ok ret2, tb) =>
                if 0 < ret2 ∧ buddyIsFull (tb.get! (2 * v)) ∧
                    buddyIsFull (tb.get! (2 * v + 1)) then
                  some (Except.ok ret2, tb.set! v BUDDY_SPLT_FULL)
                else some (Except.ok ret2, tb)) = res
            rw [if_neg (by omega)]
            show (if 0 < n1 ∧ buddyIsFull (t1.get! (2 * v)) ∧
                buddyIsFull (t1.get! (2 * v + 1)) then
              some (Except.ok n1, t1.set! v BUDDY_SPLT_FULL)
              else some (Except.ok n1, t1)) = res
            rw [hres]
          by_cases hprom2 : buddyIsFull (t1.get! (2 * v)) = true ∧
              buddyIsFull (t1.get! (2 * v + 1)) = true
          · -- tree now full below: promote to SPLT_FULL
            have hcl10 : freeLeaves t1 (2 * v) hh = 0 :=
              (wfSub_full_iff hU hwl2).mp hprom2.1
            have hcr10 : freeLeaves t1 (2 * v + 1) hh = 0 :=
              (wfSub_full_iff hU hwr1).mp hprom2.2
            set t3 := t1.set! v BUDDY_SPLT_FULL with ht3
            have hsz3 : t3.size = t.size := by rw [ht3]; simp; omega
            have hvcell3 : t3.get! v = BUDDY_SPLT_FULL := by
              rw [ht3]
              exact get!_set!_eq _ _ _ (by omega)
            have hl3 : ∀ m j, j < 2 ^ m →
                t3.get! (2 * v * 2 ^ m + j) = t1.get! (2 * v * 2 ^ m + j) := by
              intro m j _
              rw [ht3]
              refine get!_set!_ne _ _ ?_
              have h1 : 2 * v ≤ 2 * v * 2 ^ m :=
                Nat.le_mul_of_pos_right _ (Nat.two_pow_pos _)
              omega
            have hr3 : ∀ m j, j < 2 ^ m →
                t3.get! ((2 * v + 1) * 2 ^ m + j) =
                  t1.get! ((2 * v + 1) * 2 ^ m + j) := by
              intro m j _
              rw [ht3]
              refine get!_set!_ne _ _ ?_
              have h1 : 2 * v + 1 ≤ (2 * v + 1) * 2 ^ m :=
                Nat.le_mul_of_pos_right _ (Nat.two_pow_pos _)
              omega
            have hwl3 : wfSub t3 U (2 * v) hh = true := by
              rw [wfSub_congr hh (2 * v) t1 t3 U (fun m j _ hj => hl3 m j hj)]
              exact hwl2
            have hwr3 : wfSub t3 U (2 * v + 1) hh = true := by
              rw [wfSub_congr hh (2 * v + 1) t1 t3 U
                (fun m j _ hj => hr3 m j hj)]
              exact hwr1
            have hcl3 : freeLeaves t3 (2 * v) hh = 0 := by
              rw [freeLeaves_congr hh (2 * v) t1 t3 (fun m j _ hj => hl3 m j hj)]
              exact hcl10
            have hcr3 : freeLeaves t3 (2 * v + 1) hh = 0 := by
              rw [freeLeaves_congr hh (2 * v + 1) t1 t3
                (fun m j _ hj => hr3 m j hj)]
              exact hcr10
            refine ⟨n1, t3,
              heqassemble _ (by rw [if_pos ⟨by omega, hprom2.1, hprom2.2⟩]),
              by omega, ?_, ?_, ?_⟩
            · intro i hi
              have hi1 : i ≠ v := fun he => hi (he ▸ isDesc_self v)
              have hi2 : ¬ isDesc (2 * v) i := fun hd => hi (isDesc_left hd)
              rw [ht3, get!_set!_ne _ _ (fun h => hi1 h.symm), hframe1 i hi2]
            · intro h0
              rw [hcount_t] at h0
              omega
            · intro _
              refine ⟨by omega, ?_, ?_⟩
              · simp only [wfSub, Bool.or_eq_true, Bool.and_eq_true,
                  beq_iff_eq, decide_eq_true_eq]
                exact Or.inr ⟨⟨⟨hvcell3, hwl3⟩, hwr3⟩, by omega⟩
              · have hL0 : freeLeaves t3 v (hh + 1) = 0 := by
                  simp only [freeLeaves]
                  rw [if_neg (by rw [hvcell3]; decide),
                    if_pos (by rw [hvcell3]; decide)]
                rw [hL0, hcount_t]
                omega
          · -- still room below: stay SPLT_HALFWAY
            have hvcell1 : t1.get! v = BUDDY_SPLT_HALFWAY := by
              rw [hframe1 v (not_isDesc_left_self hv)]
              exact hhw
            have hne0 : ¬ (freeLeaves t1 (2 * v) hh = 0 ∧
                freeLeaves t1 (2 * v + 1) hh = 0) :=
              fun hc => hprom2 ⟨(wfSub_full_iff hU hwl2).mpr hc.1,
                (wfSub_full_iff hU hwr1).mpr hc.2⟩
            have hsum1 : 0 < freeLeaves t1 (2 * v) hh +
                freeLeaves t1 (2 * v + 1) hh := by
              rcases Nat.eq_zero_or_pos (freeLeaves t1 (2 * v) hh +
                freeLeaves t1 (2 * v + 1) hh) with hz | hp
              · exact absurd ⟨by omega, by omega⟩ hne0
              · exact hp
            refine ⟨n1, t1,
              heqassemble _ (by rw [if_neg (fun hc => hprom2 ⟨hc.2.1, hc.2.2⟩)]),
              by omega, ?_, ?_, ?_⟩
            · intro i hi
              exact hframe1 i (fun hd => hi (isDesc_left hd))
            · intro h0
              rw [hcount_t] at h0
              omega
            · intro _
              refine ⟨by omega, ?_, ?_⟩
              · simp only [wfSub, Bool.or_eq_true, Bool.and_eq_true,
                  beq_iff_eq, decide_eq_true_eq]
                exact Or.inl (Or.inr ⟨⟨⟨hvcell1, hwl2⟩, hwr1⟩, hsum1⟩)
              · have hLtot : freeLeaves t1 v (hh + 1) =
                    freeLeaves t1 (2 * v) hh + freeLeaves t1 (2 * v + 1) hh := by
                  simp only [freeLeaves]
                  rw [if_neg (by rw [hvcell1]; decide),
                    if_neg (by rw [hvcell1]; decide)]
                rw [hLtot, hcount_t, hcl2, hcr1]
                omega
      · -- SPLT_FULL: nothing free below, the tree is untouched
        have hcnt0 : freeLeaves t v (hh + 1) = 0 := by
          simp only [freeLeaves]
          rw [if_neg (by rw [hfu]; decide), if_pos (by rw [hfu]; decide)]
        refine ⟨0, t, ?_, rfl, fun _ _ => rfl, fun _ => ⟨rfl, rfl⟩, ?_⟩
        · simp only [internalAllocateBuddy]
          rw [if_neg hc1, if_neg hc2, if_neg (by rw [hfu]; decide),
            if_neg (by rw [hfu]; decide)]
        · intro hp
          omega

/-- `allocate(unit_size)` reduces to the root descent at
`level = total_level` (the rounding is exact on the power of two
`unit_size` and `bsize/unit_size = 1`). -/
theorem allocate_unit_eq (p : BuddyParams) (t : Array Int)
    (hUC : p.unitExp ≤ p.capacityExp) :
    allocate p t p.unitSize =
      match internalAllocateBuddy t p.totalLevel 1 p.unitSize p.totalLevel with
      | none => none
      | some (.error e, t') => some (.error e, t')
      | some (.ok node, t') =>
        if node = 0 then some (.error .systemError, t')
        else some (.ok (offsetOfNode node p.capacity), t') := by
  have hpot : isPow2 p.unitSize = true := isPow2_iff.mpr ⟨p.unitExp, rfl⟩
  have hnp : nearestPow2SizeT p.unitSize = .ok p.unitSize := by
    unfold nearestPow2SizeT
    rw [if_pos hpot]
  unfold allocate
  rw [hnp]
  show (if max p.unitSize p.unitSize > p.capacity then
      some ((.error .invalidArgument : Except ErrKind Nat), t)
    else
      match allocateBuddy p t
          (p.totalLevel - (bitLen (max p.unitSize p.unitSize / p.unitSize) - 1))
          p.unitSize with
      | none => none
      | some (.error e, t') => some (.error e, t')
      | some (.ok node, t') =>
        if node = 0 then some (.error .systemError, t')
        else some (.ok (offsetOfNode node p.capacity), t')) = _
  rw [if_neg (by
    rw [Nat.max_self]
    show ¬ ((2 : Nat) ^ p.unitExp > 2 ^ p.capacityExp)
    exact not_lt.mpr (Nat.pow_le_pow_right (by omega) hUC))]
  have hlev : p.totalLevel -
      (bitLen (max p.unitSize p.unitSize / p.unitSize) - 1) = p.totalLevel := by
    rw [Nat.max_self]
    show p.totalLevel - (bitLen (2 ^ p.unitExp / 2 ^ p.unitExp) - 1) = _
    rw [Nat.div_self (Nat.two_pow_pos _), (by decide : bitLen 1 = 1)]
    omega
  rw [hlev]
  have hab : allocateBuddy p t p.totalLevel p.unitSize =
      internalAllocateBuddy t p.totalLevel 1 p.unitSize p.totalLevel := by
    unfold allocateBuddy
    rw [if_neg (by
      unfold BuddyParams.totalLevel
      omega)]
  rw [hab]

theorem get!_mkArray_zero (n i : Nat) :
    (Array.mkArray n (0 : Int)).get! i = 0 := by
  rw [Array.get!_eq_getD]
  unfold Array.getD
  by_cases h : i < (Array.mkArray n (0 : Int)).size
  · rw [dif_pos h]
    simp
  · rw [dif_neg h]
    rfl

theorem buddyIsFull_ofNat {U : Nat} (hU : 1 ≤ U) :
    buddyIsFull (Int.ofNat U) = true := by
  simp only [buddyIsFull]
  rw [decide_eq_true (by rw [Int.ofNat_eq_coe]; omega : Int.ofNat U > 0)]
  rfl

/-- Running `m` unit allocations on a well-formed tree with at least
`m` free leaves succeeds and consumes exactly `m` free leaves. -/
theorem allocRun_spec (p : BuddyParams) (hUC : p.unitExp ≤ p.capacityExp) :
    ∀ (m : Nat) (t : Array Int),
    wfSub t p.unitSize 1 (p.totalLevel - 1) = true →
    2 ^ p.totalLevel ≤ t.size →
    m ≤ freeLeaves t 1 (p.totalLevel - 1) →
    ∃ t', allocRun p t m = some t' ∧
      t'.size = t.size ∧
      wfSub t' p.unitSize 1 (p.totalLevel - 1) = true ∧
      freeLeaves t' 1 (p.totalLevel - 1) =
        freeLeaves t 1 (p.totalLevel - 1) - m := by
  intro m
  induction m with
  | zero =>
    intro t hwf hsz hm
    exact ⟨t, rfl, rfl, hwf, by omega⟩
  | succ k ih =>
    intro t hwf hsz hm
    have hL1 : 1 ≤ p.totalLevel := by
      unfold BuddyParams.totalLevel
      omega
    have hUpos : 1 ≤ p.unitSize := Nat.two_pow_pos _
    have hlev1 : levelOf 1 = 1 := by decide
    have hpow : (1 + 1) * 2 ^ (p.totalLevel - 1) = 2 ^ p.totalLevel := by
      have h2 : (2 : Nat) ^ p.totalLevel = 2 ^ (p.totalLevel - 1) * 2 := by
        conv_lhs => rw [← Nat.sub_add_cancel hL1]
        rw [Nat.pow_succ]
      omega
    obtain ⟨n, t', heq, hsz', hframe, hzero, hposf⟩ :=
      iab_count p.totalLevel t p.totalLevel (p.totalLevel - 1) 1 p.unitSize
        (le_refl 1) hUpos (by omega) (by omega) (by omega) hwf
    obtain ⟨hn, hwf', hcl'⟩ := hposf (by omega)
    have halloc : allocate p t p.unitSize =
        some (.ok (offsetOfNode n p.capacity), t') := by
      rw [allocate_unit_eq p t hUC, heq]
      show (if n = 0 then some ((.error .systemError : Except ErrKind Nat), t')
        else some (.ok (offsetOfNode n p.capacity), t')) = _
      rw [if_neg (by omega)]
    have hrun : allocRun p t (k + 1) = allocRun p t' k := by
      simp only [allocRun]
      rw [halloc]
    obtain ⟨t'', hrun', hsz'', hwf'', hcl''⟩ := ih t' hwf' (by omega) (by omega)
    exact ⟨t'', by rw [hrun]; exact hrun', by omega, hwf'', by omega⟩

/-- In an exhausted well-formed subtree every leaf cell holds the unit
size and every interior cell is `SPLT_FULL`. -/
theorem fullDesc {t : Array Int} {U : Nat} (hU : 1 ≤ U) :
    ∀ h v, wfSub t U v h = true → freeLeaves t v h = 0 →
    ∀ m j, m ≤ h → j < 2 ^ m →
      (m = h → t.get! (v * 2 ^ m + j) = Int.ofNat U) ∧
      (m < h → t.get! (v * 2 ^ m + j) = BUDDY_SPLT_FULL) := by
  intro h
  induction h with
  | zero =>
    intro v hwf hc m j hm hj
    have hm0 : m = 0 := by omega
    subst hm0
    have hj0 : j = 0 := by omega
    subst hj0
    simp only [wfSub, Bool.or_eq_true, beq_iff_eq] at hwf
    constructor
    · intro _
      rcases hwf with h0 | hp
      · exfalso
        simp only [freeLeaves] at hc
        rw [if_pos (beq_iff_eq.mpr h0)] at hc
        omega
      · have he : v * 2 ^ 0 + 0 = v := by norm_num
        rw [he]
        exact hp
    · intro hlt
      omega
  | succ k ih =>
    intro v hwf hc m j hm hj
    simp only [wfSub, Bool.or_eq_true, Bool.and_eq_true, beq_iff_eq,
      decide_eq_true_eq] at hwf
    rcases hwf with (h0 | ⟨⟨⟨hhw, _⟩, _⟩, hcnt⟩) | ⟨⟨⟨hfu, hwl⟩, hwr⟩, hcnt2⟩
    · exfalso
      rw [freeLeaves_idle h0] at hc
      have := Nat.two_pow_pos (k + 1)
      omega
    · exfalso
      have hsum : freeLeaves t v (k + 1) =
          freeLeaves t (2 * v) k + freeLeaves t (2 * v + 1) k := by
        simp only [freeLeaves]
        rw [if_neg (by rw [hhw]; decide), if_neg (by rw [hhw]; decide)]
      omega
    · cases m with
      | zero =>
        have hj0 : j = 0 := by omega
        subst hj0
        constructor
        · intro he
          omega
        · intro _
          have he : v * 2 ^ 0 + 0 = v := by norm_num
          rw [he]
          exact hfu
      | succ m' =>
        have hcl0 : freeLeaves t (2 * v) k = 0 := by omega
        have hcr0 : freeLeaves t (2 * v + 1) k = 0 := by omega
        rcases Nat.lt_or_ge j (2 ^ m') with hjl | hjr
        · have hidx : v * 2 ^ (m' + 1) + j = 2 * v * 2 ^ m' + j :=
            (child_cell_left v m' j).symm
          rw [hidx]
          have hrec := ih (2 * v) hwl hcl0 m' j (by omega) hjl
          exact ⟨fun he => hrec.1 (by omega), fun hlt => hrec.2 (by omega)⟩
        · have hps := pow_succ_two m'
          have hj' : j - 2 ^ m' < 2 ^ m' := by omega
          have hidx : v * 2 ^ (m' + 1) + j =
              (2 * v + 1) * 2 ^ m' + (j - 2 ^ m') := by
            have hcc := child_cell_right v m' (j - 2 ^ m')
            omega
          rw [hidx]
          have hrec := ih (2 * v + 1) hwr hcr0 m' (j - 2 ^ m') (by omega) hj'
          exact ⟨fun he => hrec.1 (by omega), fun hlt => hrec.2 (by omega)⟩

/-- `internal_allocate_buddy` at a full (allocated or `SPLT_FULL`) cell
returns node `0` and leaves the tree untouched. -/
theorem iab_full {t : Array Int} {level cur size fuel : Nat}
    (hfull : buddyIsFull (t.get! cur) = true)
    (hlev : levelOf cur ≤ level) (hfuel : 0 < fuel) :
    internalAllocateBuddy t level cur size fuel = some (.ok 0, t) := by
  rcases fuel with _ | f
  · omega
  have hcases : t.get! cur = BUDDY_SPLT_FULL ∨ t.get! cur > 0 := by
    simp only [buddyIsFull, Bool.or_eq_true, decide_eq_true_eq,
      beq_iff_eq] at hfull
    tauto
  have hne : t.get! cur ≠ BUDDY_IDLE := by
    rcases hcases with h | h
    · rw [h]; decide
    · intro he
      rw [he] at h
      exact absurd h (by decide)
  have hnehw : t.get! cur ≠ BUDDY_SPLT_HALFWAY := by
    rcases hcases with h | h
    · rw [h]; decide
    · intro he
      rw [he] at h
      exact absurd h (by decide)
  simp only [internalAllocateBuddy]
  rw [if_neg (by omega)]
  by_cases hbase : levelOf cur = level
  · rw [if_pos hbase, if_neg (fun hbe => hne (beq_iff_eq.mp hbe))]
  · rw [if_neg hbase, if_neg (fun hbe => hne (beq_iff_eq.mp hbe)),
      if_neg (fun hbe => hnehw (beq_iff_eq.mp hbe))]

theorem two_mul_pow_succ (j : Nat) : (2 : Nat) * 2 ^ j = 2 ^ (j + 1) := by
  rw [Nat.pow_succ]
  ring

/-- The upward merge loop on a chain of `SPLT_FULL` ancestors whose
first node does not have two `IDLE` children: every chain cell is
demoted to `SPLT_HALFWAY` and nothing else changes. -/
theorem freeMergeGo_chain : ∀ (fuel : Nat) (t : Array Int) (parent : Nat),
    1 ≤ parent → parent < t.size → bitLen parent < fuel →
    (∀ j, j < bitLen parent → t.get! (parent / 2 ^ j) = BUDDY_SPLT_FULL) →
    (t.get! (2 * parent) ≠ BUDDY_IDLE ∨
      t.get! (2 * parent + 1) ≠ BUDDY_IDLE) →
    ∃ t', freeMergeGo t parent fuel = t' ∧
      t'.size = t.size ∧
      (∀ j, j < bitLen parent →
        t'.get! (parent / 2 ^ j) = BUDDY_SPLT_HALFWAY) ∧
      (∀ i, (∀ j, j < bitLen parent → i ≠ parent / 2 ^ j) →
        t'.get! i = t.get! i) := by
  intro fuel
  induction fuel with
  | zero =>
    intro t parent hp hsz hf hchain hchild
    omega
  | succ f ih =>
    intro t parent hp hsz hf hchain hchild
    have hbp : 1 ≤ bitLen parent := bitLen_pos hp
    have hcellp : t.get! parent = BUDDY_SPLT_FULL := by
      have h0 := hchain 0 (by omega)
      simpa using h0
    have hnotboth : (t.get! (2 * parent) == BUDDY_IDLE &&
        t.get! (2 * parent + 1) == BUDDY_IDLE) = false := by
      rcases hchild with h | h
      · rw [beq_eq_false_iff_ne.mpr h, Bool.false_and]
      · rw [beq_eq_false_iff_ne.mpr h, Bool.and_false]
    set t1 := t.set! parent BUDDY_SPLT_HALFWAY with ht1
    have hsz1 : t1.size = t.size := by rw [ht1]; simp
    have hcell1 : t1.get! parent = BUDDY_SPLT_HALFWAY := by
      rw [ht1]
      exact get!_set!_eq _ _ _ hsz
    have hstep : freeMergeGo t parent (f + 1) = freeMergeGo t1 (parent / 2) f := by
      simp only [freeMergeGo]
      rw [if_neg (by omega), if_neg (by rw [hnotboth]; simp),
        if_pos (beq_iff_eq.mpr hcellp)]
    rcases Nat.lt_or_ge parent 2 with hp2 | hp2
    · -- parent = 1: the next parent is 0 and the loop stops
      have hp1 : parent = 1 := by omega
      subst hp1
      have hnext : freeMergeGo t1 (1 / 2) f = t1 := by
        rw [(by decide : (1 : Nat) / 2 = 0)]
        cases f with
        | zero => simp only [freeMergeGo]
        | succ f' =>
          simp only [freeMergeGo]
          rw [if_pos trivial]
      refine ⟨t1, by rw [hstep, hnext], hsz1, ?_, ?_⟩
      · intro j hj
        rw [(by decide : bitLen 1 = 1)] at hj
        have hj0 : j = 0 := by omega
        subst hj0
        simpa using hcell1
      · intro i hne
        have hi1 : i ≠ 1 := by
          have h0 := hne 0 (by rw [(by decide : bitLen 1 = 1)]; omega)
          simpa using h0
        rw [ht1]
        exact get!_set!_ne _ _ (fun he => hi1 he.symm)
    · -- parent ≥ 2: demote and continue at parent / 2
      have hpar2 : 1 ≤ parent / 2 := by omega
      have hblp : bitLen (parent / 2) = bitLen parent - 1 := bitLen_div2 parent
      have hidxj : ∀ j : Nat, parent / 2 / 2 ^ j = parent / 2 ^ (j + 1) := by
        intro j
        rw [Nat.div_div_eq_div_mul, two_mul_pow_succ]
      have hanclt : ∀ j : Nat, parent / 2 ^ (j + 1) < parent := by
        intro j
        have h2 : 2 ≤ 2 ^ (j + 1) := by
          calc (2 : Nat) = 2 ^ 1 := by norm_num
            _ ≤ 2 ^ (j + 1) := Nat.pow_le_pow_right (by omega) (by omega)
        exact Nat.div_lt_self (by omega) (by omega)
      have hchain1 : ∀ j, j < bitLen (parent / 2) →
          t1.get! (parent / 2 / 2 ^ j) = BUDDY_SPLT_FULL := by
        intro j hj
        rw [hidxj j, ht1,
          get!_set!_ne _ _ (fun he => absurd he.symm (Nat.ne_of_lt (hanclt j)))]
        exact hchain (j + 1) (by omega)
      have hchild1 : t1.get! (2 * (parent / 2)) ≠ BUDDY_IDLE ∨
          t1.get! (2 * (parent / 2) + 1) ≠ BUDDY_IDLE := by
        have hdm := Nat.div_add_mod parent 2
        have hb : parent % 2 = 0 ∨ parent % 2 = 1 := by omega
        rcases hb with hb | hb
        · left
          have he : 2 * (parent / 2) = parent := by omega
          rw [he, hcell1]
          decide
        · right
          have he : 2 * (parent / 2) + 1 = parent := by omega
          rw [he, hcell1]
          decide
      obtain ⟨t2, heq2, hsz2, hchainres, hframe2⟩ :=
        ih t1 (parent / 2) hpar2
          (by have := Nat.div_le_self parent 2; omega)
          (by omega) hchain1 hchild1
      refine ⟨t2, by rw [hstep]; exact heq2, by omega, ?_, ?_⟩
      · intro j hj
        cases j with
        | zero =>
          have hfr : t2.get! parent = t1.get! parent := by
            refine hframe2 parent ?_
            intro j' hj'
            rw [hidxj j']
            exact (Nat.ne_of_lt (hanclt j')).symm
          have hres := hfr.trans hcell1
          simpa using hres
        | succ j' =>
          rw [show parent / 2 ^ (j' + 1) = parent / 2 / 2 ^ j' from
            (hidxj j').symm]
          exact hchainres j' (by omega)
      · intro i hne
        have h0 : i ≠ parent := by
          have := hne 0 (by omega)
          simpa using this
        have hfr : t2.get! i = t1.get! i := by
          refine hframe2 i ?_
          intro j' hj'
          rw [hidxj j']
          exact hne (j' + 1) (by omega)
        rw [hfr, ht1]
        exact get!_set!_ne _ _ (fun he => h0 he.symm)

/-- If the cells on the root-to-leaf path to an `IDLE` leaf `nd` are
all `SPLT_HALFWAY` and every off-path sibling cell is full, the
allocation descent starting `h` levels above `nd` succeeds. -/
theorem iab_path : ∀ (h : Nat) (t : Array Int) (level nd size fuel : Nat),
    1 ≤ nd → levelOf nd = level → h ≤ level - 1 → h < fuel →
    t.get! nd = BUDDY_IDLE →
    (∀ j, 1 ≤ j → j ≤ h → t.get! (nd / 2 ^ j) = BUDDY_SPLT_HALFWAY) →
    (∀ j, 1 ≤ j → j ≤ h →
      buddyIsFull (t.get!
        (2 * (nd / 2 ^ j) + (1 - nd / 2 ^ (j - 1) % 2))) = true) →
    ∃ n t', internalAllocateBuddy t level (nd / 2 ^ h) size fuel =
      some (.ok n, t') ∧ 1 ≤ n := by
  intro h
  induction h with
  | zero =>
    intro t level nd size fuel hnd hlev hh hf hleaf hanc hsib
    rcases fuel with _ | f
    · omega
    simp only [Nat.pow_zero, Nat.div_one]
    refine ⟨nd, t.set! nd (Int.ofNat size), ?_, by omega⟩
    simp only [internalAllocateBuddy]
    rw [if_neg (by omega), if_pos hlev, if_pos (beq_iff_eq.mpr hleaf)]
  | succ hh ihp =>
    intro t level nd size fuel hnd hlev hh1 hf hleaf hanc hsib
    rcases fuel with _ | f
    · omega
    have hbp : 1 ≤ levelOf nd := bitLen_pos hnd
    have hlevcur : levelOf (nd / 2 ^ (hh + 1)) = level - (hh + 1) := by
      show bitLen (nd / 2 ^ (hh + 1)) = _
      rw [bitLen_div_pow, show bitLen nd = level from hlev]
    have hcur1 : 1 ≤ nd / 2 ^ (hh + 1) := by
      by_contra hc
      have h0 : nd / 2 ^ (hh + 1) = 0 := Nat.lt_one_iff.mp (Nat.not_le.mp hc)
      rw [h0] at hlevcur
      have hz : levelOf 0 = 0 := bitLen_zero
      omega
    have hcell : t.get! (nd / 2 ^ (hh + 1)) = BUDDY_SPLT_HALFWAY :=
      hanc (hh + 1) (by omega) (le_refl _)
    have hc1 : ¬ (level < levelOf (nd / 2 ^ (hh + 1))) := by omega
    have hc2 : ¬ (levelOf (nd / 2 ^ (hh + 1)) = level) := by omega
    have hshow : internalAllocateBuddy t level (nd / 2 ^ (hh + 1)) size (f + 1) =
        (match internalAllocateBuddy t level (2 * (nd / 2 ^ (hh + 1))) size f with
        | none => none
        | some (.error e, ta) => some (.error e, ta)
        | some (.ok ret, ta) =>
          match (if ret = 0 then
              internalAllocateBuddy ta level (2 * (nd / 2 ^ (hh + 1)) + 1) size f
            else some (.ok ret, ta)) with
          | none => none
          | some (.error e, tb) => some (.error e, tb)
          | some (.ok ret2, tb) =>
            if 0 < ret2 ∧ buddyIsFull (tb.get! (2 * (nd / 2 ^ (hh + 1)))) ∧
                buddyIsFull (tb.get! (2 * (nd / 2 ^ (hh + 1)) + 1)) then
              some (.ok ret2, tb.set! (nd / 2 ^ (hh + 1)) BUDDY_SPLT_FULL)
            else some (.ok ret2, tb)) := by
      simp only [internalAllocateBuddy]
      rw [if_neg hc1, if_neg hc2, if_neg (by rw [hcell]; decide),
        if_pos (beq_iff_eq.mpr hcell)]
    have hpar : nd / 2 ^ hh = 2 * (nd / 2 ^ (hh + 1)) + nd / 2 ^ hh % 2 := by
      have h1 := Nat.div_add_mod (nd / 2 ^ hh) 2
      rw [div_two_pow_succ] at h1
      omega
    obtain ⟨n1, t1, heq1, hn1⟩ := ihp t level nd size f hnd hlev (by omega)
      (by omega) hleaf (fun j hj1 hj2 => hanc j hj1 (by omega))
      (fun j hj1 hj2 => hsib j hj1 (by omega))
    have hb01 : nd / 2 ^ hh % 2 = 0 ∨ nd / 2 ^ hh % 2 = 1 := by omega
    rcases hb01 with hb | hb
    · -- the path child is the left child
      have hleft : 2 * (nd / 2 ^ (hh + 1)) = nd / 2 ^ hh := by omega
      have heqassm : ∀ (res : Option ((Except ErrKind Nat) × Array Int)),
          (if 0 < n1 ∧ buddyIsFull (t1.get! (nd / 2 ^ hh)) ∧
              buddyIsFull (t1.get! (nd / 2 ^ hh + 1)) then
            some ((.ok n1 : Except ErrKind Nat),
              t1.set! (nd / 2 ^ (hh + 1)) BUDDY_SPLT_FULL)
          else some (.ok n1, t1)) = res →
          internalAllocateBuddy t level (nd / 2 ^ (hh + 1)) size (f + 1) =
            res := by
        intro res hres
        rw [hshow, hleft, heq1]
        show (match (if n1 = 0 then
            internalAllocateBuddy t1 level (nd / 2 ^ hh + 1) size f
            else some (Except.ok n1, t1)) with
          | none => none
          | some (Except.error e, tb) => some (Except.error e, tb)
          | some (Except.ok ret2, tb) =>
            if 0 < ret2 ∧ buddyIsFull (tb.get! (nd / 2 ^ hh)) ∧
                buddyIsFull (tb.get! (nd / 2 ^ hh + 1)) then
              some (Except.ok ret2, tb.set! (nd / 2 ^ (hh + 1)) BUDDY_SPLT_FULL)
            else some (Except.ok ret2, tb)) = res
        rw [if_neg (by omega)]
        show (if 0 < n1 ∧ buddyIsFull (t1.get! (nd / 2 ^ hh)) ∧
            buddyIsFull (t1.get! (nd / 2 ^ hh + 1)) then
          some (Except.ok n1, t1.set! (nd / 2 ^ (hh + 1)) BUDDY_SPLT_FULL)
          else some (Except.ok n1, t1)) = res
        exact hres
      by_cases hpr : 0 < n1 ∧ buddyIsFull (t1.get! (nd / 2 ^ hh)) = true ∧
          buddyIsFull (t1.get! (nd / 2 ^ hh + 1)) = true
      · exact ⟨n1, _, heqassm _ (if_pos hpr), hn1⟩
      · exact ⟨n1, t1, heqassm _ (if_neg hpr), hn1⟩
    · -- the path child is the right child; the left sibling is full
      have hright : 2 * (nd / 2 ^ (hh + 1)) + 1 = nd / 2 ^ hh := by omega
      have hsibfull : buddyIsFull (t.get! (2 * (nd / 2 ^ (hh + 1)))) = true := by
        have hs := hsib (hh + 1) (by omega) (le_refl _)
        have he : 2 * (nd / 2 ^ (hh + 1)) + (1 - nd / 2 ^ (hh + 1 - 1) % 2) =
            2 * (nd / 2 ^ (hh + 1)) := by
          have hre : hh + 1 - 1 = hh := rfl
          rw [hre, hb]
          omega
        rw [he] at hs
        exact hs
      have hlev_l : levelOf (2 * (nd / 2 ^ (hh + 1))) ≤ level := by
        have h1 := bitLen_two_mul hcur1
        have h2 : bitLen (nd / 2 ^ (hh + 1)) = level - (hh + 1) := hlevcur
        show bitLen (2 * (nd / 2 ^ (hh + 1))) ≤ level
        omega
      have hleft0 : internalAllocateBuddy t level
          (2 * (nd / 2 ^ (hh + 1))) size f = some (.ok 0, t) :=
        iab_full hsibfull hlev_l (by omega)
      have heqassm : ∀ (res : Option ((Except ErrKind Nat) × Array Int)),
          (if 0 < n1 ∧ buddyIsFull (t1.get! (2 * (nd / 2 ^ (hh + 1)))) ∧
              buddyIsFull (t1.get! (nd / 2 ^ hh)) then
            some ((.ok n1 : Except ErrKind Nat),
              t1.set! (nd / 2 ^ (hh + 1)) BUDDY_SPLT_FULL)
          else some (.ok n1, t1)) = res →
          internalAllocateBuddy t level (nd / 2 ^ (hh + 1)) size (f + 1) =
            res := by
        intro res hres
        rw [hshow, hleft0]
        show (match (if (0 : Nat) = 0 then
            internalAllocateBuddy t level (2 * (nd / 2 ^ (hh + 1)) + 1) size f
            else some (Except.ok 0, t)) with
          | none => none
          | some (Except.error e, tb) => some (Except.error e, tb)
          | some (Except.ok ret2, tb) =>
            if 0 < ret2 ∧ buddyIsFull (tb.get! (2 * (nd / 2 ^ (hh + 1)))) ∧
                buddyIsFull (tb.get! (2 * (nd / 2 ^ (hh + 1)) + 1)) then
              some (Except.ok ret2, tb.set! (nd / 2 ^ (hh + 1)) BUDDY_SPLT_FULL)
            else some (Except.ok ret2, tb)) = res
        rw [if_pos rfl, hright, heq1]
        show (if 0 < n1 ∧ buddyIsFull (t1.get! (2 * (nd / 2 ^ (hh + 1)))) ∧
            buddyIsFull (t1.get! (nd / 2 ^ hh)) then
          some (Except.ok n1, t1.set! (nd / 2 ^ (hh + 1)) BUDDY_SPLT_FULL)
          else some (Except.ok n1, t1)) = res
        exact hres
      by_cases hpr : 0 < n1 ∧
          buddyIsFull (t1.get! (2 * (nd / 2 ^ (hh + 1)))) = true ∧
          buddyIsFull (t1.get! (nd / 2 ^ hh)) = true
      · exact ⟨n1, _, heqassm _ (if_pos hpr), hn1⟩
      · exact ⟨n1, t1, heqassm _ (if_neg hpr), hn1⟩

/-- C4 (amended: the out-of-memory failure is reported as
`ws_system_error_exp` — the repository has no dedicated OutOfSpace
error kind; see `exhaustion_error_is_system_error` for the refuting
instance).  On a fresh tree, all `C/U` unit allocations succeed, the
next one fails with the System error kind leaving the tree unchanged,
and after freeing any one allocated unit region the next unit
allocation succeeds again. -/
theorem buddy_exhaustion (p : BuddyParams) (hUC : p.unitExp ≤ p.capacityExp) :
    ∃ tF : Array Int,
      allocRun p (buddyInitTree p) (p.capacity / p.unitSize) = some tF ∧
      allocate p tF p.unitSize = some (.error .systemError, tF) ∧
      (∀ offset, offset < p.capacity → offset % p.unitSize = 0 →
        ∃ tG, free p tF offset = (.ok (), tG) ∧
          ∃ off2 tH, allocate p tG p.unitSize = some (.ok off2, tH)) := by
  have htL : p.totalLevel = p.capacityExp - p.unitExp + 1 := rfl
  have hL1 : 1 ≤ p.totalLevel := by omega
  have hUpos : 1 ≤ p.unitSize := Nat.two_pow_pos _
  have hEpos : 1 ≤ 2 ^ (p.totalLevel - 1) := Nat.two_pow_pos _
  have hlev10 : levelOf 1 = 1 := by decide
  have hCU : p.capacity / p.unitSize = 2 ^ (p.totalLevel - 1) := by
    show 2 ^ p.capacityExp / 2 ^ p.unitExp = _
    rw [Nat.pow_div hUC (by omega)]
    congr 1
  have hIcell : (buddyInitTree p).get! 1 = BUDDY_IDLE := get!_mkArray_zero _ 1
  have hwfI := wfSub_idle (U := p.unitSize) hIcell (p.totalLevel - 1)
  have hszI : (buddyInitTree p).size = 2 ^ p.totalLevel := by
    unfold buddyInitTree buddyTreeCells
    simp
  have hcI : freeLeaves (buddyInitTree p) 1 (p.totalLevel - 1) =
      2 ^ (p.totalLevel - 1) := freeLeaves_idle hIcell _
  obtain ⟨tF, hrun, hszF, hwfF, hcF⟩ :=
    allocRun_spec p hUC (p.capacity / p.unitSize) (buddyInitTree p) hwfI
      (by omega) (by rw [hCU, hcI])
  have hszF2 : tF.size = 2 ^ p.totalLevel := by omega
  have hcF0 : freeLeaves tF 1 (p.totalLevel - 1) = 0 := by
    rw [hcF, hcI, hCU]
    omega
  have hpow2 : (1 + 1) * 2 ^ (p.totalLevel - 1) = 2 ^ p.totalLevel := by
    have h2 : (2 : Nat) ^ p.totalLevel = 2 ^ (p.totalLevel - 1) * 2 := by
      conv_lhs => rw [← Nat.sub_add_cancel hL1]
      rw [Nat.pow_succ]
    omega
  obtain ⟨n0, tX, heqX, hszX, hframeX, hzeroX, hposX⟩ :=
    iab_count p.totalLevel tF p.totalLevel (p.totalLevel - 1) 1 p.unitSize
      (le_refl 1) hUpos (by omega) (by omega) (by omega) hwfF
  obtain ⟨hn00, htXF⟩ := hzeroX hcF0
  subst hn00
  rw [htXF] at heqX
  have hfail : allocate p tF p.unitSize = some (.error .systemError, tF) := by
    rw [allocate_unit_eq p tF hUC, heqX]
    show (if (0 : Nat) = 0 then
        some ((.error .systemError : Except ErrKind Nat), tF)
      else some (.ok (offsetOfNode 0 p.capacity), tF)) = _
    rw [if_pos rfl]
  refine ⟨tF, hrun, hfail, ?_⟩
  intro offset hofs hmod
  have hk : offset / p.unitSize < 2 ^ (p.totalLevel - 1) := by
    rw [Nat.div_lt_iff_lt_mul (by omega : 0 < p.unitSize)]
    have hcc : 2 ^ (p.totalLevel - 1) * p.unitSize = p.capacity := by
      show 2 ^ (p.totalLevel - 1) * 2 ^ p.unitExp = 2 ^ p.capacityExp
      rw [← Nat.pow_add]
      congr 1
      omega
    omega
  have hnd_node : (p.capacity + offset) / p.unitSize =
      2 ^ (p.totalLevel - 1) + offset / p.unitSize := by
    show (2 ^ p.capacityExp + offset) / 2 ^ p.unitExp = _
    rw [show (2 : Nat) ^ p.capacityExp =
        2 ^ p.unitExp * 2 ^ (p.totalLevel - 1) from by
      rw [← Nat.pow_add]; congr 1; omega]
    exact Nat.mul_add_div (Nat.two_pow_pos _) _ _
  obtain ⟨q, hq⟩ : ∃ q, offset / p.unitSize = q := ⟨_, rfl⟩
  rw [hq] at hk hnd_node
  obtain ⟨nd, hnd⟩ : ∃ nd, nd = 2 ^ (p.totalLevel - 1) + q := ⟨_, rfl⟩
  have hnd_node2 : (p.capacity + offset) / p.unitSize = nd := by
    rw [hnd_node, hnd]
  have hndlo : 2 ^ (p.totalLevel - 1) ≤ nd := by omega
  have hndhi : nd < 2 ^ p.totalLevel := by omega
  have hndlev : levelOf nd = p.totalLevel := by
    have hb := bitLen_eq_of_bounds (n := nd) (k := p.totalLevel - 1) hndlo
      (by rw [Nat.sub_add_cancel hL1]; exact hndhi)
    show bitLen nd = p.totalLevel
    omega
  have hfd := fullDesc hUpos (p.totalLevel - 1) 1 hwfF hcF0
  have hito : ∀ j, j < 2 ^ (p.totalLevel - 1) →
      tF.get! (2 ^ (p.totalLevel - 1) + j) = Int.ofNat p.unitSize := by
    intro j hj
    have hx := (hfd (p.totalLevel - 1) j (le_refl _) hj).1 rfl
    rw [Nat.one_mul] at hx
    exact hx
  have hinterior : ∀ m j, m < p.totalLevel - 1 → j < 2 ^ m →
      tF.get! (2 ^ m + j) = BUDDY_SPLT_FULL := by
    intro m j hm hj
    have hx := (hfd m j (by omega) hj).2 hm
    rw [Nat.one_mul] at hx
    exact hx
  have hFULLof : ∀ a : Nat, 1 ≤ bitLen a → bitLen a ≤ p.totalLevel - 1 →
      tF.get! a = BUDDY_SPLT_FULL := by
    intro a h1 h2
    have ha1 : 1 ≤ a := by
      by_contra hc
      have ha0 : a = 0 := by omega
      rw [ha0] at h1
      have hz : bitLen 0 = 0 := bitLen_zero
      omega
    obtain ⟨m, hm⟩ : ∃ m, bitLen a = m + 1 := ⟨bitLen a - 1, by omega⟩
    have hlo' : 2 ^ m ≤ a := lt_bitLen_iff.mp (by omega)
    have hup' : a < 2 ^ (m + 1) := by
      have hup := bitLen_lt_two_pow a
      rw [hm] at hup
      exact hup
    have hps' := pow_succ_two m
    have hrep : a = 2 ^ m + (a - 2 ^ m) := by omega
    rw [hrep]
    exact hinterior m (a - 2 ^ m) (by omega) (by omega)
  have hndcell : tF.get! nd = Int.ofNat p.unitSize := by
    rw [hnd]
    exact hito _ hk
  have hndsz : nd < tF.size := by omega
  have hfree_eq : free p tF offset = freeBuddy p tF nd := by
    unfold free
    rw [if_neg (fun hc => hc hmod), hnd_node2]
  have hndpos : ¬ (tF.get! nd ≤ 0) := by
    rw [hndcell, Int.ofNat_eq_coe]
    omega
  set tE := tF.set! nd BUDDY_IDLE with htE
  have hfb : freeBuddy p tF nd = (.ok (), freeMergeGo tE (nd / 2) nd) := by
    unfold freeBuddy
    rw [if_neg (by omega), if_neg hndpos]
  have hszE : tE.size = tF.size := by rw [htE]; simp
  have hEnd : tE.get! nd = BUDDY_IDLE := by
    rw [htE]
    exact get!_set!_eq _ _ _ hndsz
  have hidxj : ∀ j : Nat, nd / 2 / 2 ^ j = nd / 2 ^ (j + 1) := by
    intro j
    rw [Nat.div_div_eq_div_mul, two_mul_pow_succ]
  have hanclt : ∀ j : Nat, nd / 2 ^ (j + 1) < nd := by
    intro j
    have h2 : 2 ≤ 2 ^ (j + 1) := by
      calc (2 : Nat) = 2 ^ 1 := by norm_num
        _ ≤ 2 ^ (j + 1) := Nat.pow_le_pow_right (by omega) (by omega)
    exact Nat.div_lt_self (by omega) (by omega)
  have hblanc : ∀ j : Nat, bitLen (nd / 2 ^ j) = p.totalLevel - j := by
    intro j
    rw [bitLen_div_pow, show bitLen nd = p.totalLevel from hndlev]
  obtain ⟨tG, hGfree, hGnd, hGanc, hGsib⟩ :
      ∃ tG, freeMergeGo tE (nd / 2) nd = tG ∧
        tG.get! nd = BUDDY_IDLE ∧
        (∀ j, 1 ≤ j → j ≤ p.totalLevel - 1 →
          tG.get! (nd / 2 ^ j) = BUDDY_SPLT_HALFWAY) ∧
        (∀ j, 1 ≤ j → j ≤ p.totalLevel - 1 →
          buddyIsFull (tG.get!
            (2 * (nd / 2 ^ j) + (1 - nd / 2 ^ (j - 1) % 2))) = true) := by
    rcases Nat.lt_or_ge p.totalLevel 2 with hL2 | hL2
    · -- total_level = 1: the tree is a single unit; no merge walk
      have hLe : p.totalLevel = 1 := by omega
      have h20 : (2 : Nat) ^ (p.totalLevel - 1) = 1 := by
        norm_num [hLe]
      have hnd1 : nd = 1 := by omega
      refine ⟨tE, ?_, hEnd, fun j hj1 hj2 => by omega, fun j hj1 hj2 => by omega⟩
      rw [hnd1]
      rfl
    · -- total_level ≥ 2: demote the SPLT_FULL chain above the leaf
      have hE2 : (2 : Nat) ^ (p.totalLevel - 1) = 2 * 2 ^ (p.totalLevel - 2) := by
        have h1 := two_mul_pow_succ (p.totalLevel - 2)
        rw [show p.totalLevel - 2 + 1 = p.totalLevel - 1 from by omega] at h1
        omega
      have hnd2 : 2 ≤ nd := by omega
      have hndpar : nd = 2 * (nd / 2) + nd % 2 := (Nat.div_add_mod nd 2).symm
      set s1 := 2 * (nd / 2) + (1 - nd % 2) with hs1
      have hs1b : 2 ^ (p.totalLevel - 1) ≤ s1 ∧ s1 < 2 ^ p.totalLevel ∧
          s1 ≠ nd := by omega
      have hs1leaf : tF.get! s1 = Int.ofNat p.unitSize := by
        have hrep : s1 = 2 ^ (p.totalLevel - 1) +
            (s1 - 2 ^ (p.totalLevel - 1)) := by omega
        rw [hrep]
        exact hito _ (by omega)
      have hs1ne : tF.get! s1 ≠ BUDDY_IDLE := by
        rw [hs1leaf]
        simp only [BUDDY_IDLE]
        rw [Int.ofNat_eq_coe]
        omega
      have hchild : tE.get! (2 * (nd / 2)) ≠ BUDDY_IDLE ∨
          tE.get! (2 * (nd / 2) + 1) ≠ BUDDY_IDLE := by
        rcases (by omega : nd % 2 = 0 ∨ nd % 2 = 1) with hb2 | hb2
        · right
          have he : 2 * (nd / 2) + 1 = s1 := by omega
          rw [he, htE, get!_set!_ne _ _ (fun hcon => hs1b.2.2 hcon.symm)]
          exact hs1ne
        · left
          have he : 2 * (nd / 2) = s1 := by omega
          rw [he, htE, get!_set!_ne _ _ (fun hcon => hs1b.2.2 hcon.symm)]
          exact hs1ne
      have hblp : bitLen (nd / 2) = p.totalLevel - 1 := by
        have := hblanc 1
        rw [Nat.pow_one] at this
        exact this
      have hchainE : ∀ j, j < bitLen (nd / 2) →
          tE.get! (nd / 2 / 2 ^ j) = BUDDY_SPLT_FULL := by
        intro j hj
        rw [hidxj j, htE,
          get!_set!_ne _ _ (fun he => absurd he.symm (Nat.ne_of_lt (hanclt j)))]
        exact hFULLof _ (by rw [hblanc (j + 1)]; omega)
          (by rw [hblanc (j + 1)]; omega)
      obtain ⟨tG, heqG, hszG, hchainG, hframeG⟩ :=
        freeMergeGo_chain nd tE (nd / 2) (by omega)
          (by have := Nat.div_le_self nd 2; omega)
          (by rw [hblp]; have := Nat.lt_two_pow (p.totalLevel - 1); omega)
          hchainE hchild
      have hGoff : ∀ i, i = nd ∨
          (∀ m, 1 ≤ m → m ≤ p.totalLevel - 1 → i ≠ nd / 2 ^ m) →
          True := fun _ _ => trivial
      have hframeG' : ∀ i,
          (∀ m, 1 ≤ m → m ≤ p.totalLevel - 1 → i ≠ nd / 2 ^ m) →
          tG.get! i = tE.get! i := by
        intro i hne
        refine hframeG i ?_
        intro j' hj'
        rw [hidxj j']
        exact hne (j' + 1) (by omega) (by rw [hblp] at hj'; omega)
      refine ⟨tG, heqG, ?_, ?_, ?_⟩
      · rw [hframeG' nd (fun m hm1 hm2 he => by
          have := hanclt (m - 1)
          rw [show m - 1 + 1 = m from by omega] at this
          omega)]
        exact hEnd
      · intro j hj1 hj2
        have hc := hchainG (j - 1) (by rw [hblp]; omega)
        rw [hidxj (j - 1), show j - 1 + 1 = j from by omega] at hc
        exact hc
      · intro j hj1 hj2
        obtain ⟨A, hA⟩ : ∃ A, nd / 2 ^ j = A := ⟨_, rfl⟩
        obtain ⟨B, hB⟩ : ∃ B, nd / 2 ^ (j - 1) = B := ⟨_, rfl⟩
        have hbA : bitLen A = p.totalLevel - j := by
          rw [← hA]
          exact hblanc j
        have hbB : bitLen B = p.totalLevel - (j - 1) := by
          rw [← hB]
          exact hblanc (j - 1)
        have ha1 : 1 ≤ A := by
          by_contra hc
          have h0 : A = 0 := by omega
          rw [h0] at hbA
          have hz : bitLen 0 = 0 := bitLen_zero
          omega
        have hparj : B = 2 * A + B % 2 := by
          have h1 := Nat.div_add_mod B 2
          have h2 : B / 2 = A := by
            rw [← hA, ← hB, div_two_pow_succ, show j - 1 + 1 = j from by omega]
          rw [h2] at h1
          omega
        rw [hA, hB]
        set s := 2 * A + (1 - B % 2) with hs
        have hbs : bitLen s = p.totalLevel - j + 1 := by
          rcases (by omega : B % 2 = 0 ∨ B % 2 = 1) with hb | hb
          · have he : s = 2 * A + 1 := by omega
            rw [he, bitLen_two_mul_add_one, hbA]
          · have he : s = 2 * A := by omega
            rw [he, bitLen_two_mul ha1, hbA]
        have hsne_nd : s ≠ nd := by
          rcases Nat.lt_or_ge 1 j with hj2' | hj1'
          · intro he
            rw [he, show bitLen nd = p.totalLevel from hndlev] at hbs
            omega
          · have hj1e : j = 1 := by omega
            subst hj1e
            have hB0 : B = nd := by
              rw [← hB]
              norm_num
            intro he
            omega
        have hsframe : tG.get! s = tE.get! s := by
          refine hframeG' s ?_
          intro m hm1 hm2 he
          have hbm := hblanc m
          rw [he, hbm] at hbs
          have hmj : m = j - 1 := by omega
          rw [hmj, hB] at he
          omega
        rcases Nat.lt_or_ge 1 j with hj2' | hj1'
        · -- interior sibling: SPLT_FULL
          have hcell : tF.get! s = BUDDY_SPLT_FULL :=
            hFULLof s (by omega) (by omega)
          rw [hsframe, htE,
            get!_set!_ne _ _ (fun hcon => hsne_nd hcon.symm), hcell]
          decide
        · -- leaf sibling: an allocated unit cell
          have hj1e : j = 1 := by omega
          subst hj1e
          have hB0 : B = nd := by
            rw [← hB]
            norm_num
          have hA0 : A = nd / 2 := by
            rw [← hA, Nat.pow_one]
          have hse : s = s1 := by
            rw [hs, hs1, hA0, hB0]
          rw [hsframe, htE,
            get!_set!_ne _ _ (fun hcon => hsne_nd hcon.symm), hse, hs1leaf]
          exact buddyIsFull_ofNat hUpos
  have hroot : nd / 2 ^ (p.totalLevel - 1) = 1 := by
    have hb1 : bitLen (nd / 2 ^ (p.totalLevel - 1)) = 1 := by
      rw [hblanc (p.totalLevel - 1)]
      omega
    have hlo1 : 2 ^ 0 ≤ nd / 2 ^ (p.totalLevel - 1) :=
      lt_bitLen_iff.mp (by omega)
    have hhi1 := bitLen_lt_two_pow (nd / 2 ^ (p.totalLevel - 1))
    rw [hb1] at hhi1
    have e0 : (2 : Nat) ^ 0 = 1 := rfl
    have e1 : (2 : Nat) ^ 1 = 2 := rfl
    omega
  obtain ⟨nA, tH, heqA, hnA⟩ := iab_path (p.totalLevel - 1) tG p.totalLevel nd
    p.unitSize p.totalLevel (by omega) hndlev (le_refl _) (by omega)
    hGnd hGanc hGsib
  rw [hroot] at heqA
  have hsucc : allocate p tG p.unitSize =
      some (.ok (offsetOfNode nA p.capacity), tH) := by
    rw [allocate_unit_eq p tG hUC, heqA]
    show (if nA = 0 then some ((.error .systemError : Except ErrKind Nat), tH)
      else some (.ok (offsetOfNode nA p.capacity), tH)) = _
    rw [if_neg (by omega)]
  exact ⟨tG, by rw [hfree_eq, hfb, hGfree],
    ⟨offsetOfNode nA p.capacity, tH, hsucc⟩⟩

/-- C4 counterexample: with `C = 4, U = 1` the four unit allocations
succeed and exhaust the tree, and the fifth reports the *System* error
kind (`ws_system_error_exp("... runs out of memory.")`) — the
repository has no OutOfSpace error kind distinct from the System
errors, refuting the claimed error classification. -/
theorem exhaustion_error_is_system_error :
    allocRun ⟨2, 0⟩ (buddyInitTree ⟨2, 0⟩) 4 =
      some #[0, -2, -2, -2, 1, 1, 1, 1] ∧
    allocate ⟨2, 0⟩ #[0, -2, -2, -2, 1, 1, 1, 1] (BuddyParams.unitSize ⟨2, 0⟩) =
      some (.error .systemError, #[0, -2, -2, -2, 1, 1, 1, 1]) ∧
    free ⟨2, 0⟩ #[0, -2, -2, -2, 1, 1, 1, 1] 2 =
      (.ok (), #[0, -1, -2, -1, 1, 1, 0, 1]) ∧
    allocate ⟨2, 0⟩ #[0, -1, -2, -1, 1, 1, 0, 1] (BuddyParams.unitSize ⟨2, 0⟩) =
      some (.ok 2, #[0, -2, -2, -2, 1, 1, 1, 1]) :=
  ⟨rfl, rfl, rfl, rfl⟩

/-- C8 counterexample: the header does *not* hold the caller's
attribute block — `rbh->info.attribute.id = shmid` unconditionally
overwrites the caller's `id` field (42 here) with the kernel's segment
id (7 here), beyond the key substitution the claim allows for. -/
theorem create_ring_buffer_overwrites_id :
    createRingBuffer ⟨0, 42, 4096, 4, 2, false, false⟩ 7 123 =
      .ok (⟨⟨123, 7, 4096, 4, 2, false, false⟩, ⟨0, 0, false, false⟩⟩, 123) ∧
    (7 : Int) ≠ 42 ∧
    (⟨123, 7, 4096, 4, 2, false, false⟩ : RBAttr) ≠
      ⟨123, 42, 4096, 4, 2, false, false⟩ :=
  ⟨rfl, by decide, by decide⟩

/-- C8 (amended: the stored attribute block is the caller's with *both*
`id` replaced by the kernel-assigned segment id and `key` replaced by
the kernel-reported key — unconditionally, not only when the caller
supplied key `0`).  The state block of the fresh zero-filled segment is
zeroed: `head = 0`, `tail = 0`, both locks `false`. -/
theorem create_ring_buffer_header (attr : RBAttr) (shmid statKey : Int)
    (he : isPow2 attr.entrySize = true)
    (hc : isPow2 attr.capacity = true)
    (hp : attr.pageSize = 4096 ∨ attr.pageSize = 2097152 ∨
      attr.pageSize = 1073741824) :
    createRingBuffer attr shmid statKey =
      .ok (⟨⟨statKey, shmid, attr.pageSize, attr.capacity, attr.entrySize,
        attr.multipleConsumer, attr.multipleProducer⟩,
        ⟨0, 0, false, false⟩⟩, statKey) := by
  unfold createRingBuffer
  rw [if_neg (by rw [he]; decide), if_neg (by rw [hc]; decide),
    if_neg (not_not_intro hp)]
  rfl

/-- Instance of the amended header law on a valid attribute block. -/
theorem create_ring_buffer_header_witness :
    isPow2 (2 : Nat) = true ∧ isPow2 (4 : Nat) = true ∧
    ((4096 : Nat) = 4096 ∨ (4096 : Nat) = 2097152 ∨
      (4096 : Nat) = 1073741824) ∧
    createRingBuffer ⟨5, 9, 4096, 4, 2, true, false⟩ 7 123 =
      .ok (⟨⟨123, 7, 4096, 4, 2, true, false⟩, ⟨0, 0, false, false⟩⟩, 123) :=
  ⟨by decide, by decide, by decide,
    create_ring_buffer_header ⟨5, 9, 4096, 4, 2, true, false⟩ 7 123
      (by decide) (by decide) (by decide)⟩

/-- C9 counterexample: on an exhausted tree the buddy call raises the
System error kind, but `VAW::allocate`'s
`catch (ws_exp& ex) { flock(fd, LOCK_UN); throw ex; }` re-throws the
caught object by its static type `ws_exp`, so the caller receives the
sliced base kind — not the original error unchanged.  The locks are
nonetheless released in LIFO order. -/
theorem vaw_allocate_error_sliced :
    allocate ⟨2, 0⟩ #[0, -2, -2, -2, 1, 1, 1, 1] (BuddyParams.unitSize ⟨2, 0⟩) =
      some (.error .systemError, #[0, -2, -2, -2, 1, 1, 1, 1]) ∧
    vawAllocate ⟨2, 0⟩ #[0, -2, -2, -2, 1, 1, 1, 1]
        (BuddyParams.unitSize ⟨2, 0⟩) =
      some (.error .base, #[0, -2, -2, -2, 1, 1, 1, 1],
        [.acqMutex, .acqFile true, .relFile, .relMutex]) ∧
    ErrKind.base ≠ ErrKind.systemError :=
  ⟨rfl, rfl, by decide⟩

/-- C9 (amended: lock acquisitions and releases are balanced on every
path — the `lock_guard` mutex and the advisory file lock are released
in reverse order even when the buddy-tree call throws — but the error
that reaches the caller is *not* the original one unchanged: `throw ex`
slices it to the base `ws_exp`). -/
theorem vaw_lock_discipline (p : BuddyParams) (t : Array Int) (ps off : Nat) :
    (∀ r t' tr, vawAllocate p t ps = some (r, t', tr) →
      lockBalanced tr = true) ∧
    (∀ r t' tr, vawFree p t off = (r, t', tr) → lockBalanced tr = true) ∧
    (∀ e t', allocate p t ps = some (.error e, t') →
      isPow2 ps = true → ps ≤ p.capacity → p.unitSize ≤ ps →
      vawAllocate p t ps = some (.error .base, t',
        [.acqMutex, .acqFile true, .relFile, .relMutex])) ∧
    (∀ e t', free p t off = (.error e, t') →
      off % p.unitSize = 0 → off ≤ p.capacity →
      vawFree p t off = (.error .base, t',
        [.acqMutex, .acqFile true, .relFile, .relMutex])) := by
  refine ⟨?_, ?_, ?_, ?_⟩
  · intro r t' tr h
    unfold vawAllocate at h
    by_cases hv : isPow2 ps = true ∧ ps ≤ p.capacity ∧ p.unitSize ≤ ps
    · rw [if_neg (not_not_intro hv)] at h
      rcases halloc : allocate p t ps with _ | ⟨re, ta⟩ <;> rw [halloc] at h
      · exact absurd h (by simp)
      · rcases re with e | off2
        · replace h : some ((.error .base : Except ErrKind Nat), ta,
              [LockEv.acqMutex, LockEv.acqFile true, LockEv.relFile,
                LockEv.relMutex]) = some (r, t', tr) := h
          cases Option.some.inj h
          decide
        · replace h : some ((.ok off2 : Except ErrKind Nat), ta,
              [LockEv.acqMutex, LockEv.acqFile true, LockEv.relFile,
                LockEv.relMutex]) = some (r, t', tr) := h
          cases Option.some.inj h
          decide
    · rw [if_pos hv] at h
      cases Option.some.inj h
      decide
  · intro r t' tr h
    unfold vawFree at h
    by_cases hm : off % p.unitSize = 0
    · rw [if_neg (not_not_intro hm)] at h
      by_cases hcap : off > p.capacity
      · rw [if_pos hcap] at h
        cases h
        decide
      · rw [if_neg hcap] at h
        rcases hfr : free p t off with ⟨re, ta⟩
        rw [hfr] at h
        rcases re with e | u
        · replace h : ((.error .base : Except ErrKind Unit), ta,
              [LockEv.acqMutex, LockEv.acqFile true, LockEv.relFile,
                LockEv.relMutex]) = (r, t', tr) := h
          cases h
          decide
        · replace h : ((.ok () : Except ErrKind Unit), ta,
              [LockEv.acqMutex, LockEv.acqFile true, LockEv.relFile,
                LockEv.relMutex]) = (r, t', tr) := h
          cases h
          decide
    · rw [if_pos hm] at h
      cases h
      decide
  · intro e t' hae hp1 hp2 hp3
    unfold vawAllocate
    rw [if_neg (not_not_intro ⟨hp1, hp2, hp3⟩), hae]
  · intro e t' hfr hmod hcap
    unfold vawFree
    rw [if_neg (not_not_intro hmod), if_neg (Nat.not_lt.mpr hcap), hfr]

/-- Instance of the lock-discipline law on the exhausted `C = 4, U = 1`
tree: the sliced error surfaces and the recorded trace is balanced. -/
theorem vaw_lock_discipline_witness :
    vawAllocate ⟨2, 0⟩ #[0, -2, -2, -2, 1, 1, 1, 1] 1 =
      some (.error .base, #[0, -2, -2, -2, 1, 1, 1, 1],
        [.acqMutex, .acqFile true, .relFile, .relMutex]) ∧
    lockBalanced [.acqMutex, .acqFile true, .relFile, .relMutex] = true :=
  ⟨rfl, (vaw_lock_discipline ⟨2, 0⟩ #[0, -2, -2, -2, 1, 1, 1, 1] 1 0).1
    _ _ _ rfl⟩

theorem queryGo_readonly (cap : Nat) (t : Array Int) :
    ∀ (fuel root li nl : Nat) (res : Except ErrKind (Nat × Int))
      (t' : Array Int),
      queryGo cap t root li nl fuel = some (res, t') → t' = t := by
  intro fuel
  induction fuel with
  | zero =>
    intro root li nl res t' h
    simp only [queryGo] at h
    exact Option.noConfusion h
  | succ f ih =>
    intro root li nl res t' h
    simp only [queryGo] at h
    by_cases h1 : (t.get! root == BUDDY_SPLT_FULL ||
        t.get! root == BUDDY_SPLT_HALFWAY) = true
    · rw [if_pos h1] at h
      by_cases h2 : li < nl / 2
      · rw [if_pos h2] at h
        exact ih _ _ _ _ _ h
      · rw [if_neg h2] at h
        exact ih _ _ _ _ _ h
    · rw [if_neg h1] at h
      by_cases h3 : (t.get! root == BUDDY_IDLE) = true
      · rw [if_pos h3] at h
        cases Option.some.inj h
        rfl
      · rw [if_neg h3] at h
        cases Option.some.inj h
        rfl

theorem internalIsFree_readonly (cap : Nat) :
    ∀ (fuel : Nat) (t : Array Int) (cur off sz : Nat) (b : Bool)
      (t' : Array Int),
      internalIsFree cap t cur off sz fuel = some (b, t') → t' = t := by
  intro fuel
  induction fuel with
  | zero =>
    intro t cur off sz b t' h
    simp only [internalIsFree] at h
    exact Option.noConfusion h
  | succ f ih =>
    intro t cur off sz b t' h
    simp only [internalIsFree] at h
    by_cases h1 : (t.get! cur == BUDDY_IDLE) = true
    · rw [if_pos h1] at h
      cases Option.some.inj h
      rfl
    · rw [if_neg h1] at h
      by_cases h2 : buddyIsFull (t.get! cur) = true
      · rw [if_pos h2] at h
        cases Option.some.inj h
        rfl
      · rw [if_neg h2] at h
        by_cases h3 : off + sz ≤ offsetOfNode (2 * cur + 1) cap
        · rw [if_pos h3] at h
          exact ih _ _ _ _ _ _ h
        · rw [if_neg h3] at h
          by_cases h4 : off ≥ offsetOfNode (2 * cur + 1) cap
          · rw [if_pos h4] at h
            exact ih _ _ _ _ _ _ h
          · rw [if_neg h4] at h
            rcases hc1 : internalIsFree cap t (2 * cur) off
                (offsetOfNode (2 * cur + 1) cap - off) f with _ | ⟨b1, t1⟩ <;>
              rw [hc1] at h
            · exact Option.noConfusion h
            · have ht1 : t1 = t := ih _ _ _ _ _ _ hc1
              cases b1 with
              | false =>
                replace h : some (false, t1) = some (b, t') := h
                cases Option.some.inj h
                exact ht1
              | true =>
                replace h : (match internalIsFree cap t1 (2 * cur + 1)
                    (offsetOfNode (2 * cur + 1) cap)
                    (off + sz - offsetOfNode (2 * cur + 1) cap) f with
                  | none => none
                  | some (b2, t2) => some (b2, t2)) = some (b, t') := h
                rcases hc2 : internalIsFree cap t1 (2 * cur + 1)
                    (offsetOfNode (2 * cur + 1) cap)
                    (off + sz - offsetOfNode (2 * cur + 1) cap) f with
                  _ | ⟨b2, t2⟩ <;> rw [hc2] at h
                · exact Option.noConfusion h
                · have ht2 : t2 = t1 := ih _ _ _ _ _ _ hc2
                  replace h : some (b2, t2) = some (b, t') := h
                  cases Option.some.inj h
                  exact ht2.trans ht1

/-- C10: `BuddySystem::query` and `BuddySystem::is_free` are read-only
— whatever they return (a value or a thrown error), the tree array
after the call is the tree array before it. -/
theorem query_isFree_readonly (p : BuddyParams) (t : Array Int)
    (off sz : Nat) :
    (∀ res t', query p t off = some (res, t') → t' = t) ∧
    (∀ res t', isFree p t off sz = some (res, t') → t' = t) := by
  constructor
  · intro res t' h
    unfold query at h
    exact queryGo_readonly p.capacity t _ _ _ _ _ _ h
  · intro res t' h
    unfold isFree at h
    by_cases h1 : off + sz > p.capacity
    · rw [if_pos h1] at h
      cases Option.some.inj h
      rfl
    · rw [if_neg h1] at h
      rcases hc : internalIsFree p.capacity t 1 off sz p.totalLevel with
        _ | ⟨b, t1⟩ <;> rw [hc] at h
      · exact Option.noConfusion h
      · have ht1 := internalIsFree_readonly p.capacity p.totalLevel t 1 off sz
          b t1 hc
        replace h : some ((.ok b : Except ErrKind Bool), t1) =
          some (res, t') := h
        cases Option.some.inj h
        exact ht1

/-- Instance of the read-only law: a query inside an allocated block on
the exhausted `C = 4, U = 1` tree returns with the tree untouched. -/
theorem query_isFree_readonly_witness :
    query ⟨2, 0⟩ #[0, -2, -2, -2, 1, 1, 1, 1] 2 =
      some (.ok (2, 1), #[0, -2, -2, -2, 1, 1, 1, 1]) ∧
    (#[0, -2, -2, -2, 1, 1, 1, 1] : Array Int) =
      #[0, -2, -2, -2, 1, 1, 1, 1] :=
  ⟨rfl, (query_isFree_readonly ⟨2, 0⟩ #[0, -2, -2, -2, 1, 1, 1, 1] 2 1).1
    (.ok (2, 1)) _ rfl⟩

/-- Instance of the amended exhaustion law at `C = 4, U = 1`. -/
theorem buddy_exhaustion_witness :
    (0 : Nat) ≤ 2 ∧
    ∃ tF : Array Int,
      allocRun ⟨2, 0⟩ (buddyInitTree ⟨2, 0⟩)
        (BuddyParams.capacity ⟨2, 0⟩ / BuddyParams.unitSize ⟨2, 0⟩) = some tF ∧
      allocate ⟨2, 0⟩ tF (BuddyParams.unitSize ⟨2, 0⟩) =
        some (.error .systemError, tF) ∧
      (∀ offset, offset < BuddyParams.capacity ⟨2, 0⟩ →
        offset % BuddyParams.unitSize ⟨2, 0⟩ = 0 →
        ∃ tG, free ⟨2, 0⟩ tF offset = (.ok (), tG) ∧
          ∃ off2 tH, allocate ⟨2, 0⟩ tG (BuddyParams.unitSize ⟨2, 0⟩) =
            some (.ok off2, tH)) :=
  ⟨by decide, buddy_exhaustion ⟨2, 0⟩ (by decide)⟩

end Wsong
